import Mathlib

/-!
Verification of the go-alfred-prs workflow (github.com/AndreyBozhko/go-alfred-prs)
against its natural-language specification.

The Go sources are shallowly embedded: pure functions become Lean functions,
stateful methods become explicit state passing, and calls into external
libraries are modelled at the library's documented behaviour.  In particular
`sort.Slice` (used by `deduplicateAndSort` in src/utils.go) is embedded as the
pattern-defeating quicksort of Go 1.19's sort package (src/sort/zsortfunc.go,
the version pinned by the repository's go.mod), specialised to the comparator
`func(i, j int) bool { return result[i].UpdatedAt.After(*result[j].UpdatedAt) }`.
All loops are translated to structurally recursive functions on an explicit
iteration budget that is at least the exact number of iterations the Go loop
performs, so every definition evaluates by kernel reduction.
-/

namespace S2P

/-- A pull-request record as used by `deduplicateAndSort` (src/utils.go):
`id` models `*github.Issue.ID` (int64), `t` models the `UpdatedAt` timestamp
(`time.Time`, linearly ordered; `After` is strict `>`). -/
structure PR where
  id : Int
  t : Int
deriving DecidableEq, Repr

instance : Inhabited PR := ⟨⟨0, 0⟩⟩

/-- Element read `data[i]`; Go's sort accesses only in-bounds indices, the
default is never observable in the algorithm's runs. -/
def getE (l : List PR) (i : Nat) : PR := l.getD i default

/-- The reflect-based swapper used by `sort.Slice`: exchange positions `i` and `j`. -/
def swapE (l : List PR) (i j : Nat) : List PR := (l.set i (getE l j)).set j (getE l i)

/-- Go's `data.Less(x, y)` for the closure in `deduplicateAndSort`:
`result[x].UpdatedAt.After(*result[y].UpdatedAt)`, i.e. `t x > t y`. -/
def lessIdx (l : List PR) (x y : Nat) : Prop := (getE l y).t < (getE l x).t

instance (l : List PR) (x y : Nat) : Decidable (lessIdx l x y) := by
  unfold lessIdx; infer_instance

/-- Inner loop of `insertionSortLessFunc`: bubble the element at `j` left while
`j > a && data.Less(j, j-1)`. -/
def insInner (a : Nat) : Nat → Nat → List PR → List PR
  | 0, _, l => l
  | fuel+1, j, l =>
    if a < j ∧ lessIdx l j (j-1) then insInner a fuel (j-1) (swapE l j (j-1)) else l

/-- Outer loop of `insertionSortLessFunc`: `for i := a + 1; i < b; i++`. -/
def insOuter (a b : Nat) : Nat → Nat → List PR → List PR
  | 0, _, l => l
  | fuel+1, i, l => if i < b then insOuter a b fuel (i+1) (insInner a i i l) else l

/-- `insertionSortLessFunc(data, a, b)` from Go 1.19 sort. -/
def insertionSort (l : List PR) (a b : Nat) : List PR := insOuter a b (b - a) (a+1) l

/-- `siftDownLessFunc(data, lo, hi, first)`; `root` starts at `lo`, the fuel
bounds the number of descents (`root` strictly increases below `hi`). -/
def siftDown (first hi : Nat) : Nat → Nat → List PR → List PR
  | 0, _, l => l
  | fuel+1, root, l =>
    let child0 := 2*root + 1
    if child0 ≥ hi then l
    else
      let child := if child0 + 1 < hi ∧ lessIdx l (first+child0) (first+child0+1) then child0 + 1 else child0
      if lessIdx l (first+root) (first+child) then
        siftDown first hi fuel child (swapE l (first+root) (first+child))
      else l

/-- First loop of `heapSortLessFunc`: `for i := (hi-1)/2; i >= 0; i--`;
`cnt` counts the remaining iterations, the current `i` is `cnt - 1`. -/
def heapBuild (first hi : Nat) : Nat → List PR → List PR
  | 0, l => l
  | cnt+1, l => heapBuild first hi cnt (siftDown first hi hi cnt l)

/-- Second loop of `heapSortLessFunc`: `for i := hi-1; i >= 0; i--`
with `Swap(first, first+i); siftDown(data, 0, i, first)`. -/
def heapPop (first : Nat) : Nat → List PR → List PR
  | 0, l => l
  | cnt+1, l => heapPop first cnt (siftDown first cnt cnt 0 (swapE l first (first+cnt)))

/-- `heapSortLessFunc(data, a, b)` from Go 1.19 sort. -/
def heapSort (l : List PR) (a b : Nat) : List PR :=
  heapPop a (b - a) (heapBuild a (b - a) ((b - a - 1)/2 + 1) l)

/-- `reverseRangeLessFunc(data, a, b)`. -/
def revLoop : Nat → Nat → Nat → List PR → List PR
  | 0, _, _, l => l
  | fuel+1, i, j, l => if i < j then revLoop fuel (i+1) (j-1) (swapE l i j) else l

/-- Wrapper for `reverseRangeLessFunc`. -/
def reverseRange (l : List PR) (a b : Nat) : List PR := revLoop (b - a) a (b - 1) l

/-- Marsaglia xorshift step on 64-bit words, `xorshift.Next` of Go's sort. -/
def xorshiftStep (r : Nat) : Nat :=
  let r1 := (r ^^^ (r <<< 13)) % 2^64
  let r2 := (r1 ^^^ (r1 >>> 7)) % 2^64
  (r2 ^^^ (r2 <<< 17)) % 2^64

/-- Halving recursion for `bits.Len`; the fuel dominates the bit count. -/
def bitsLenAux : Nat → Nat → Nat
  | 0, _ => 0
  | fuel+1, n => if n = 0 then 0 else bitsLenAux fuel (n / 2) + 1

/-- `bits.Len(uint(n))`: number of bits needed to represent `n`. -/
def bitsLen (n : Nat) : Nat := bitsLenAux n n

/-- `breakPatternsLessFunc(data, a, b)`: three pseudo-random swaps seeded with
the range length (only for ranges of length at least 8; pdqsort only calls it
on such ranges). -/
def breakPatterns (l : List PR) (a b : Nat) : List PR :=
  let len := b - a
  if len ≥ 8 then
    let modulus := 2 ^ (bitsLen len)
    let idx := a + (len / 4) * 2 - 1
    let r1 := xorshiftStep len
    let o1 := let o := r1 % modulus; if o ≥ len then o - len else o
    let l1 := swapE l (idx - 1) (a + o1)
    let r2 := xorshiftStep r1
    let o2 := let o := r2 % modulus; if o ≥ len then o - len else o
    let l2 := swapE l1 idx (a + o2)
    let r3 := xorshiftStep r2
    let o3 := let o := r3 % modulus; if o ≥ len then o - len else o
    swapE l2 (idx + 1) (a + o3)
  else l

/-- The `sortedHint` of Go's pdqsort. -/
inductive Hint where
  | increasing
  | decreasing
  | unknown
deriving DecidableEq, Repr

/-- `order2LessFunc(data, a, b, &swaps)`. -/
def order2 (l : List PR) (a b swaps : Nat) : Nat × Nat × Nat :=
  if lessIdx l b a then (b, a, swaps + 1) else (a, b, swaps)

/-- `medianLessFunc(data, a, b, c, &swaps)`. -/
def median (l : List PR) (a b c swaps : Nat) : Nat × Nat :=
  let p1 := order2 l a b swaps
  let p2 := order2 l p1.2.1 c p1.2.2
  let p3 := order2 l p1.1 p2.1 p2.2.2
  (p3.2.1, p3.2.2)

/-- `medianAdjacentLessFunc(data, a, &swaps)`. -/
def medianAdjacent (l : List PR) (x swaps : Nat) : Nat × Nat :=
  median l (x-1) x (x+1) swaps

/-- `choosePivotLessFunc(data, a, b)`: pivot index and sortedness hint. -/
def choosePivot (l : List PR) (a b : Nat) : Nat × Hint :=
  let len := b - a
  let i := a + len/4 * 1
  let j := a + len/4 * 2
  let k := a + len/4 * 3
  let js : Nat × Nat :=
    if len ≥ 8 then
      if len ≥ 50 then
        let pi := medianAdjacent l i 0
        let pj := medianAdjacent l j pi.2
        let pk := medianAdjacent l k pj.2
        median l pi.1 pj.1 pk.1 pk.2
      else median l i j k 0
    else (j, 0)
  if js.2 = 0 then (js.1, Hint.increasing)
  else if js.2 = 12 then (js.1, Hint.decreasing)
  else (js.1, Hint.unknown)

/-- Scan of `partialInsertionSortLessFunc`: `for i < b && !data.Less(i, i-1) { i++ }`. -/
def scanUp (b : Nat) : Nat → Nat → List PR → Nat
  | 0, i, _ => i
  | fuel+1, i, l => if i < b ∧ ¬ lessIdx l i (i-1) then scanUp b fuel (i+1) l else i

/-- Left shift of `partialInsertionSortLessFunc`:
`for j := i - 1; j >= 1; j-- { if !data.Less(j, j-1) break; Swap(j, j-1) }`. -/
def shiftLeft : Nat → Nat → List PR → List PR
  | 0, _, l => l
  | fuel+1, j, l =>
    if 1 ≤ j ∧ lessIdx l j (j-1) then shiftLeft fuel (j-1) (swapE l j (j-1)) else l

/-- Right shift of `partialInsertionSortLessFunc`:
`for j := i + 1; j < b; j++ { if !data.Less(j, j-1) break; Swap(j, j-1) }`. -/
def shiftRight (b : Nat) : Nat → Nat → List PR → List PR
  | 0, _, l => l
  | fuel+1, j, l =>
    if j < b ∧ lessIdx l j (j-1) then shiftRight b fuel (j+1) (swapE l j (j-1)) else l

/-- Outer loop of `partialInsertionSortLessFunc` (`maxSteps = 5` attempts,
`shortestShifting = 50`). -/
def piLoop (a b : Nat) : Nat → Nat → List PR → Bool × List PR
  | 0, _, l => (false, l)
  | steps+1, i, l =>
    let i' := scanUp b b i l
    if i' = b then (true, l)
    else if b - a < 50 then (false, l)
    else
      let l1 := swapE l i' (i'-1)
      let l2 := if i' - a ≥ 2 then shiftLeft (i'-1) (i'-1) l1 else l1
      let l3 := if b - i' ≥ 2 then shiftRight b (b - (i'+1)) (i'+1) l2 else l2
      piLoop a b steps i' l3

/-- `partialInsertionSortLessFunc(data, a, b)`: partially sorts, returns
whether the range ended up sorted. -/
def partialInsertionSort (l : List PR) (a b : Nat) : Bool × List PR :=
  piLoop a b 5 (a+1) l

/-- The `i`-scan of `partitionLessFunc`: `for i <= j && data.Less(i, a) { i++ }`. -/
def partScanI (l : List PR) (a j : Nat) : Nat → Nat → Nat
  | 0, i => i
  | fuel+1, i => if i ≤ j ∧ lessIdx l i a then partScanI l a j fuel (i+1) else i

/-- The `j`-scan of `partitionLessFunc`: `for i <= j && !data.Less(j, a) { j-- }`. -/
def partScanJ (l : List PR) (a i : Nat) : Nat → Nat → Nat
  | 0, j => j
  | fuel+1, j => if i ≤ j ∧ ¬ lessIdx l j a then partScanJ l a i fuel (j-1) else j

/-- Main loop of `partitionLessFunc` after the unrolled first round. -/
def partLoop (a b : Nat) : Nat → Nat → Nat → List PR → Nat × List PR
  | 0, _, j, l => (j, l)
  | fuel+1, i, j, l =>
    let i' := partScanI l a j b i
    let j' := partScanJ l a i' b j
    if i' > j' then (j', l)
    else partLoop a b fuel (i'+1) (j'-1) (swapE l i' j')

/-- `partitionLessFunc(data, a, b, pivot)`: returns the new pivot position,
the `alreadyPartitioned` flag and the rearranged data. -/
def partitionGo (l : List PR) (a b pivot : Nat) : Nat × Bool × List PR :=
  let l0 := swapE l a pivot
  let i := partScanI l0 a (b-1) b (a+1)
  let j := partScanJ l0 a i b (b-1)
  if i > j then (j, true, swapE l0 j a)
  else
    let l1 := swapE l0 i j
    let jl := partLoop a b b (i+1) (j-1) l1
    (jl.1, false, swapE jl.2 jl.1 a)

/-- The `i`-scan of `partitionEqualLessFunc`: `for i <= j && !data.Less(a, i) { i++ }`. -/
def peScanI (l : List PR) (a j : Nat) : Nat → Nat → Nat
  | 0, i => i
  | fuel+1, i => if i ≤ j ∧ ¬ lessIdx l a i then peScanI l a j fuel (i+1) else i

/-- The `j`-scan of `partitionEqualLessFunc`: `for i <= j && data.Less(a, j) { j-- }`. -/
def peScanJ (l : List PR) (a i : Nat) : Nat → Nat → Nat
  | 0, j => j
  | fuel+1, j => if i ≤ j ∧ lessIdx l a j then peScanJ l a i fuel (j-1) else j

/-- Main loop of `partitionEqualLessFunc`. -/
def peLoop (a b : Nat) : Nat → Nat → Nat → List PR → Nat × List PR
  | 0, i, _, l => (i, l)
  | fuel+1, i, j, l =>
    let i' := peScanI l a j b i
    let j' := peScanJ l a i' b j
    if i' > j' then (i', l)
    else peLoop a b fuel (i'+1) (j'-1) (swapE l i' j')

/-- `partitionEqualLessFunc(data, a, b, pivot)`: moves elements equal to the
pivot to the front of the range, returns the first index of the greater part. -/
def partitionEqualGo (l : List PR) (a b pivot : Nat) : Nat × List PR :=
  peLoop a b b (a+1) (b-1) (swapE l a pivot)

/-- `pdqsortLessFunc(data, a, b, limit)` of Go 1.19 sort: the main loop is the
recursion on the iteration budget `fuel`; `wb`/`wp` are `wasBalanced` and
`wasPartitioned` (fresh recursive invocations restart them at `true`). -/
def pdqsort : Nat → Nat → Nat → Nat → Bool → Bool → List PR → List PR
  | 0, _, _, _, _, _, l => l
  | fuel+1, a, b, limit, wb, wp, l =>
    let length := b - a
    if length ≤ 12 then insertionSort l a b
    else if limit = 0 then heapSort l a b
    else
      let bl := if ¬ wb then (breakPatterns l a b, limit - 1) else (l, limit)
      let l0 := bl.1
      let limit := bl.2
      let ph := choosePivot l0 a b
      let rph :=
        if ph.2 = Hint.decreasing then
          (reverseRange l0 a b, (b-1) - (ph.1 - a), Hint.increasing)
        else (l0, ph.1, ph.2)
      let l1 := rph.1
      let pivot := rph.2.1
      let hint := rph.2.2
      let sl :=
        if wb ∧ wp ∧ hint = Hint.increasing then partialInsertionSort l1 a b
        else (false, l1)
      if sl.1 then sl.2
      else
        let l2 := sl.2
        if 0 < a ∧ ¬ lessIdx l2 (a-1) pivot then
          let ml := partitionEqualGo l2 a b pivot
          pdqsort fuel ml.1 b limit wb wp ml.2
        else
          let mal := partitionGo l2 a b pivot
          let mid := mal.1
          let wp' := mal.2.1
          let l3 := mal.2.2
          let wb' := decide (min (mid - a) (b - mid) ≥ length / 8)
          if mid - a < b - mid then
            pdqsort fuel (mid+1) b limit wb' wp' (pdqsort fuel a mid limit true true l3)
          else
            pdqsort fuel a mid limit wb' wp' (pdqsort fuel (mid+1) b limit true true l3)

/-- `sort.Slice(result, less)` of Go 1.19: `limit := bits.Len(uint(length))`. -/
def sortSlice (l : List PR) : List PR :=
  pdqsort (l.length + 1) 0 l.length (bitsLen l.length) true true l

/-- The first pass of `deduplicateAndSort` (src/utils.go lines 135-141): keep
the first record for each `ID` using the `seen` set. -/
def dedupGo : List PR → List Int → List PR
  | [], _ => []
  | x :: xs, seen =>
    if x.id ∈ seen then dedupGo xs seen else x :: dedupGo xs (x.id :: seen)

/-- `deduplicateAndSort` (src/utils.go lines 132-148): deduplicate by `ID`
(first occurrence wins), then `sort.Slice` by `UpdatedAt` descending. -/
def deduplicateAndSort (l : List PR) : List PR := sortSlice (dedupGo l [])

/-! Review-state resolution, `parseReviewState` (src/utils.go lines 151-176). -/

/-- A `github.PullRequestReview` as the function reads it: reviewer login,
review state, submission time.  The integer `0` models the zero `time.Time`
that `GetSubmittedAt` returns for the zero review value (any actually
submitted review is dated after it). -/
structure Review where
  login : String
  state : String
  submittedAt : Int
deriving DecidableEq, Repr

/-- Association-list lookup, modelling reads of the Go `seen` map. -/
def lookupR : List (String × Review) → String → Option Review
  | [], _ => none
  | (k, v) :: rest, u => if k = u then some v else lookupR rest u

/-- `GetSubmittedAt` on the value read from the map: the zero review gives the
zero time, modelled by `0`. -/
def getSubmittedAt : Option Review → Int
  | none => 0
  | some r => r.submittedAt

/-- Association-list insert-or-replace, modelling writes to the Go `seen` map
(the map's contents are deterministic; only its iteration order is not). -/
def upsertR : List (String × Review) → String → Review → List (String × Review)
  | [], u, r => [(u, r)]
  | (k, v) :: rest, u, r => if k = u then (u, r) :: rest else (k, v) :: upsertR rest u r

/-- The first loop of `parseReviewState`: skip `COMMENTED` reviews, keep per
login the review with the strictly latest submission time. -/
def buildReviewSeen : List Review → List (String × Review) → List (String × Review)
  | [], m => m
  | r :: rest, m =>
    if r.state = "COMMENTED" then buildReviewSeen rest m
    else if getSubmittedAt (lookupR m r.login) < r.submittedAt then
      buildReviewSeen rest (upsertR m r.login r)
    else buildReviewSeen rest m

/-- The `mapping` lookup of `parseReviewState`: a missing key yields `""`. -/
def reviewSymbol (state : String) : String :=
  if state = "APPROVED" then "✅"
  else if state = "CHANGES_REQUESTED" then "❌"
  else ""

/-- The symbols the second loop of `parseReviewState` emits, one per surviving
map entry.  Go iterates the map in a randomized order, so only the multiset of
emitted symbols is defined behaviour (the embedding fixes first-insertion
order); every property proved about it is order-insensitive. -/
def reviewSymbols (reviews : List Review) : List String :=
  (buildReviewSeen reviews []).map (fun p => reviewSymbol p.2.state)

/-- `parseReviewState` (src/utils.go lines 151-176). -/
def parseReviewState (reviews : List Review) : String :=
  String.join (reviewSymbols reviews)

/-- Reference recursion for the claims: the surviving review of login `u` —
the first-encountered review among `u`'s non-`COMMENTED` reviews with a
strictly maximal submission time (submission times are compared starting from
the zero time). -/
def survivorAux (u : String) : List Review → Option Review → Option Review
  | [], acc => acc
  | r :: rest, acc =>
    if r.login = u ∧ r.state ≠ "COMMENTED" ∧ getSubmittedAt acc < r.submittedAt then
      survivorAux u rest (some r)
    else survivorAux u rest acc

/-- The surviving review of login `u` in a review list. -/
def survivor (reviews : List Review) (u : String) : Option Review :=
  survivorAux u reviews none

/-! Role-filter parsing, `parseRoleFilters` (src/utils.go lines 105-129). -/

/-- `availableRoles` (src/utils.go line 90). -/
def availableRoles : List String :=
  ["assignee", "author", "commenter", "involves", "mentions", "review-requested", "reviewed-by"]

/-- The `alfredError` feedback payload (src/feedback.go): title and subtitle. -/
structure AlfredError where
  title : String
  subtitle : String
deriving DecidableEq, Repr

/-- The corrective hint `parseRoleFilters` attaches to a rejected role. -/
def roleHint : String := "expected one of: " ++ String.intercalate "," availableRoles

/-- Character-level matcher for the single-role pattern. -/
def matchSingleRoleL : List Char → Option (Char × String)
  | [] => none
  | f :: rest =>
    if (f = '+' ∨ f = '-') ∧ String.mk rest ∈ availableRoles then some (f, String.mk rest)
    else none

/-- The anchored regex `^(([+-])(assignee|author|commenter|involves|mentions|review-requested|reviewed-by))$`:
a full match is a `+` or `-` sign followed by exactly one of the seven roles. -/
def matchSingleRole (s : String) : Option (Char × String) :=
  matchSingleRoleL s.toList

/-- Association-list insert-or-replace for the `seen` role map. -/
def upsertFlag : List (String × Char) → String → Char → List (String × Char)
  | [], k, v => [(k, v)]
  | (k', v') :: rest, k, v => if k' = k then (k, v) :: rest else (k', v') :: upsertFlag rest k v

/-- Association-list lookup for the `seen` role map. -/
def lookupFlag : List (String × Char) → String → Option Char
  | [], _ => none
  | (k', v') :: rest, k => if k' = k then some v' else lookupFlag rest k

/-- The first loop of `parseRoleFilters`: reject the first element that is not
a full match of the single-role pattern, otherwise record `seen[role] = flag`
(a later occurrence of the same role overwrites the flag). -/
def buildSeenRoles : List String → List (String × Char) → Except AlfredError (List (String × Char))
  | [], m => .ok m
  | s :: rest, m =>
    match matchSingleRole s with
    | some fr => buildSeenRoles rest (upsertFlag m fr.2 fr.1)
    | none => .error ⟨"invalid role: " ++ s, roleHint⟩

/-- `parseRoleFilters` (src/utils.go lines 105-129): the roles whose final flag
is `+`.  Go iterates the `seen` map in a randomized order, so only the set of
returned roles is defined behaviour; the embedding fixes first-insertion
order and every property proved about the result is order-insensitive. -/
def parseRoleFilters (roles : List String) : Except AlfredError (List String) :=
  match buildSeenRoles roles [] with
  | .error e => .error e
  | .ok m => .ok ((m.filter (fun p => p.2 = '+')).map (·.1))

/-! The bounded-retry mechanism: the stale-cache branch of `DisplayPRs`
(src/workflow.go lines 213-219) and `HandleError`/`LaunchUpdateTask`
(src/feedback.go lines 94-108, src/workflow.go lines 340-352). -/

/-- The `retryable` error (src/feedback.go lines 46-50). -/
structure Retryable where
  message : String
  hint : String
  attempt : Int
deriving DecidableEq, Repr

/-- The stale-cache tail of `DisplayPRs`: when the cached list's age exceeds
the configured TTL (`wf.Cache.Expired`), return a `retryable` carrying
`attemptsLeft - 1`; otherwise no retryable error is raised.  Ages are in
seconds; `Expired` is `age > maxAge` (a missing entry has unbounded age). -/
def displayPRsRetry (age maxAge attemptsLeft : Int) : Option Retryable :=
  if age > maxAge then
    some ⟨"Could not load pull requests :(", "try running ghpr-update manually", attemptsLeft - 1⟩
  else none

/-- The observable effects of `HandleError` on a retryable error. -/
structure RetryAction where
  loadingItemShown : Bool
  attemptsLeftVar : Option Int
  updateTaskLaunched : Bool
deriving DecidableEq, Repr

/-- Modelled from the spec: the bound `maxAttempts` used by `HandleError`
(src/feedback.go line 95) is declared nowhere under src/; the spec calls it
"the configured bound N" of the retry mechanism, so it stays a parameter
(any positive bound).  `HandleError` retries a `retryable` iff
`upd.attempt < maxAttempts`; `LaunchUpdateTask(upd.attempt)` then shows the
loading placeholder, persists `GH_ATTEMPTS_LEFT = upd.attempt` for the next
invocation and launches the background `--update` task. -/
def handleRetryable (maxAttempts : Int) (e : Retryable) : RetryAction :=
  if e.attempt < maxAttempts then ⟨true, some e.attempt, true⟩ else ⟨false, none, false⟩

/-- One stale display invocation end to end: `DisplayPRs attemptsLeft` raises
the retryable, `HandleError` decides whether another background refresh is
scheduled and what `GH_ATTEMPTS_LEFT` is persisted. -/
def retryStep (maxAttempts age maxAge attemptsLeft : Int) : RetryAction :=
  match displayPRsRetry age maxAge attemptsLeft with
  | some e => handleRetryable maxAttempts e
  | none => ⟨false, none, false⟩

/-! Workflow cache state and the fetch operations (src/workflow.go). -/

/-- The cached `github.User` (only the fields the workflow reads). -/
structure GhUser where
  login : String
deriving DecidableEq, Repr

/-- An error from the keychain, the GitHub client or the cache. -/
structure WorkflowErr where
  msg : String
deriving DecidableEq, Repr

/-- The awgo cache as the workflow uses it: the `gh-user-info` key, the
`gh-pull-requests` key, and one key per pull-request ID for its reviews
(entry: id, write time, payload). -/
structure CacheState where
  userInfo : Option GhUser
  prList : Option (List PR)
  reviewEntries : List (Int × Int × List Review)
deriving DecidableEq, Repr

/-- The collaborators `FetchPRs` calls, modelled at their interfaces: the
keychain token, `newGithubClient`, `client.Users.Get`, and one
`client.Search.Issues` result per role filter. -/
structure FetchEnv where
  token : Except WorkflowErr String
  clientErr : Option WorkflowErr
  userFetch : Except WorkflowErr GhUser
  search : String → Except WorkflowErr (List PR)

/-- The role-query loop of `FetchPRs` (src/workflow.go lines 255-263):
append each role's result set, aborting on the first failing query. -/
def collectPRs (search : String → Except WorkflowErr (List PR)) :
    List String → List PR → Except WorkflowErr (List PR)
  | [], acc => .ok acc
  | role :: rest, acc =>
    match search role with
    | .error e => .error e
    | .ok issues => collectPRs search rest (acc ++ issues)

/-- `FetchPRs` (src/workflow.go lines 229-274): token, client, cached user
identity (`LoadOrStoreJSON` with `maxAge 0`: an existing entry is always
fresh), the role queries, then a single `StoreJSON` of the deduplicated,
sorted list.  The deferred launch of the `--update_status` background task
touches no cache key and is omitted. -/
def fetchPRs (env : FetchEnv) (roleFilters : List String) (st : CacheState) :
    Except WorkflowErr Unit × CacheState :=
  match env.token with
  | .error e => (.error e, st)
  | .ok _ =>
    match env.clientErr with
    | some e => (.error e, st)
    | none =>
      let lo : Except WorkflowErr GhUser × CacheState :=
        match st.userInfo with
        | some u => (.ok u, st)
        | none =>
          match env.userFetch with
          | .error e => (.error e, st)
          | .ok u => (.ok u, { st with userInfo := some u })
      match lo.1 with
      | .error e => (.error e, lo.2)
      | .ok _ =>
        match collectPRs env.search roleFilters [] with
        | .error e => (.error e, lo.2)
        | .ok prs => (.ok (), { lo.2 with prList := some (deduplicateAndSort prs) })

/-- `errTokenEmpty` (src/workflow.go line 80). -/
def errTokenEmpty : WorkflowErr := ⟨"token must not be empty"⟩

/-- The keychain plus the workflow cache. -/
structure WfState where
  keychain : Option String
  cache : CacheState
deriving DecidableEq, Repr

/-- `SetToken` (src/workflow.go lines 164-175): an empty token is rejected
before anything is touched; otherwise `ClearCache` (modelled as emptying the
cache, or failing and leaving it as it was) and then `Keychain.Set`.
`clearErr`/`setErr` are the collaborators' outcomes. -/
def setToken (clearErr setErr : Option WorkflowErr) (st : WfState) (token : String) :
    Except WorkflowErr Unit × WfState :=
  if token = "" then (.error errTokenEmpty, st)
  else
    match clearErr with
    | some e => (.error e, st)
    | none =>
      let st1 : WfState := { st with cache := ⟨none, none, []⟩ }
      match setErr with
      | some e => (.error e, st1)
      | none => (.ok (), { st1 with keychain := some token })

/-- The collaborators `FetchPRStatus` calls: token, client, the wall clock,
and one `client.PullRequests.ListReviews` result per pull-request ID (the
owner/repo/number arguments are derived from the record's URL). -/
structure StatusEnv where
  token : Except WorkflowErr String
  clientErr : Option WorkflowErr
  now : Int
  reviews : Int → Except WorkflowErr (List Review)

/-- How a `FetchPRStatus` process run ends. -/
inductive StatusOutcome where
  | errored (e : WorkflowErr)
  | completed
  | panicked (e : WorkflowErr)
deriving DecidableEq, Repr

/-- Freshness of a per-PR review entry for `LoadOrStoreJSON` with the given
`maxAge` (awgo: `maxAge = 0` keeps an existing entry forever, otherwise an
entry is fresh iff its age is at most `maxAge`). -/
def reviewFresh (entries : List (Int × Int × List Review)) (id now maxAge : Int) : Prop :=
  ∃ e ∈ entries, e.1 = id ∧ (maxAge = 0 ∨ now - e.2.1 ≤ maxAge)

instance (entries : List (Int × Int × List Review)) (id now maxAge : Int) :
    Decidable (reviewFresh entries id now maxAge) := by
  unfold reviewFresh; infer_instance

/-- Store a per-PR review entry (full replacement of that key). -/
def storeReview (entries : List (Int × Int × List Review)) (id now : Int)
    (rs : List Review) : List (Int × Int × List Review) :=
  (id, now, rs) :: entries.filter (fun e => ¬ e.1 = id)

/-- The per-PR workers of `FetchPRStatus` (src/workflow.go lines 299-323), in
list order — one admissible serialization of the concurrent goroutines.  Each
worker refreshes its PR's review entry with TTL `time.Since(pr.UpdatedAt)`;
a worker whose `LoadOrStoreJSON` fails calls `panic(err)`, which kills the
whole process (remaining workers never complete in this serialization). -/
def statusWorkers (env : StatusEnv) : List PR → CacheState → StatusOutcome × CacheState
  | [], st => (.completed, st)
  | pr :: rest, st =>
    if reviewFresh st.reviewEntries pr.id env.now (env.now - pr.t) then
      statusWorkers env rest st
    else
      match env.reviews pr.id with
      | .ok rs =>
        statusWorkers env rest
          { st with reviewEntries := storeReview st.reviewEntries pr.id env.now rs }
      | .error e => (.panicked e, st)

/-- `FetchPRStatus` (src/workflow.go lines 277-326): token, cached list,
client, then the fan-out over the cached pull requests. -/
def fetchPRStatus (env : StatusEnv) (st : CacheState) : StatusOutcome × CacheState :=
  match env.token with
  | .error e => (.errored e, st)
  | .ok _ =>
    match st.prList with
    | none => (.errored ⟨"no cached pull requests"⟩, st)
    | some prs =>
      match env.clientErr with
      | some e => (.errored e, st)
      | none => statusWorkers env prs st

/-! URL parsing, `parseRepoFromUrl` (src/utils.go lines 88-101): the anchored
regex `^https://[a-z.]+.com/([a-zA-Z0-9/_\-]+)/pull/\d+$`, embedded at the
character level.  A full match decomposes the text as
`https:// H x com / G /pull/ D` with `H` nonempty over `[a-z.]`, `x` any
character but a newline, `G` nonempty over `[a-zA-Z0-9/_-]` and `D` nonempty
over digits; the submatch is `G`.  The matcher below enumerates host splits
longest-first and group splits longest-first, mirroring the greedy preference
of the regex engine; whenever the development proves a concrete capture, it
also proves that every decomposition yields that same capture, so the
enumeration order is immaterial there. -/

/-- Characters matched by `[a-z.]`. -/
def isHostChar (c : Char) : Prop := ('a' ≤ c ∧ c ≤ 'z') ∨ c = '.'

instance (c : Char) : Decidable (isHostChar c) := by unfold isHostChar; infer_instance

/-- Characters matched by `[a-zA-Z0-9/_\-]`. -/
def isGroupChar (c : Char) : Prop :=
  ('a' ≤ c ∧ c ≤ 'z') ∨ ('A' ≤ c ∧ c ≤ 'Z') ∨ ('0' ≤ c ∧ c ≤ '9') ∨ c = '/' ∨ c = '_' ∨ c = '-'

instance (c : Char) : Decidable (isGroupChar c) := by unfold isGroupChar; infer_instance

/-- Characters matched by `\d`. -/
def isDigitChar (c : Char) : Prop := '0' ≤ c ∧ c ≤ '9'

instance (c : Char) : Decidable (isDigitChar c) := by unfold isDigitChar; infer_instance

/-- The tail of a match after `com/`: `G ++ "/pull/" ++ D`. -/
def tailOk (g rest : List Char) : Prop :=
  g ≠ [] ∧ (∀ c ∈ g, isGroupChar c) ∧
    rest.take 6 = "/pull/".toList ∧ rest.drop 6 ≠ [] ∧ ∀ c ∈ rest.drop 6, isDigitChar c

instance (g rest : List Char) : Decidable (tailOk g rest) := by unfold tailOk; infer_instance

/-- Greedy search for the group split of the remainder `R = G ++ "/pull/" ++ D`,
longest `G` first; `k` is the candidate length of `G`. -/
def tryTail (R : List Char) : Nat → Option (List Char)
  | 0 => none
  | k+1 =>
    if tailOk (R.take (k+1)) (R.drop (k+1)) then some (R.take (k+1))
    else tryTail R k

/-- One host-length attempt: the remainder must start with an any-character
(not a newline), then `com/`, then a group split of what is left. -/
def hostAttempt : List Char → Option (List Char)
  | x :: rest' =>
    if ¬ x = '\n' ∧ rest'.take 4 = "com/".toList then
      tryTail (rest'.drop 4) (rest'.drop 4).length
    else none
  | [] => none

/-- A host split at length `h` followed by the any-character, `com/` and a
group split of what remains. -/
def tryHost (s : List Char) : Nat → Option (List Char)
  | 0 => none
  | h+1 =>
    match hostAttempt (s.drop (h+1)) with
    | some g => some g
    | none => tryHost s h

/-- `parseRepoFromUrl` (src/utils.go lines 95-101): the first submatch of the
anchored pattern, or `""` when the URL does not match. -/
def parseRepoFromUrl (s : String) : String :=
  let cs := s.toList
  if cs.take 8 = "https://".toList then
    let t := cs.drop 8
    match tryHost t (t.takeWhile (fun c => decide (isHostChar c))).length with
    | some g => String.mk g
    | none => ""
  else ""

/-- The match predicate of the pattern, as the existence of a decomposition. -/
def MatchesRepoUrl (s : List Char) : Prop :=
  ∃ H x G D,
    s = "https://".toList ++ H ++ [x] ++ "com/".toList ++ G ++ "/pull/".toList ++ D ∧
    H ≠ [] ∧ (∀ c ∈ H, isHostChar c) ∧ x ≠ '\n' ∧
    G ≠ [] ∧ (∀ c ∈ G, isGroupChar c) ∧ D ≠ [] ∧ (∀ c ∈ D, isDigitChar c)

/-! Reference definitions used only to state claims. -/

/-- A configuration element of the documented shape: one of the seven roles
prefixed with `+` or `-`. -/
def isRoleSpec (s : String) : Prop :=
  ∃ (f : Char) (r : String), (f = '+' ∨ f = '-') ∧ r ∈ availableRoles ∧ s.toList = f :: r.toList

/-- The flag carried by the last well-formed occurrence of role `r` in the
configuration. -/
def lastFlag : List String → String → Option Char
  | [], _ => none
  | s :: rest, r =>
    match lastFlag rest r with
    | some f => some f
    | none =>
      match matchSingleRole s with
      | some fr => if fr.2 = r then some fr.1 else none
      | none => none

/-- The state of a reviewer's surviving review, when one exists. -/
def survivorState (reviews : List Review) (u : String) : Option String :=
  (survivor reviews u).map Review.state

/-- The distinct reviewer logins of a review list. -/
def distinctLogins (reviews : List Review) : List String :=
  (reviews.map (·.login)).dedup

/-- The distinct logins of reviewers with at least one non-`COMMENTED` review. -/
def nonCommentLogins (reviews : List Review) : List String :=
  ((reviews.filter (fun r => ¬ r.state = "COMMENTED")).map (·.login)).dedup

end S2P

namespace S2P

/-! Verification vocabulary for the sort: swap closures and range sortedness.
These are stated over the embedded operations; they are not part of the
program and are used only to state and prove properties of it. -/

/-- `SwapsOn P l l'`: `l'` arises from `l` by a finite sequence of
element swaps whose positions all satisfy `P`. -/
inductive SwapsOn (P : Nat → Prop) : List PR → List PR → Prop where
  | refl (l : List PR) : SwapsOn P l l
  | step (i j : Nat) (l l' : List PR) : P i → P j →
      SwapsOn P (swapE l i j) l' → SwapsOn P l l'

/-- The position set of the half-open range `[a, b)`. -/
def InRange (a b : Nat) (k : Nat) : Prop := a ≤ k ∧ k < b

/-- Sorted by timestamp descending on the half-open index range `[a, b)`,
i.e. sorted ascending with respect to the program's `Less`. -/
def SortedRange (l : List PR) (a b : Nat) : Prop :=
  ∀ i j, a ≤ i → i ≤ j → j < b → (getE l j).t ≤ (getE l i).t

/-- pdqsort's left-sentinel invariant for the subrange `[a, b)`: whenever the
range has a left neighbour, no element of the range exceeds that neighbour. -/
def Sentinel (l : List PR) (a b : Nat) : Prop :=
  0 < a → ∀ k, a ≤ k → k < b → (getE l k).t ≤ (getE l (a-1)).t

/-- The binary-heap shape of `heapSortLessFunc` on relative positions
`[0, hi)` offset by `first`: a parent is never `Less` than a child, i.e. its
timestamp is at most the child's. -/
def HeapOn (l : List PR) (first hi : Nat) : Prop :=
  ∀ r c, c < hi → (c = 2*r+1 ∨ c = 2*r+2) →
    (getE l (first+r)).t ≤ (getE l (first+c)).t

/-- Membership in the binary-heap subtree rooted at relative position `x`. -/
inductive InSub (x : Nat) : Nat → Prop where
  | base : InSub x x
  | left (c : Nat) : InSub x c → InSub x (2*c+1)
  | right (c : Nat) : InSub x c → InSub x (2*c+2)

/-! ## Theorems -/

/-- Helper: the role-query loop returns the first failing query's error. -/
theorem collectPRs_error_first (search : String → Except WorkflowErr (List PR)) :
    ∀ (pre : List String) (r : String) (post : List String) (acc : List PR) (e : WorkflowErr),
      (∀ r' ∈ pre, ∃ prs, search r' = .ok prs) → search r = .error e →
      collectPRs search (pre ++ r :: post) acc = .error e := by
  intro pre
  induction pre with
  | nil => intro r post acc e _ hr; simp [collectPRs, hr]
  | cons p pre ih =>
    intro r post acc e hpre hr
    obtain ⟨prs, hp⟩ := hpre p (by simp)
    simpa [collectPRs, hp] using ih r post (acc ++ prs) e (fun r' h => hpre r' (by simp [h])) hr

/-- Helper: a successful role-query loop means every query succeeded. -/
theorem collectPRs_ok_all (search : String → Except WorkflowErr (List PR)) :
    ∀ (roles : List String) (acc prs : List PR),
      collectPRs search roles acc = .ok prs → ∀ r ∈ roles, ∃ x, search r = .ok x := by
  intro roles
  induction roles with
  | nil => intro acc prs _ r hr; cases hr
  | cons p rest ih =>
    intro acc prs hok r hr
    rcases hs : search p with e | issues
    · simp [collectPRs, hs] at hok
    · rcases List.mem_cons.mp hr with rfl | hr'
      · exact ⟨issues, hs⟩
      · exact ih (acc ++ issues) prs (by simpa [collectPRs, hs] using hok) r hr'

/-- C4: if any single role-filter query of `FetchPRs` fails, the whole refresh
aborts with that error and the cached pull-request list is exactly as before;
the list key is (re)written only when the call succeeds, which requires every
role query to have succeeded. -/
theorem claim_C4_fetch_all_or_nothing (env : FetchEnv) (roles : List String) (st : CacheState) :
    (∀ e, (fetchPRs env roles st).1 = .error e → (fetchPRs env roles st).2.prList = st.prList) ∧
    ((fetchPRs env roles st).2.prList ≠ st.prList →
      (fetchPRs env roles st).1 = .ok () ∧ ∀ r ∈ roles, ∃ prs, env.search r = .ok prs) ∧
    (∀ tk (pre : List String) r post e,
      env.token = .ok tk → env.clientErr = none →
      (st.userInfo = none → ∃ u, env.userFetch = .ok u) →
      roles = pre ++ r :: post →
      (∀ r' ∈ pre, ∃ prs, env.search r' = .ok prs) →
      env.search r = .error e →
      (fetchPRs env roles st).1 = .error e ∧ (fetchPRs env roles st).2.prList = st.prList) := by
  have hmain : ∀ e, (fetchPRs env roles st).1 = .error e →
      (fetchPRs env roles st).2.prList = st.prList := by
    intro e
    rcases htk : env.token with etk | tk <;> simp [fetchPRs, htk]
    rcases hcl : env.clientErr with _ | ecl
    · rcases hui : st.userInfo with _ | u
      · rcases huf : env.userFetch with euf | u' <;> simp [hcl, huf]
        rcases hco : collectPRs env.search roles [] with ec | prs <;> simp [hco]
      · simp [hcl, hui]
        rcases hco : collectPRs env.search roles [] with ec | prs <;> simp [hco]
    · simp [hcl]
  refine ⟨hmain, ?_, ?_⟩
  · intro hne
    rcases h1 : (fetchPRs env roles st).1 with e | u
    · exact absurd (hmain e h1) hne
    · cases u
      refine ⟨rfl, ?_⟩
      rcases htk : env.token with etk | tk
      · rw [fetchPRs, htk] at h1; cases h1
      · rcases hcl : env.clientErr with _ | ecl
        · rcases hui : st.userInfo with _ | uu
          · rcases huf : env.userFetch with euf | u'
            · simp [fetchPRs, htk, hcl, hui, huf] at h1
            · rcases hco : collectPRs env.search roles [] with ec | prs
              · simp [fetchPRs, htk, hcl, hui, huf, hco] at h1
              · exact collectPRs_ok_all env.search roles [] prs hco
          · rcases hco : collectPRs env.search roles [] with ec | prs
            · simp [fetchPRs, htk, hcl, hui, hco] at h1
            · exact collectPRs_ok_all env.search roles [] prs hco
        · rw [fetchPRs, htk] at h1; simp [hcl] at h1
  · intro tk pre r post e htk hcl huser hroles hpre hr
    have hco : collectPRs env.search roles [] = .error e := by
      rw [hroles]; exact collectPRs_error_first env.search pre r post [] e hpre hr
    rcases hui : st.userInfo with _ | u
    · obtain ⟨u', huf⟩ := huser hui
      constructor <;> simp [fetchPRs, htk, hcl, hui, huf, hco]
    · constructor <;> simp [fetchPRs, htk, hcl, hui, hco]

/-- C4 witness: a concrete environment whose `involves` query fails. -/
theorem claim_C4_witness :
    (fetchPRs
        ⟨.ok "tok", none, .ok ⟨"me"⟩,
          fun r => if r = "involves" then .error ⟨"rate limited"⟩ else .ok []⟩
        ["author", "involves"]
        ⟨none, some [⟨7, 5⟩], []⟩).1 = .error ⟨"rate limited"⟩ ∧
    (fetchPRs
        ⟨.ok "tok", none, .ok ⟨"me"⟩,
          fun r => if r = "involves" then .error ⟨"rate limited"⟩ else .ok []⟩
        ["author", "involves"]
        ⟨none, some [⟨7, 5⟩], []⟩).2.prList = some [⟨7, 5⟩] :=
  (claim_C4_fetch_all_or_nothing
      ⟨.ok "tok", none, .ok ⟨"me"⟩,
        fun r => if r = "involves" then .error ⟨"rate limited"⟩ else .ok []⟩
      ["author", "involves"] ⟨none, some [⟨7, 5⟩], []⟩).2.2
    "tok" ["author"] "involves" [] ⟨"rate limited"⟩ rfl rfl
    (fun _ => ⟨⟨"me"⟩, rfl⟩) rfl
    (by intro r' h; simp at h; exact ⟨[], by simp [h]⟩) (by rfl)

/-- C10: `SetToken ""` fails with the `token must not be empty` error and
changes nothing — keychain and every cached entry are exactly as before — and
the cache is cleared only on the non-empty-token path. -/
theorem claim_C10_set_token_empty :
    (∀ clearErr setErr st, setToken clearErr setErr st "" = (.error errTokenEmpty, st)) ∧
    (∀ clearErr setErr st tok,
      (setToken clearErr setErr st tok).2.cache ≠ st.cache → tok ≠ "") := by
  constructor
  · intro clearErr setErr st; simp [setToken]
  · intro clearErr setErr st tok hne
    intro h
    subst h
    simp [setToken] at hne

/-- C10 witness: the empty call at a populated state, and a non-empty call
that does clear the cache. -/
theorem claim_C10_witness :
    setToken none none ⟨some "old", ⟨some ⟨"me"⟩, some [⟨7, 5⟩], []⟩⟩ ""
      = (.error errTokenEmpty, ⟨some "old", ⟨some ⟨"me"⟩, some [⟨7, 5⟩], []⟩⟩) ∧
    ("newtoken" ≠ "") :=
  ⟨claim_C10_set_token_empty.1 none none ⟨some "old", ⟨some ⟨"me"⟩, some [⟨7, 5⟩], []⟩⟩,
    claim_C10_set_token_empty.2 none none ⟨some "old", ⟨some ⟨"me"⟩, some [⟨7, 5⟩], []⟩⟩
      "newtoken" (by decide)⟩

/-- C1: at the spec's own scenario (list written 700 s ago, TTL 600 s) the
code does schedule one more refresh at 2 attempts remaining, decrementing the
persisted counter to 1 — but at 0 attempts remaining it schedules yet another
refresh and persists `GH_ATTEMPTS_LEFT = -1`: with the decrementing counter,
`upd.attempt < maxAttempts` never becomes false, so a retry is scheduled on
every stale invocation with at most `maxAttempts` attempts left, and the
mechanism never stops retrying. -/
theorem claim_C1_retry_unbounded (maxAttempts : Int) (hN : 1 ≤ maxAttempts) :
    (2 ≤ maxAttempts → retryStep maxAttempts 700 600 2 = ⟨true, some 1, true⟩) ∧
    retryStep maxAttempts 700 600 0 = ⟨true, some (-1), true⟩ ∧
    (∀ age maxAge attemptsLeft : Int, maxAge < age → attemptsLeft ≤ maxAttempts →
      retryStep maxAttempts age maxAge attemptsLeft
        = ⟨true, some (attemptsLeft - 1), true⟩) := by
  refine ⟨?_, ?_, ?_⟩
  · intro h2
    simp only [retryStep, displayPRsRetry, handleRetryable]
    norm_num
    omega
  · simp only [retryStep, displayPRsRetry, handleRetryable]
    norm_num
    omega
  · intro age maxAge attemptsLeft hstale hle
    simp only [retryStep, displayPRsRetry, handleRetryable, if_pos hstale]
    have : attemptsLeft - 1 < maxAttempts := by omega
    simp [this]

/-- C1 witness: the retry behaviour at the configured bound `maxAttempts = 3`. -/
theorem claim_C1_witness :
    1 ≤ (3 : Int) ∧
      ((2 ≤ (3 : Int) → retryStep 3 700 600 2 = ⟨true, some 1, true⟩) ∧
        retryStep 3 700 600 0 = ⟨true, some (-1), true⟩ ∧
        (∀ age maxAge attemptsLeft : Int, maxAge < age → attemptsLeft ≤ 3 →
          retryStep 3 age maxAge attemptsLeft
            = ⟨true, some (attemptsLeft - 1), true⟩)) :=
  ⟨by decide, claim_C1_retry_unbounded 3 (by decide)⟩

/-- C8: a single failing review fetch inside `FetchPRStatus` panics and kills
the whole process: with pull requests 1 and 2 cached and only PR 1's review
query failing, the run ends `panicked` and PR 2's review state is never
fetched or cached (its entry is absent afterwards). -/
theorem claim_C8_worker_panic_crashes :
    (fetchPRStatus
        ⟨.ok "tok", none, 1000, fun i => if i = 1 then .error ⟨"boom"⟩ else .ok []⟩
        ⟨none, some [⟨1, 10⟩, ⟨2, 20⟩], []⟩)
      = (.panicked ⟨"boom"⟩, ⟨none, some [⟨1, 10⟩, ⟨2, 20⟩], []⟩) ∧
    ∀ e ∈ (fetchPRStatus
        ⟨.ok "tok", none, 1000, fun i => if i = 1 then .error ⟨"boom"⟩ else .ok []⟩
        ⟨none, some [⟨1, 10⟩, ⟨2, 20⟩], []⟩).2.reviewEntries, e.1 ≠ 2 := by
  constructor
  · rfl
  · intro e he
    simp [fetchPRStatus, statusWorkers, reviewFresh] at he

/-! Role-filter parsing: helper lemmas and C7. -/

/-- Helper: the single-role pattern matches exactly the documented shapes. -/
theorem matchSingleRole_some_iff (s : String) :
    (∃ fr, matchSingleRole s = some fr) ↔ isRoleSpec s := by
  unfold matchSingleRole isRoleSpec
  rcases hcs : s.toList with _ | ⟨f, rest⟩
  · constructor
    · rintro ⟨fr, hfr⟩; simp [matchSingleRoleL] at hfr
    · rintro ⟨f, r, _, _, hs⟩; simp at hs
  · rw [matchSingleRoleL]
    constructor
    · rintro ⟨fr, hfr⟩
      by_cases h : (f = '+' ∨ f = '-') ∧ String.mk rest ∈ availableRoles
      · exact ⟨f, String.mk rest, h.1, h.2, rfl⟩
      · rw [if_neg h] at hfr; cases hfr
    · rintro ⟨f', r, hf, hr, hs⟩
      injection hs with h1 h2
      subst h1
      have hmk : String.mk rest = r := by rw [h2]; rfl
      refine ⟨(f, r), ?_⟩
      rw [if_pos ⟨hf, by rw [hmk]; exact hr⟩, hmk]

/-- Helper: lookup after insert-or-replace. -/
theorem lookupFlag_upsertFlag (m : List (String × Char)) (k : String) (v : Char) (r : String) :
    lookupFlag (upsertFlag m k v) r = if k = r then some v else lookupFlag m r := by
  induction m with
  | nil =>
    by_cases h : k = r <;> simp [upsertFlag, lookupFlag, h]
  | cons p rest ih =>
    obtain ⟨k', v'⟩ := p
    by_cases hp : k' = k
    · subst hp
      rw [upsertFlag, if_pos rfl]
      by_cases hk : k' = r <;> simp [lookupFlag, hk]
    · rw [upsertFlag, if_neg hp]
      by_cases h1 : k' = r
      · subst h1
        have hk : ¬ k = k' := fun h => hp h.symm
        simp [lookupFlag, hk]
      · simp [lookupFlag, h1, ih]

/-- Helper: a successful `seen` build resolves each role to its last flag. -/
theorem lookupFlag_buildSeenRoles :
    ∀ (roles : List String) (m m' : List (String × Char)) (r : String),
      buildSeenRoles roles m = .ok m' →
      lookupFlag m' r =
        (match lastFlag roles r with
          | some f => some f
          | none => lookupFlag m r) := by
  intro roles
  induction roles with
  | nil =>
    intro m m' r h
    simp [buildSeenRoles] at h
    subst h
    simp [lastFlag]
  | cons s rest ih =>
    intro m m' r h
    rcases hms : matchSingleRole s with _ | fr
    · simp [buildSeenRoles, hms] at h
    · rw [buildSeenRoles, hms] at h
      rw [ih (upsertFlag m fr.2 fr.1) m' r h, lastFlag, hms]
      rcases hlf : lastFlag rest r with _ | f
      · show lookupFlag (upsertFlag m fr.2 fr.1) r = _
        rw [lookupFlag_upsertFlag]
        by_cases hr : fr.2 = r <;> simp [hr]
      · rfl

/-- Helper: membership in the upserted key set. -/
theorem mem_keys_upsertFlag (m : List (String × Char)) (k : String) (v : Char) (u : String) :
    u ∈ (upsertFlag m k v).map (·.1) ↔ u ∈ m.map (·.1) ∨ u = k := by
  induction m with
  | nil => simp [upsertFlag]
  | cons p rest ih =>
    obtain ⟨k', v'⟩ := p
    by_cases hp : k' = k
    · subst hp
      rw [upsertFlag, if_pos rfl]
      simp
      tauto
    · rw [upsertFlag, if_neg hp]
      simp [ih]
      tauto

/-- Helper: insert-or-replace preserves distinct keys. -/
theorem nodup_keys_upsertFlag (m : List (String × Char)) (k : String) (v : Char)
    (h : (m.map (·.1)).Nodup) : ((upsertFlag m k v).map (·.1)).Nodup := by
  induction m with
  | nil => simp [upsertFlag]
  | cons p rest ih =>
    obtain ⟨k', v'⟩ := p
    rw [List.map_cons, List.nodup_cons] at h
    by_cases hp : k' = k
    · subst hp
      rw [upsertFlag, if_pos rfl]
      rw [List.map_cons, List.nodup_cons]
      exact h
    · rw [upsertFlag, if_neg hp]
      rw [List.map_cons, List.nodup_cons]
      refine ⟨?_, ih h.2⟩
      rw [mem_keys_upsertFlag]
      rintro (hin | hin)
      · exact h.1 hin
      · exact hp hin

/-- Helper: the built `seen` map has distinct keys. -/
theorem nodup_keys_buildSeenRoles :
    ∀ (roles : List String) (m m' : List (String × Char)),
      (m.map (·.1)).Nodup → buildSeenRoles roles m = .ok m' → (m'.map (·.1)).Nodup := by
  intro roles
  induction roles with
  | nil => intro m m' h hok; simp [buildSeenRoles] at hok; subst hok; exact h
  | cons s rest ih =>
    intro m m' h hok
    rcases hms : matchSingleRole s with _ | fr
    · simp [buildSeenRoles, hms] at hok
    · rw [buildSeenRoles, hms] at hok
      exact ih _ m' (nodup_keys_upsertFlag m fr.2 fr.1 h) hok

/-- Helper: membership of the `+`-filtered key list is lookup of `'+'`. -/
theorem mem_plus_iff_lookupFlag (m : List (String × Char)) (h : (m.map (·.1)).Nodup) (r : String) :
    r ∈ (m.filter (fun p => p.2 = '+')).map (·.1) ↔ lookupFlag m r = some '+' := by
  induction m with
  | nil => simp [lookupFlag]
  | cons p rest ih =>
    obtain ⟨k', v'⟩ := p
    rw [List.map_cons, List.nodup_cons] at h
    obtain ⟨hnk, hnd⟩ := h
    by_cases hv : v' = '+'
    · subst hv
      rw [List.filter_cons_of_pos (by simp)]
      by_cases hk : k' = r
      · subst hk
        simp [lookupFlag]
      · rw [List.map_cons, List.mem_cons]
        rw [lookupFlag, if_neg hk]
        constructor
        · rintro (h | h)
          · exact absurd h.symm hk
          · exact (ih hnd).mp h
        · intro h
          right
          exact (ih hnd).mpr h
    · rw [List.filter_cons_of_neg (by simpa using hv)]
      by_cases hk : k' = r
      · subst hk
        rw [lookupFlag, if_pos rfl]
        constructor
        · intro hmem
          exfalso
          apply hnk
          obtain ⟨q, hq, hq1⟩ := List.mem_map.mp hmem
          exact List.mem_map.mpr ⟨q, (List.mem_filter.mp hq).1, hq1⟩
        · intro hsome
          injection hsome with he
          exact absurd he hv
      · rw [lookupFlag, if_neg hk]
        exact ih hnd

/-- Helper: a configuration with an ill-formed element is rejected with the
corrective hint, whatever the accumulated map. -/
theorem buildSeenRoles_error :
    ∀ (roles : List String) (s : String), s ∈ roles → matchSingleRole s = none →
      ∀ m, ∃ e, buildSeenRoles roles m = .error e ∧ e.subtitle = roleHint := by
  intro roles
  induction roles with
  | nil => intro s hs; cases hs
  | cons p rest ih =>
    intro s hs hbad m
    rcases hms : matchSingleRole p with _ | fr
    · exact ⟨⟨"invalid role: " ++ p, roleHint⟩, by simp [buildSeenRoles, hms], rfl⟩
    · rcases List.mem_cons.mp hs with rfl | hs'
      · rw [hms] at hbad; cases hbad
      · obtain ⟨e, he, hsub⟩ := ih s hs' hbad (upsertFlag m fr.2 fr.1)
        exact ⟨e, by rw [buildSeenRoles, hms]; exact he, hsub⟩

/-- C7: the role-filter parser accepts exactly the seven-role vocabulary with
`+`/`-` prefixes — every well-formed configuration parses to precisely the
roles whose (last) flag is `+`, and any element outside the vocabulary is
rejected with a terminal configuration error carrying the corrective hint. -/
theorem claim_C7_role_filter_vocabulary :
    (∀ roles : List String, (∀ s ∈ roles, isRoleSpec s) →
      ∃ result, parseRoleFilters roles = .ok result ∧
        ∀ r, r ∈ result ↔ lastFlag roles r = some '+') ∧
    (∀ (roles : List String) (s : String), s ∈ roles → ¬ isRoleSpec s →
      ∃ e, parseRoleFilters roles = .error e ∧ e.subtitle = roleHint) := by
  constructor
  · intro roles hall
    have hok : ∀ (rs : List String), (∀ s ∈ rs, isRoleSpec s) →
        ∀ m, ∃ m', buildSeenRoles rs m = .ok m' := by
      intro rs
      induction rs with
      | nil => intro _ m; exact ⟨m, rfl⟩
      | cons s rest ih =>
        intro hall' m
        obtain ⟨fr, hfr⟩ := (matchSingleRole_some_iff s).mpr (hall' s (by simp))
        obtain ⟨m', hm'⟩ := ih (fun s' hs' => hall' s' (by simp [hs'])) (upsertFlag m fr.2 fr.1)
        exact ⟨m', by rw [buildSeenRoles, hfr]; exact hm'⟩
    obtain ⟨m', hm'⟩ := hok roles hall []
    refine ⟨(m'.filter (fun p => p.2 = '+')).map (·.1), by simp [parseRoleFilters, hm'], ?_⟩
    intro r
    rw [mem_plus_iff_lookupFlag m' (nodup_keys_buildSeenRoles roles [] m' (by simp) hm') r]
    rw [lookupFlag_buildSeenRoles roles [] m' r hm']
    rcases hlf : lastFlag roles r with _ | f <;> simp [lookupFlag]
  · intro roles s hs hbad
    have : matchSingleRole s = none := by
      rcases hms : matchSingleRole s with _ | fr
      · rfl
      · exact absurd ((matchSingleRole_some_iff s).mp ⟨fr, hms⟩) hbad
    obtain ⟨e, he, hsub⟩ := buildSeenRoles_error roles s hs this []
    exact ⟨e, by simp [parseRoleFilters, he], hsub⟩

/-- C7 witness: a concrete well-formed configuration and a concrete rejected one. -/
theorem claim_C7_witness :
    (∃ result, parseRoleFilters ["+commenter", "-author", "+reviewed-by"] = .ok result ∧
      ∀ r, r ∈ result ↔ lastFlag ["+commenter", "-author", "+reviewed-by"] r = some '+') ∧
    (∃ e, parseRoleFilters ["+admin"] = .error e ∧ e.subtitle = roleHint) :=
  ⟨claim_C7_role_filter_vocabulary.1 ["+commenter", "-author", "+reviewed-by"]
      (by
        intro s hs
        simp at hs
        rcases hs with rfl | rfl | rfl
        · exact ⟨'+', "commenter", Or.inl rfl, by decide, rfl⟩
        · exact ⟨'-', "author", Or.inr rfl, by decide, rfl⟩
        · exact ⟨'+', "reviewed-by", Or.inl rfl, by decide, rfl⟩),
    claim_C7_role_filter_vocabulary.2 ["+admin"] "+admin" (by simp)
      (by
        rintro ⟨f, r, _, hr, hs⟩
        have hs' : '+' :: "admin".toList = f :: r.toList := hs
        injection hs' with h1 h2
        obtain ⟨rd⟩ := r
        have hd : rd = "admin".toList := h2.symm
        subst hd
        revert hr
        decide)⟩

/-! Review-state resolution: helper lemmas and C3. -/

/-- Helper: lookup after insert-or-replace in the review map. -/
theorem lookupR_upsertR (m : List (String × Review)) (k : String) (r : Review) (u : String) :
    lookupR (upsertR m k r) u = if k = u then some r else lookupR m u := by
  induction m with
  | nil => by_cases h : k = u <;> simp [upsertR, lookupR, h]
  | cons p rest ih =>
    obtain ⟨k', v'⟩ := p
    by_cases hp : k' = k
    · subst hp
      rw [upsertR, if_pos rfl]
      by_cases hk : k' = u <;> simp [lookupR, hk]
    · rw [upsertR, if_neg hp]
      by_cases h1 : k' = u
      · subst h1
        have hk : ¬ k = k' := fun h => hp h.symm
        simp [lookupR, hk]
      · simp [lookupR, h1, ih]

/-- Helper: the review map resolves each login to its surviving review — the
latest non-`COMMENTED` review, a `COMMENTED` review never overriding. -/
theorem lookupR_buildReviewSeen :
    ∀ (reviews : List Review) (m : List (String × Review)) (u : String),
      lookupR (buildReviewSeen reviews m) u = survivorAux u reviews (lookupR m u) := by
  intro reviews
  induction reviews with
  | nil => intro m u; simp [buildReviewSeen, survivorAux]
  | cons r rest ih =>
    intro m u
    rw [buildReviewSeen, survivorAux]
    by_cases hc : r.state = "COMMENTED"
    · rw [if_pos hc, if_neg (by simp [hc]), ih]
    · rw [if_neg hc]
      by_cases hu : r.login = u
      · subst hu
        by_cases ht : getSubmittedAt (lookupR m r.login) < r.submittedAt
        · rw [if_pos ht, if_pos ⟨rfl, hc, ht⟩, ih]
          simp [lookupR_upsertR]
        · rw [if_neg ht, if_neg (by simp [hc]; omega), ih]
      · have hcond : ¬ (r.login = u ∧ ¬ r.state = "COMMENTED" ∧
            getSubmittedAt (lookupR m u) < r.submittedAt) := by
          intro h; exact hu h.1
        rw [if_neg hcond]
        by_cases ht : getSubmittedAt (lookupR m r.login) < r.submittedAt
        · rw [if_pos ht, ih, lookupR_upsertR, if_neg hu]
        · rw [if_neg ht, ih]

/-- Helper: membership in the upserted review-map key set. -/
theorem mem_keys_upsertR (m : List (String × Review)) (k : String) (r : Review) (u : String) :
    u ∈ (upsertR m k r).map (·.1) ↔ u ∈ m.map (·.1) ∨ u = k := by
  induction m with
  | nil => simp [upsertR]
  | cons p rest ih =>
    obtain ⟨k', v'⟩ := p
    by_cases hp : k' = k
    · subst hp
      rw [upsertR, if_pos rfl]
      simp
      tauto
    · rw [upsertR, if_neg hp]
      simp [ih]
      tauto

/-- Helper: insert-or-replace preserves distinct review-map keys. -/
theorem nodup_keys_upsertR (m : List (String × Review)) (k : String) (r : Review)
    (h : (m.map (·.1)).Nodup) : ((upsertR m k r).map (·.1)).Nodup := by
  induction m with
  | nil => simp [upsertR]
  | cons p rest ih =>
    obtain ⟨k', v'⟩ := p
    rw [List.map_cons, List.nodup_cons] at h
    by_cases hp : k' = k
    · subst hp
      rw [upsertR, if_pos rfl]
      rw [List.map_cons, List.nodup_cons]
      exact h
    · rw [upsertR, if_neg hp]
      rw [List.map_cons, List.nodup_cons]
      refine ⟨?_, ih h.2⟩
      rw [mem_keys_upsertR]
      rintro (hin | hin)
      · exact h.1 hin
      · exact hp hin

/-- Helper: the built review map has distinct keys. -/
theorem nodup_keys_buildReviewSeen :
    ∀ (reviews : List Review) (m : List (String × Review)),
      (m.map (·.1)).Nodup → ((buildReviewSeen reviews m).map (·.1)).Nodup := by
  intro reviews
  induction reviews with
  | nil => intro m h; exact h
  | cons r rest ih =>
    intro m h
    rw [buildReviewSeen]
    by_cases hc : r.state = "COMMENTED"
    · rw [if_pos hc]; exact ih m h
    · rw [if_neg hc]
      by_cases ht : getSubmittedAt (lookupR m r.login) < r.submittedAt
      · rw [if_pos ht]; exact ih _ (nodup_keys_upsertR m r.login r h)
      · rw [if_neg ht]; exact ih m h

/-- Helper: every key of the built review map is the login of some
non-`COMMENTED` review of the input. -/
theorem mem_keys_buildReviewSeen :
    ∀ (reviews : List Review) (m : List (String × Review)) (u : String),
      u ∈ (buildReviewSeen reviews m).map (·.1) →
      u ∈ m.map (·.1) ∨ ∃ r ∈ reviews, r.login = u ∧ ¬ r.state = "COMMENTED" := by
  intro reviews
  induction reviews with
  | nil => intro m u h; exact Or.inl h
  | cons r rest ih =>
    intro m u h
    rw [buildReviewSeen] at h
    by_cases hc : r.state = "COMMENTED"
    · rw [if_pos hc] at h
      rcases ih m u h with h' | ⟨r', hr', hlog, hst⟩
      · exact Or.inl h'
      · exact Or.inr ⟨r', by simp [hr'], hlog, hst⟩
    · rw [if_neg hc] at h
      by_cases ht : getSubmittedAt (lookupR m r.login) < r.submittedAt
      · rw [if_pos ht] at h
        rcases ih _ u h with h' | ⟨r', hr', hlog, hst⟩
        · rcases (mem_keys_upsertR m r.login r u).mp h' with h'' | rfl
          · exact Or.inl h''
          · exact Or.inr ⟨r, by simp, rfl, hc⟩
        · exact Or.inr ⟨r', by simp [hr'], hlog, hst⟩
      · rw [if_neg ht] at h
        rcases ih m u h with h' | ⟨r', hr', hlog, hst⟩
        · exact Or.inl h'
        · exact Or.inr ⟨r', by simp [hr'], hlog, hst⟩

/-- Helper: a successful lookup witnesses key membership. -/
theorem mem_keys_of_lookupR :
    ∀ (m : List (String × Review)) (u : String) (r : Review),
      lookupR m u = some r → u ∈ m.map (·.1) := by
  intro m
  induction m with
  | nil => intro u r h; simp [lookupR] at h
  | cons p rest ih =>
    intro u r h
    obtain ⟨k', v'⟩ := p
    by_cases hk : k' = u
    · simp [hk]
    · rw [lookupR, if_neg hk] at h
      simp [ih u r h]

/-- Helper: counting over map values equals counting over keys through lookup,
when the keys are distinct. -/
theorem countP_values_eq_keys (P : Review → Bool) :
    ∀ (m : List (String × Review)), (m.map (·.1)).Nodup →
      m.countP (fun p => P p.2) =
        (m.map (·.1)).countP (fun u =>
          match lookupR m u with
          | some v => P v
          | none => false) := by
  intro m
  induction m with
  | nil => simp
  | cons p rest ih =>
    obtain ⟨k, v⟩ := p
    intro h
    rw [List.map_cons, List.nodup_cons] at h
    rw [List.countP_cons, List.map_cons, List.countP_cons]
    have hk : lookupR ((k, v) :: rest) k = some v := by simp [lookupR]
    have hrest : (rest.map (·.1)).countP (fun u =>
          match lookupR ((k, v) :: rest) u with
          | some w => P w
          | none => false)
        = (rest.map (·.1)).countP (fun u =>
          match lookupR rest u with
          | some w => P w
          | none => false) := by
      apply List.countP_congr
      intro u hu
      have hne : ¬ k = u := by
        intro he; exact h.1 (he ▸ hu)
      rw [lookupR, if_neg hne]
    rw [hrest, ih h.2, hk]

/-- Helper: two duplicate-free lists with the same predicate-satisfying
members count a predicate equally. -/
theorem countP_eq_of_nodup_subset (l₁ l₂ : List String) (Q : String → Bool)
    (h₁ : l₁.Nodup) (h₂ : l₂.Nodup) (hsub : l₁ ⊆ l₂)
    (hback : ∀ u ∈ l₂, Q u = true → u ∈ l₁) :
    l₁.countP Q = l₂.countP Q := by
  rw [List.countP_eq_length_filter, List.countP_eq_length_filter]
  have hn₁ : (l₁.filter Q).Nodup := h₁.filter Q
  have hn₂ : (l₂.filter Q).Nodup := h₂.filter Q
  rw [← List.toFinset_card_of_nodup hn₁, ← List.toFinset_card_of_nodup hn₂]
  congr 1
  ext x
  simp only [List.mem_toFinset, List.mem_filter]
  exact ⟨fun ⟨hx, hq⟩ => ⟨hsub hx, hq⟩, fun ⟨hx, hq⟩ => ⟨hback x hx hq, hq⟩⟩

/-- Helper: length bound between duplicate-free lists under inclusion. -/
theorem nodup_length_le_subset (l₁ l₂ : List String)
    (h₁ : l₁.Nodup) (h₂ : l₂.Nodup) (hsub : l₁ ⊆ l₂) : l₁.length ≤ l₂.length := by
  rw [← List.toFinset_card_of_nodup h₁, ← List.toFinset_card_of_nodup h₂]
  exact Finset.card_le_card (fun x hx => by
    rw [List.mem_toFinset] at hx ⊢
    exact hsub hx)

/-- Helper: the count of a symbol among the emitted review symbols equals the
count of distinct logins whose surviving state maps to it. -/
theorem count_symbol_eq (reviews : List Review) (st : String)
    (hsy : ∀ s : String, (reviewSymbol s == reviewSymbol st) = decide (s = st)) :
    (reviewSymbols reviews).count (reviewSymbol st)
      = (distinctLogins reviews).countP
          (fun u => decide (survivorState reviews u = some st)) := by
  have hnodup : ((buildReviewSeen reviews []).map (·.1)).Nodup :=
    nodup_keys_buildReviewSeen reviews [] (by simp)
  rw [reviewSymbols, List.count, List.countP_map]
  have step1 : (buildReviewSeen reviews []).countP
        ((fun x => x == reviewSymbol st) ∘ fun p => reviewSymbol p.2.state)
      = (buildReviewSeen reviews []).countP (fun p => decide (p.2.state = st)) := by
    apply List.countP_congr
    intro p _
    show (reviewSymbol p.2.state == reviewSymbol st) = true ↔ _
    rw [hsy p.2.state]
  rw [step1, countP_values_eq_keys (fun v => decide (v.state = st)) _ hnodup]
  have step2 : (((buildReviewSeen reviews []).map (·.1)).countP (fun u =>
        match lookupR (buildReviewSeen reviews []) u with
        | some v => decide (v.state = st)
        | none => false))
      = (((buildReviewSeen reviews []).map (·.1)).countP
          (fun u => decide (survivorState reviews u = some st))) := by
    apply List.countP_congr
    intro u _
    rw [lookupR_buildReviewSeen reviews [] u]
    show (match survivor reviews u with
          | some v => decide (v.state = st)
          | none => false) = true ↔ decide (survivorState reviews u = some st) = true
    rw [survivorState]
    rcases hs : survivor reviews u with _ | v
    · simp
    · simp
  rw [step2]
  apply countP_eq_of_nodup_subset _ _ _ hnodup (List.nodup_dedup _)
  · intro u hu
    rcases mem_keys_buildReviewSeen reviews [] u hu with h | ⟨r, hr, hlog, _⟩
    · simp at h
    · exact List.mem_dedup.mpr (List.mem_map.mpr ⟨r, hr, hlog⟩)
  · intro u _ hq
    rw [decide_eq_true_iff] at hq
    rw [survivorState] at hq
    rcases hsv : survivor reviews u with _ | v
    · rw [hsv] at hq; simp at hq
    · have : lookupR (buildReviewSeen reviews []) u = some v := by
        rw [lookupR_buildReviewSeen reviews [] u]
        exact hsv
      exact mem_keys_of_lookupR _ u v this

/-- C3: `parseReviewState` retains per reviewer only the latest non-comment
review (a `COMMENTED` review never overrides a reviewer's standing), emits one
approved symbol per reviewer whose surviving state is `APPROVED` and one
changes-requested symbol per reviewer whose surviving state is
`CHANGES_REQUESTED`, emits nothing for any other state, never emits more
symbols than there are distinct reviewers with a non-comment review, and on
`[{alice, COMMENTED, t1}, {alice, APPROVED, t2}]` with `t2 > t1` yields
exactly one approved symbol. -/
theorem claim_C3_review_resolution :
    (∀ (reviews : List Review) (u : String),
      lookupR (buildReviewSeen reviews []) u = survivor reviews u) ∧
    (∀ reviews : List Review,
      (reviewSymbols reviews).count "✅"
        = (distinctLogins reviews).countP
            (fun u => decide (survivorState reviews u = some "APPROVED"))) ∧
    (∀ reviews : List Review,
      (reviewSymbols reviews).count "❌"
        = (distinctLogins reviews).countP
            (fun u => decide (survivorState reviews u = some "CHANGES_REQUESTED"))) ∧
    (∀ reviews : List Review, ∀ sy ∈ reviewSymbols reviews, sy = "✅" ∨ sy = "❌" ∨ sy = "") ∧
    (∀ reviews : List Review,
      (reviewSymbols reviews).countP (fun sy => decide (¬ sy = ""))
        ≤ (nonCommentLogins reviews).length) ∧
    parseReviewState [⟨"alice", "COMMENTED", 1⟩, ⟨"alice", "APPROVED", 2⟩] = "✅" := by
  refine ⟨?_, ?_, ?_, ?_, ?_, ?_⟩
  · intro reviews u
    rw [lookupR_buildReviewSeen reviews [] u]
    rfl
  · intro reviews
    have h1 : reviewSymbol "APPROVED" = "✅" := rfl
    rw [← h1]
    apply count_symbol_eq
    intro s
    rw [reviewSymbol]
    by_cases hA : s = "APPROVED"
    · simp [hA, reviewSymbol]
    · rw [if_neg hA]
      by_cases hC : s = "CHANGES_REQUESTED"
      · simp [hC, reviewSymbol, hA]
      · simp [hA, hC, reviewSymbol]
  · intro reviews
    have h1 : reviewSymbol "CHANGES_REQUESTED" = "❌" := rfl
    rw [← h1]
    apply count_symbol_eq
    intro s
    rw [reviewSymbol]
    by_cases hA : s = "APPROVED"
    · simp [hA, reviewSymbol]
    · rw [if_neg hA]
      by_cases hC : s = "CHANGES_REQUESTED"
      · simp [hC, reviewSymbol, hA]
      · simp [hA, hC, reviewSymbol]
  · intro reviews sy hsy
    obtain ⟨p, _, hp⟩ := List.mem_map.mp hsy
    rw [← hp, reviewSymbol]
    by_cases hA : p.2.state = "APPROVED"
    · left; simp [hA]
    · right
      rw [if_neg hA]
      by_cases hC : p.2.state = "CHANGES_REQUESTED"
      · left; simp [hC]
      · right; simp [hC]
  · intro reviews
    calc (reviewSymbols reviews).countP (fun sy => decide (¬ sy = ""))
        ≤ (reviewSymbols reviews).length := List.countP_le_length _
      _ = ((buildReviewSeen reviews []).map (·.1)).length := by
            rw [reviewSymbols]; simp
      _ ≤ (nonCommentLogins reviews).length := by
            apply nodup_length_le_subset _ _
              (nodup_keys_buildReviewSeen reviews [] (by simp))
              (List.nodup_dedup _)
            intro u hu
            rcases mem_keys_buildReviewSeen reviews [] u hu with h | ⟨r, hr, hlog, hst⟩
            · simp at h
            · exact List.mem_dedup.mpr
                (List.mem_map.mpr ⟨r, List.mem_filter.mpr ⟨hr, by simpa using hst⟩, hlog⟩)
  · rfl

/-- C3 witness: the scenario input, with the surviving-review and counting
facts instantiated on it. -/
theorem claim_C3_witness :
    lookupR (buildReviewSeen [⟨"alice", "COMMENTED", 1⟩, ⟨"alice", "APPROVED", 2⟩] []) "alice"
      = survivor [⟨"alice", "COMMENTED", 1⟩, ⟨"alice", "APPROVED", 2⟩] "alice" ∧
    ("✅" = "✅" ∨ "✅" = "❌" ∨ "✅" = "") :=
  ⟨claim_C3_review_resolution.1 [⟨"alice", "COMMENTED", 1⟩, ⟨"alice", "APPROVED", 2⟩] "alice",
    claim_C3_review_resolution.2.2.2.1 [⟨"alice", "COMMENTED", 1⟩, ⟨"alice", "APPROVED", 2⟩]
      "✅" (by decide)⟩

/-! URL parsing: helper lemmas and C6. -/

/-- Helper: host characters are never `'/'`. -/
theorem host_not_slash {c : Char} (h : isHostChar c) : ¬ c = '/' := by
  rintro rfl
  revert h
  decide

/-- Helper: digits are never `'/'`. -/
theorem digit_not_slash {c : Char} (h : isDigitChar c) : ¬ c = '/' := by
  rintro rfl
  revert h
  decide

/-- Helper: a string splits at its first slash in only one way. -/
theorem slash_split_unique :
    ∀ (A C B D : List Char), '/' ∉ A → '/' ∉ C →
      A ++ '/' :: B = C ++ '/' :: D → A = C ∧ B = D := by
  intro A
  induction A with
  | nil =>
    intro C B D _ hC h
    cases C with
    | nil => simpa using h
    | cons c C' =>
      rw [List.nil_append] at h
      injection h with h1 _
      exact absurd (List.mem_cons_self _ _) (h1 ▸ hC)
  | cons a A' ih =>
    intro C B D hA hC h
    cases C with
    | nil =>
      rw [List.nil_append] at h
      injection h with h1 _
      subst h1
      exact absurd (List.mem_cons_self _ _) hA
    | cons c C' =>
      injection h with h1 h2
      subst h1
      obtain ⟨h3, h4⟩ := ih C' B D (fun hin => hA (List.mem_cons_of_mem _ hin))
        (fun hin => hC (List.mem_cons_of_mem _ hin)) h2
      exact ⟨by rw [h3], h4⟩

/-- Helper: the `G /pull/ D` decomposition of the canonical tail is unique
when the path segments are slash-free and the numbers are digits. -/
theorem tail_unique :
    ∀ (G D o r d : List Char), D ≠ [] → (∀ c ∈ D, isDigitChar c) →
      d ≠ [] → (∀ c ∈ d, isDigitChar c) →
      (G ++ "/pull/".toList) ++ D = ((o ++ '/' :: r) ++ "/pull/".toList) ++ d →
      G = o ++ '/' :: r ∧ D = d := by
  intro G D o r d hD hDc hd hdc h
  have hlen := congrArg List.length h
  simp only [List.length_append] at hlen
  rcases Nat.lt_trichotomy D.length d.length with hlt | heq | hgt
  · exfalso
    rcases List.append_eq_append_iff.mp h with ⟨t, _, h2⟩ | ⟨t, h1, h2⟩
    · have := congrArg List.length h2
      simp only [List.length_append] at this
      omega
    · have hlt' := congrArg List.length h2
      simp only [List.length_append] at hlt'
      have ht : t ≠ [] := by
        intro he
        rw [he] at hlt'
        simp at hlt'
        omega
      rcases List.eq_nil_or_concat t with rfl | ⟨t', a, rfl⟩
      · exact ht rfl
      · rw [List.concat_eq_append] at h1 h2 hlt'
        have h1' : (G ++ "/pull".toList) ++ ['/']
            = (((o ++ '/' :: r) ++ "/pull/".toList) ++ t') ++ [a] := by
          calc (G ++ "/pull".toList) ++ ['/']
              = G ++ "/pull/".toList := by rw [List.append_assoc]; rfl
            _ = ((o ++ '/' :: r) ++ "/pull/".toList) ++ (t' ++ [a]) := h1
            _ = (((o ++ '/' :: r) ++ "/pull/".toList) ++ t') ++ [a] := by
                  simp [List.append_assoc]
        have := (List.append_inj' h1' rfl).2
        injection this with ha _
        have hmem : a ∈ d := by
          rw [h2]
          simp
        exact digit_not_slash (hdc a hmem) ha.symm
  · have hlen' : (G ++ "/pull/".toList).length = ((o ++ '/' :: r) ++ "/pull/".toList).length := by
      simp only [List.length_append, List.length_cons]
      simp only [List.length_append, List.length_cons] at hlen
      omega
    have hXY : G ++ "/pull/".toList = (o ++ '/' :: r) ++ "/pull/".toList :=
      (List.append_inj h hlen').1
    have hDd : D = d := (List.append_inj h hlen').2
    refine ⟨?_, hDd⟩
    have hlen'' : G.length = (o ++ '/' :: r).length := by
      have := congrArg List.length hXY
      simp only [List.length_append, List.length_cons] at this ⊢
      omega
    exact (List.append_inj hXY hlen'').1
  · exfalso
    rcases List.append_eq_append_iff.mp h with ⟨t, h1, h2⟩ | ⟨t, _, h2⟩
    · have hlt' := congrArg List.length h2
      simp only [List.length_append] at hlt'
      have ht : t ≠ [] := by
        intro he
        rw [he] at hlt'
        simp at hlt'
        omega
      rcases List.eq_nil_or_concat t with rfl | ⟨t', a, rfl⟩
      · exact ht rfl
      · rw [List.concat_eq_append] at h1 h2 hlt'
        have h1' : ((o ++ '/' :: r) ++ "/pull".toList) ++ ['/']
            = ((G ++ "/pull/".toList) ++ t') ++ [a] := by
          calc ((o ++ '/' :: r) ++ "/pull".toList) ++ ['/']
              = (o ++ '/' :: r) ++ "/pull/".toList := by rw [List.append_assoc]; rfl
            _ = (G ++ "/pull/".toList) ++ (t' ++ [a]) := h1
            _ = ((G ++ "/pull/".toList) ++ t') ++ [a] := by simp [List.append_assoc]
        have := (List.append_inj' h1' rfl).2
        injection this with ha _
        have hmem : a ∈ D := by
          rw [h2]
          simp
        exact digit_not_slash (hDc a hmem) ha.symm
    · have := congrArg List.length h2
      simp only [List.length_append] at this
      omega

/-- Helper: every full-match decomposition of a canonically constructed URL
tail carries the same submatch, `owner/repo` — provided the owner is not the
literal `com` (for `owner = com` the greedy host consumes it and the engine
captures only the repository). -/
theorem repoUrl_group_unique
    (w o r d H G D : List Char) (x : Char)
    (hw : ∀ c ∈ w, isHostChar c)
    (ho : '/' ∉ o) (hocom : ¬ o = "com".toList)
    ( _hr : '/' ∉ r)
    (hd : d ≠ []) (hdc : ∀ c ∈ d, isDigitChar c)
    (hH : ∀ c ∈ H, isHostChar c)
    (hD : D ≠ []) (hDc : ∀ c ∈ D, isDigitChar c)
    (heq : H ++ [x] ++ "com/".toList ++ G ++ "/pull/".toList ++ D
         = w ++ ".com/".toList ++ o ++ "/".toList ++ r ++ "/pull/".toList ++ d) :
    G = o ++ '/' :: r ∧ D = d := by
  have hwns : '/' ∉ w := fun hin => host_not_slash (hw '/' hin) rfl
  have hHns : '/' ∉ H := fun hin => host_not_slash (hH '/' hin) rfl
  have e2 : w ++ ".com/".toList ++ o ++ "/".toList ++ r ++ "/pull/".toList ++ d
      = (w ++ ".com".toList) ++ '/' :: (o ++ '/' :: (r ++ "/pull/".toList ++ d)) := by
    simp [List.append_assoc]
  by_cases hx : x = '/'
  · subst hx
    have e1 : H ++ ['/'] ++ "com/".toList ++ G ++ "/pull/".toList ++ D
        = H ++ '/' :: ("com".toList ++ '/' :: (G ++ "/pull/".toList ++ D)) := by
      simp [List.append_assoc]
    rw [e1] at heq
    rw [e2] at heq
    obtain ⟨_, hB⟩ := slash_split_unique H (w ++ ".com".toList) _ _ hHns
      (by
        intro hin
        rcases List.mem_append.mp hin with hin | hin
        · exact hwns hin
        · revert hin; decide)
      heq
    obtain ⟨hcom, _⟩ := slash_split_unique "com".toList o _ _ (by decide) ho hB
    exact absurd hcom.symm hocom
  · have e1 : H ++ [x] ++ "com/".toList ++ G ++ "/pull/".toList ++ D
        = (H ++ x :: "com".toList) ++ '/' :: (G ++ "/pull/".toList ++ D) := by
      simp [List.append_assoc]
    rw [e1] at heq
    rw [e2] at heq
    obtain ⟨_, hB⟩ := slash_split_unique (H ++ x :: "com".toList) (w ++ ".com".toList) _ _
      (by
        intro hin
        rcases List.mem_append.mp hin with hin | hin
        · exact hHns hin
        · rcases List.mem_cons.mp hin with rfl | hin
          · exact hx rfl
          · revert hin; decide)
      (by
        intro hin
        rcases List.mem_append.mp hin with hin | hin
        · exact hwns hin
        · revert hin; decide)
      heq
    have hB' : (G ++ "/pull/".toList) ++ D = ((o ++ '/' :: r) ++ "/pull/".toList) ++ d := by
      rw [hB]
      simp [List.append_assoc]
    exact tail_unique G D o r d hD hDc hd hdc hB'

/-- Helper: a prefix of the host-character run consists of host characters. -/
theorem all_host_of_le_takeWhile :
    ∀ (l : List Char) (j : Nat),
      j ≤ (l.takeWhile (fun c => decide (isHostChar c))).length →
      ∀ c ∈ l.take j, isHostChar c := by
  intro l
  induction l with
  | nil => intro j _ c hc; simp at hc
  | cons a l' ih =>
    intro j hj c hc
    by_cases ha : isHostChar a
    · rw [List.takeWhile_cons_of_pos (by simpa using ha)] at hj
      cases j with
      | zero => simp at hc
      | succ j' =>
        rw [List.take_succ_cons] at hc
        rcases List.mem_cons.mp hc with rfl | hc'
        · exact ha
        · exact ih j' (by simpa using hj) c hc'
    · rw [List.takeWhile_cons_of_neg (by simpa using ha)] at hj
      simp at hj
      subst hj
      simp at hc

/-- Helper: a host-character prefix is no longer than the host-character run. -/
theorem host_prefix_le_takeWhile :
    ∀ (H T : List Char), (∀ c ∈ H, isHostChar c) →
      H.length ≤ ((H ++ T).takeWhile (fun c => decide (isHostChar c))).length := by
  intro H
  induction H with
  | nil => intro T _; simp
  | cons a H' ih =>
    intro T hH
    rw [List.cons_append, List.takeWhile_cons_of_pos (by simpa using hH a (by simp))]
    simpa using ih T (fun c hc => hH c (by simp [hc]))

/-- Helper: a found group comes with a full tail decomposition. -/
theorem tryTail_some_split :
    ∀ (R : List Char) (k : Nat) (g : List Char),
      tryTail R k = some g →
      ∃ D, R = g ++ "/pull/".toList ++ D ∧ g ≠ [] ∧ (∀ c ∈ g, isGroupChar c) ∧
        D ≠ [] ∧ ∀ c ∈ D, isDigitChar c := by
  intro R k
  induction k with
  | zero => intro g h; simp [tryTail] at h
  | succ k ih =>
    intro g h
    rw [tryTail] at h
    by_cases hok : tailOk (R.take (k+1)) (R.drop (k+1))
    · rw [if_pos hok] at h
      injection h with h'
      subst h'
      obtain ⟨hg, hgc, htk, hne, hdg⟩ := hok
      refine ⟨(R.drop (k+1)).drop 6, ?_, hg, hgc, hne, hdg⟩
      calc R = R.take (k+1) ++ R.drop (k+1) := (List.take_append_drop _ _).symm
        _ = R.take (k+1) ++ ((R.drop (k+1)).take 6 ++ (R.drop (k+1)).drop 6) := by
              rw [List.take_append_drop 6 (R.drop (k+1))]
        _ = R.take (k+1) ++ "/pull/".toList ++ (R.drop (k+1)).drop 6 := by
              rw [htk, List.append_assoc]
    · rw [if_neg hok] at h
      exact ih g h

/-- Helper: a failed tail search rules out every candidate group length. -/
theorem tryTail_none :
    ∀ (R : List Char) (k j : Nat), tryTail R k = none →
      1 ≤ j → j ≤ k → ¬ tailOk (R.take j) (R.drop j) := by
  intro R k
  induction k with
  | zero => intro j _ h1 h2; omega
  | succ k ih =>
    intro j h hj1 hj2
    rw [tryTail] at h
    by_cases hok : tailOk (R.take (k+1)) (R.drop (k+1))
    · rw [if_pos hok] at h; cases h
    · rw [if_neg hok] at h
      rcases Nat.lt_or_ge j (k+1) with hlt | hge
      · exact ih j h hj1 (by omega)
      · have hj : j = k+1 := by omega
        rw [hj]
        exact hok

/-- Helper: a found submatch comes with a full decomposition of the URL tail. -/
theorem tryHost_some_split :
    ∀ (s : List Char) (h : Nat) (g : List Char),
      tryHost s h = some g →
      ∃ h' x D, 1 ≤ h' ∧ h' ≤ h ∧
        s = s.take h' ++ [x] ++ "com/".toList ++ g ++ "/pull/".toList ++ D ∧
        ¬ x = '\n' ∧ g ≠ [] ∧ (∀ c ∈ g, isGroupChar c) ∧ D ≠ [] ∧ ∀ c ∈ D, isDigitChar c := by
  intro s h
  induction h with
  | zero => intro g hh; simp [tryHost] at hh
  | succ h ih =>
    intro g hh
    rw [tryHost] at hh
    rcases hatt : hostAttempt (s.drop (h+1)) with _ | g0 <;> rw [hatt] at hh <;>
      simp only [] at hh
    · obtain ⟨h', x, D, hh1, hh2, hh3, hh4⟩ := ih g hh
      exact ⟨h', x, D, hh1, by omega, hh3, hh4⟩
    · injection hh with hh'
      subst hh'
      rcases hrest : s.drop (h+1) with _ | ⟨x, rest'⟩ <;> rw [hrest] at hatt
      · simp [hostAttempt] at hatt
      · by_cases hcond : ¬ x = '\n' ∧ rest'.take 4 = "com/".toList
        · rw [hostAttempt, if_pos hcond] at hatt
          obtain ⟨D, hsplit, hg, hgc, hD, hDc⟩ := tryTail_some_split _ _ _ hatt
          refine ⟨h+1, x, D, by omega, le_refl _, ?_, hcond.1, hg, hgc, hD, hDc⟩
          calc s = s.take (h+1) ++ s.drop (h+1) := (List.take_append_drop _ _).symm
            _ = s.take (h+1) ++ (x :: rest') := by rw [hrest]
            _ = s.take (h+1) ++ (x :: (rest'.take 4 ++ rest'.drop 4)) := by
                  rw [List.take_append_drop]
            _ = s.take (h+1) ++ (x :: ("com/".toList ++ (g0 ++ "/pull/".toList ++ D))) := by
                  rw [hcond.2, hsplit]
            _ = s.take (h+1) ++ [x] ++ "com/".toList ++ g0 ++ "/pull/".toList ++ D := by
                  simp [List.append_assoc]
        · rw [hostAttempt, if_neg hcond] at hatt
          cases hatt

/-- Helper: a failed host search rules out every decomposition whose host part
is at most the searched length. -/
theorem tryHost_none :
    ∀ (s : List Char) (h : Nat) (H : List Char) (x : Char) (G D : List Char),
      tryHost s h = none → H ≠ [] → H.length ≤ h →
      s = H ++ [x] ++ "com/".toList ++ G ++ "/pull/".toList ++ D →
      ¬ x = '\n' → G ≠ [] → (∀ c ∈ G, isGroupChar c) → D ≠ [] →
      (∀ c ∈ D, isDigitChar c) → False := by
  intro s h
  induction h with
  | zero =>
    intro H x G D _ hne hlen _ _ _ _ _ _
    have : 1 ≤ H.length := List.length_pos.mpr hne
    omega
  | succ h ih =>
    intro H x G D hh hne hlen hs hx hG hGc hD hDc
    rw [tryHost] at hh
    rcases Nat.lt_or_ge H.length (h+1) with hlt | hge
    · rcases hatt : hostAttempt (s.drop (h+1)) with _ | g0 <;> rw [hatt] at hh <;>
        simp only [] at hh
      · exact ih H x G D hh hne (by omega) hs hx hG hGc hD hDc
      · cases hh
    · have hHlen : H.length = h + 1 := by omega
      -- the decomposition at h+1 would have made the attempt succeed
      have hdrop : s.drop (h+1) = x :: ("com/".toList ++ (G ++ "/pull/".toList ++ D)) := by
        rw [hs]
        have : H ++ [x] ++ "com/".toList ++ G ++ "/pull/".toList ++ D
            = H ++ (x :: ("com/".toList ++ (G ++ "/pull/".toList ++ D))) := by
          simp [List.append_assoc]
        rw [this, ← hHlen, List.drop_left]
      have htake4 : ("com/".toList ++ (G ++ "/pull/".toList ++ D)).take 4 = "com/".toList := by
        have h4 : ("com/".toList : List Char).length = 4 := rfl
        rw [← h4, List.take_left]
      have hdrop4 : ("com/".toList ++ (G ++ "/pull/".toList ++ D)).drop 4
          = G ++ "/pull/".toList ++ D := by
        have h4 : ("com/".toList : List Char).length = 4 := rfl
        rw [← h4, List.drop_left]
      rw [hdrop, hostAttempt, if_pos ⟨hx, htake4⟩, hdrop4] at hh
      rcases hatt : tryTail (G ++ "/pull/".toList ++ D) (G ++ "/pull/".toList ++ D).length
        with _ | g0
      · have hTok : tailOk ((G ++ "/pull/".toList ++ D).take G.length)
            ((G ++ "/pull/".toList ++ D).drop G.length) := by
          have htkG : (G ++ "/pull/".toList ++ D).take G.length = G := by
            rw [List.append_assoc, List.take_left]
          have hdrG : (G ++ "/pull/".toList ++ D).drop G.length
              = "/pull/".toList ++ D := by
            rw [List.append_assoc, List.drop_left]
          rw [htkG, hdrG]
          refine ⟨hG, hGc, ?_, ?_, ?_⟩
          · have h6 : ("/pull/".toList : List Char).length = 6 := rfl
            rw [← h6, List.take_left]
          · have h6 : ("/pull/".toList : List Char).length = 6 := rfl
            rw [← h6, List.drop_left]
            exact hD
          · have h6 : ("/pull/".toList : List Char).length = 6 := rfl
            rw [← h6, List.drop_left]
            exact hDc
        exact absurd hTok (tryTail_none _ _ G.length hatt (List.length_pos.mpr hG)
          (by simp only [List.length_append]; omega))
      · rw [hatt] at hh
        cases hh

/-- Helper: `parseRepoFromUrl` unfolded. -/
theorem parseRepoFromUrl_eq (s : String) :
    parseRepoFromUrl s =
      (if s.toList.take 8 = "https://".toList then
        match tryHost (s.toList.drop 8)
            ((s.toList.drop 8).takeWhile (fun c => decide (isHostChar c))).length with
        | some g => String.mk g
        | none => ""
      else "") := rfl

/-- Helper: a nonempty parse result certifies a full regex match. -/
theorem parse_ne_empty_matches (s : String) (h : ¬ parseRepoFromUrl s = "") :
    MatchesRepoUrl s.toList := by
  rw [parseRepoFromUrl_eq] at h
  by_cases h8 : s.toList.take 8 = "https://".toList
  · rw [if_pos h8] at h
    rcases hres : tryHost (s.toList.drop 8)
        ((s.toList.drop 8).takeWhile (fun c => decide (isHostChar c))).length with _ | g
    · rw [hres] at h
      simp only [] at h
      exact absurd trivial h
    · obtain ⟨h', x, D, hh1, hh2, hh3, hx, hg, hgc, hD, hDc⟩ := tryHost_some_split _ _ _ hres
      refine ⟨(s.toList.drop 8).take h', x, g, D, ?_, ?_, ?_, hx, hg, hgc, hD, hDc⟩
      · conv_lhs => rw [← List.take_append_drop 8 s.toList, h8, hh3]
        simp [List.append_assoc]
      · intro hnil
        rcases List.take_eq_nil_iff.mp hnil with h0 | h0
        · omega
        · rw [h0] at hh3
          simp at hh3
      · exact all_host_of_le_takeWhile _ h' hh2
  · rw [if_neg h8] at h
    exact absurd rfl h

/-- C6 counterexample: the claimed round-trip quantifies over every host, but
the source regex `^https://[a-z.]+.com/(...)/pull/\d+$` requires the host to
end in `com` after one wildcard character; the URL
`https://host.tld/owner/repo/pull/4` therefore parses to the empty string
rather than to `owner/repo`. -/
theorem claim_C6_cex :
    parseRepoFromUrl "https://host.tld/owner/repo/pull/4" = "" ∧
      ¬ ("" : String) = "owner/repo" := by
  exact ⟨by decide, by decide⟩

/-- C6 (amended): for every URL built as
`https://{w}.com/{owner}/{repo}/pull/{n}` with `w` a nonempty host-character
word, owner and repo nonempty slash-free group-character words, owner not the
literal `com`, and `n` a nonempty digit string, `parseRepoFromUrl` returns
exactly `owner/repo`; and every string that does not match the source pattern
parses to the empty string (the parser never fails or crashes). -/
theorem claim_C6_repo_url_roundtrip :
    (∀ w o r d : List Char,
      w ≠ [] → (∀ c ∈ w, isHostChar c) →
      o ≠ [] → (∀ c ∈ o, isGroupChar c) → '/' ∉ o → ¬ o = "com".toList →
      r ≠ [] → (∀ c ∈ r, isGroupChar c) → '/' ∉ r →
      d ≠ [] → (∀ c ∈ d, isDigitChar c) →
      parseRepoFromUrl (String.mk ("https://".toList ++ w ++ ".com/".toList ++ o
          ++ "/".toList ++ r ++ "/pull/".toList ++ d))
        = String.mk (o ++ '/' :: r)) ∧
    (∀ s : String, ¬ MatchesRepoUrl s.toList → parseRepoFromUrl s = "") := by
  constructor
  · intro w o r d hw1 hw2 ho1 ho2 ho3 ho4 hr1 hr2 hr3 hd1 hd2
    have hsl : (String.mk ("https://".toList ++ w ++ ".com/".toList ++ o ++ "/".toList ++ r
        ++ "/pull/".toList ++ d)).toList
        = "https://".toList ++ w ++ ".com/".toList ++ o ++ "/".toList ++ r
            ++ "/pull/".toList ++ d := rfl
    have hsplit8 : "https://".toList ++ w ++ ".com/".toList ++ o ++ "/".toList ++ r
        ++ "/pull/".toList ++ d
        = "https://".toList ++ (w ++ ".com/".toList ++ o ++ "/".toList ++ r
            ++ "/pull/".toList ++ d) := by
      simp [List.append_assoc]
    have h8 : ("https://".toList : List Char).length = 8 := rfl
    have htake : ("https://".toList ++ w ++ ".com/".toList ++ o ++ "/".toList ++ r
        ++ "/pull/".toList ++ d).take 8 = "https://".toList := by
      rw [hsplit8, ← h8, List.take_left]
    have hdrop : ("https://".toList ++ w ++ ".com/".toList ++ o ++ "/".toList ++ r
        ++ "/pull/".toList ++ d).drop 8
        = w ++ ".com/".toList ++ o ++ "/".toList ++ r ++ "/pull/".toList ++ d := by
      rw [hsplit8, ← h8, List.drop_left]
    rw [parseRepoFromUrl_eq, hsl, htake, hdrop, if_pos rfl]
    have hwle : w.length ≤ ((w ++ ".com/".toList ++ o ++ "/".toList ++ r
        ++ "/pull/".toList ++ d).takeWhile (fun c => decide (isHostChar c))).length := by
      have hT : w ++ ".com/".toList ++ o ++ "/".toList ++ r ++ "/pull/".toList ++ d
          = w ++ (".com/".toList ++ o ++ "/".toList ++ r ++ "/pull/".toList ++ d) := by
        simp [List.append_assoc]
      rw [hT]
      exact host_prefix_le_takeWhile w _ hw2
    have hcanon : w ++ ".com/".toList ++ o ++ "/".toList ++ r ++ "/pull/".toList ++ d
        = w ++ ['.'] ++ "com/".toList ++ (o ++ '/' :: r) ++ "/pull/".toList ++ d := by
      simp [List.append_assoc]
    rcases hres : tryHost (w ++ ".com/".toList ++ o ++ "/".toList ++ r ++ "/pull/".toList ++ d)
        ((w ++ ".com/".toList ++ o ++ "/".toList ++ r
          ++ "/pull/".toList ++ d).takeWhile (fun c => decide (isHostChar c))).length
        with _ | g
    · exfalso
      refine tryHost_none _ _ w '.' (o ++ '/' :: r) d hres hw1 hwle hcanon
        (by decide) (by simp) ?_ hd1 hd2
      intro c hc
      rcases List.mem_append.mp hc with hc | hc
      · exact ho2 c hc
      · rcases List.mem_cons.mp hc with rfl | hc
        · decide
        · exact hr2 c hc
    · simp only []
      obtain ⟨h', x, D, hh1, hh2, hh3, hx, hg, hgc, hD, hDc⟩ := tryHost_some_split _ _ _ hres
      have hH := all_host_of_le_takeWhile
        (w ++ ".com/".toList ++ o ++ "/".toList ++ r ++ "/pull/".toList ++ d) h' hh2
      obtain ⟨hGeq, _⟩ := repoUrl_group_unique w o r d
        ((w ++ ".com/".toList ++ o ++ "/".toList ++ r ++ "/pull/".toList ++ d).take h')
        g D x hw2 ho3 ho4 hr3 hd1 hd2 hH hD hDc hh3.symm
      rw [hGeq]
  · intro s hnm
    by_contra hne
    exact hnm (parse_ne_empty_matches s hne)

/-- C6 witness: the amended round-trip at `https://github.com/org/repo/pull/89`. -/
theorem claim_C6_witness :
    parseRepoFromUrl "https://github.com/org/repo/pull/89" = "org/repo" := by
  have h := claim_C6_repo_url_roundtrip.1 "github".toList "org".toList "repo".toList "89".toList
    (by decide) (by decide) (by decide) (by decide) (by decide) (by decide)
    (by decide) (by decide) (by decide) (by decide) (by decide)
  calc parseRepoFromUrl "https://github.com/org/repo/pull/89"
      = parseRepoFromUrl (String.mk ("https://".toList ++ "github".toList ++ ".com/".toList
          ++ "org".toList ++ "/".toList ++ "repo".toList ++ "/pull/".toList
          ++ "89".toList)) := rfl
    _ = String.mk ("org".toList ++ '/' :: "repo".toList) := h
    _ = "org/repo" := rfl

/-! Swap and range toolkit for the sort verification. -/

/-- Helper: reading a just-written position. -/
theorem getE_set_self :
    ∀ (l : List PR) (i : Nat) (x : PR), i < l.length → getE (l.set i x) i = x := by
  intro l
  induction l with
  | nil => intro i x h; simp at h
  | cons a l ih =>
    intro i x h
    cases i with
    | zero => rfl
    | succ i => exact ih i x (by simpa using h)

/-- Helper: reading any other position after a write. -/
theorem getE_set_other :
    ∀ (l : List PR) (i k : Nat) (x : PR), k ≠ i → getE (l.set i x) k = getE l k := by
  intro l
  induction l with
  | nil => intro i k x _; cases i <;> rfl
  | cons a l ih =>
    intro i k x hk
    cases i with
    | zero =>
      cases k with
      | zero => exact absurd rfl hk
      | succ k => rfl
    | succ i =>
      cases k with
      | zero => rfl
      | succ k => exact ih i k x (fun h => hk (by rw [h]))

/-- Helper: a swap preserves the length. -/
theorem length_swapE (l : List PR) (i j : Nat) : (swapE l i j).length = l.length := by
  simp [swapE]

/-- Helper: reading after a swap of two in-bounds positions. -/
theorem getE_swapE (l : List PR) (i j k : Nat) (hi : i < l.length) (hj : j < l.length) :
    getE (swapE l i j) k =
      if k = j then getE l i else if k = i then getE l j else getE l k := by
  by_cases hkj : k = j
  · subst hkj
    rw [if_pos rfl, swapE, getE_set_self _ _ _ (by simpa using hj)]
  · rw [if_neg hkj, swapE, getE_set_other _ _ _ _ hkj]
    by_cases hki : k = i
    · subst hki
      rw [if_pos rfl, getE_set_self _ _ _ hi]
    · rw [if_neg hki, getE_set_other _ _ _ _ hki]

/-- Helper: positions away from both swap indices are untouched (no bounds
needed). -/
theorem getE_swapE_other (l : List PR) (i j k : Nat) (hki : k ≠ i) (hkj : k ≠ j) :
    getE (swapE l i j) k = getE l k := by
  rw [swapE, getE_set_other _ _ _ _ hkj, getE_set_other _ _ _ _ hki]

/-- Helper: occurrence counting across a single write. -/
theorem count_set :
    ∀ (l : List PR) (i : Nat) (x p : PR), i < l.length →
      (l.set i x).count p + (if getE l i = p then 1 else 0)
        = l.count p + (if x = p then 1 else 0) := by
  intro l
  induction l with
  | nil => intro i x p h; simp at h
  | cons a l ih =>
    intro i x p h
    cases i with
    | zero =>
      show (x :: l).count p + (if a = p then 1 else 0)
        = (a :: l).count p + (if x = p then 1 else 0)
      rw [List.count_cons, List.count_cons]
      by_cases hx : x = p <;> by_cases ha : a = p <;> simp [hx, ha]
    | succ i =>
      show (a :: l.set i x).count p + (if getE l i = p then 1 else 0)
        = (a :: l).count p + (if x = p then 1 else 0)
      rw [List.count_cons, List.count_cons]
      have := ih i x p (by simpa using h)
      by_cases ha : a = p <;> simp [ha] <;> omega

/-- Helper: counting is invariant under an in-bounds swap. -/
theorem count_swapE (l : List PR) (i j : Nat) (p : PR)
    (hi : i < l.length) (hj : j < l.length) :
    (swapE l i j).count p = l.count p := by
  have h1 := count_set l i (getE l j) p hi
  have hlen : (l.set i (getE l j)).length = l.length := by simp
  have h2 := count_set (l.set i (getE l j)) j (getE l i) p (by rw [hlen]; exact hj)
  have hread : getE (l.set i (getE l j)) j = getE l j := by
    by_cases hji : j = i
    · subst hji; exact getE_set_self _ _ _ hi
    · exact getE_set_other _ _ _ _ hji
  rw [hread] at h2
  show ((l.set i (getE l j)).set j (getE l i)).count p = l.count p
  omega

/-- Helper: swap closures compose. -/
theorem SwapsOn.trans {P : Nat → Prop} :
    ∀ {l l' l'' : List PR}, SwapsOn P l l' → SwapsOn P l' l'' → SwapsOn P l l'' := by
  intro l l' l'' h1 h2
  induction h1 with
  | refl l => exact h2
  | step i j l lm hi hj _ ih => exact SwapsOn.step i j l l'' hi hj (ih h2)

/-- Helper: swap closures are monotone in the position set. -/
theorem SwapsOn.mono {P Q : Nat → Prop} (hPQ : ∀ k, P k → Q k) :
    ∀ {l l' : List PR}, SwapsOn P l l' → SwapsOn Q l l' := by
  intro l l' h
  induction h with
  | refl l => exact SwapsOn.refl l
  | step i j l lm hi hj _ ih => exact SwapsOn.step i j l _ (hPQ i hi) (hPQ j hj) ih

/-- Helper: one swap is in the closure. -/
theorem SwapsOn.single {P : Nat → Prop} (l : List PR) (i j : Nat) (hi : P i) (hj : P j) :
    SwapsOn P l (swapE l i j) :=
  SwapsOn.step i j l _ hi hj (SwapsOn.refl _)

/-- Helper: swap closures preserve the length. -/
theorem SwapsOn.length_eq {P : Nat → Prop} :
    ∀ {l l' : List PR}, SwapsOn P l l' → l'.length = l.length := by
  intro l l' h
  induction h with
  | refl l => rfl
  | step i j l lm _ _ _ ih => rw [ih, length_swapE]

/-- Helper: positions outside the swap set are untouched. -/
theorem SwapsOn.outside {P : Nat → Prop} :
    ∀ {l l' : List PR}, SwapsOn P l l' → ∀ k, ¬ P k → getE l' k = getE l k := by
  intro l l' h
  induction h with
  | refl l => intro k _; rfl
  | step i j l lm hi hj _ ih =>
    intro k hk
    rw [ih k hk, getE_swapE_other l i j k (fun he => hk (he ▸ hi)) (fun he => hk (he ▸ hj))]

/-- Helper: a swap closure whose positions are in bounds is a permutation. -/
theorem SwapsOn.perm {P : Nat → Prop} :
    ∀ {l l' : List PR}, SwapsOn P l l' → (∀ k, P k → k < l.length) → l'.Perm l := by
  intro l l' h
  induction h with
  | refl l => intro _; exact List.Perm.refl l
  | step i j l lm hi hj _ ih =>
    intro hbd
    have hlen : (swapE l i j).length = l.length := length_swapE l i j
    have hswap : (swapE l i j).Perm l := by
      rw [List.perm_iff_count]
      intro p
      exact count_swapE l i j p (hbd i hi) (hbd j hj)
    exact (ih (fun k hk => by rw [hlen]; exact hbd k hk)).trans hswap

/-- Helper: a pointwise property of the positions in the swap set is
preserved by the closure. -/
theorem SwapsOn.pointwise {P : Nat → Prop} {Q : PR → Prop} :
    ∀ {l l' : List PR}, SwapsOn P l l' → (∀ k, P k → k < l.length) →
      (∀ k, P k → Q (getE l k)) → ∀ k, P k → Q (getE l' k) := by
  intro l l' h
  induction h with
  | refl l => intro _ hQ; exact hQ
  | step i j l lm hi hj _ ih =>
    intro hbd hQ
    have hlen : (swapE l i j).length = l.length := length_swapE l i j
    refine ih (fun k hk => by rw [hlen]; exact hbd k hk) ?_
    intro k hk
    rw [getE_swapE l i j k (hbd i hi) (hbd j hj)]
    by_cases hkj : k = j
    · rw [if_pos hkj]; exact hQ i hi
    · rw [if_neg hkj]
      by_cases hki : k = i
      · rw [if_pos hki]; exact hQ j hj
      · rw [if_neg hki]; exact hQ k hk

/-- Helper: a sorted subrange of a sorted range. -/
theorem SortedRange.shrink {l : List PR} {a b a' b' : Nat}
    (h : SortedRange l a b) (ha : a ≤ a') (hb : b' ≤ b) : SortedRange l a' b' :=
  fun i j hi hij hj => h i j (le_trans ha hi) hij (lt_of_lt_of_le hj hb)

/-- Helper: ranges with at most one element are sorted. -/
theorem sortedRange_small (l : List PR) (a b : Nat) (h : b ≤ a + 1) :
    SortedRange l a b := by
  intro i j hi hij hj
  have : i = j := by omega
  rw [this]

/-- Helper: adjacent comparisons imply range sortedness. -/
theorem sortedRange_of_adjacent (l : List PR) (a b : Nat)
    (h : ∀ k, a ≤ k → k + 1 < b → (getE l (k+1)).t ≤ (getE l k).t) :
    SortedRange l a b := by
  intro i j hi hij hj
  induction j with
  | zero =>
    have : i = 0 := by omega
    rw [this]
  | succ j ih =>
    rcases Nat.lt_or_ge i (j+1) with hlt | hge
    · have hij' : i ≤ j := by omega
      have hj' : j < b := by omega
      exact le_trans (h j (by omega) hj) (ih hij' hj')
    · have : i = j + 1 := by omega
      rw [this]

/-! `insertionSortLessFunc` sorts its range. -/

/-- Helper: the inner bubbling loop of insertion sort.  The invariant: the
prefix `[a, j)` and the suffix `[j, i]` are each sorted, and when `a < j`
everything strictly right of `j` is bounded by the element at `j-1`. -/
theorem insInner_spec (a : Nat) :
    ∀ (fuel j i : Nat) (l : List PR),
      a ≤ j → j ≤ i → j - a ≤ fuel → i < l.length →
      SortedRange l a j → SortedRange l j (i+1) →
      (a < j → ∀ k, j < k → k ≤ i → (getE l k).t ≤ (getE l (j-1)).t) →
      SwapsOn (InRange a (i+1)) l (insInner a fuel j l) ∧
        SortedRange (insInner a fuel j l) a (i+1) := by
  intro fuel
  induction fuel with
  | zero =>
    intro j i l hja hji hfuel _ h1 h2 h3
    have hj : j = a := by omega
    subst hj
    exact ⟨SwapsOn.refl l, h2⟩
  | succ fuel ih =>
    intro j i l hja hji hfuel hleni h1 h2 h3
    rw [insInner]
    by_cases hc : a < j ∧ lessIdx l j (j-1)
    · rw [if_pos hc]
      obtain ⟨haj, hless⟩ := hc
      have hlt : (getE l (j-1)).t < (getE l j).t := hless
      have hjlen : j < l.length := lt_of_le_of_lt hji hleni
      have hj1len : j - 1 < l.length := by omega
      have h1' : SortedRange (swapE l j (j-1)) a (j-1) := by
        intro p q hp hpq hq
        rw [getE_swapE_other l j (j-1) p (by omega) (by omega),
          getE_swapE_other l j (j-1) q (by omega) (by omega)]
        exact h1 p q hp hpq (by omega)
      have h2' : SortedRange (swapE l j (j-1)) (j-1) (i+1) := by
        apply sortedRange_of_adjacent
        intro k hk1 hk2
        rw [getE_swapE l j (j-1) (k+1) hjlen hj1len, getE_swapE l j (j-1) k hjlen hj1len]
        by_cases hkj1 : k = j - 1
        · rw [if_neg (by omega), if_pos (by omega), if_pos hkj1]
          exact le_of_lt hlt
        · by_cases hkj : k = j
          · rw [if_neg (by omega), if_neg (by omega), if_neg (by omega), if_pos hkj]
            exact h3 haj (k+1) (by omega) (by omega)
          · rw [if_neg (by omega), if_neg (by omega), if_neg hkj1, if_neg hkj]
            exact h2 k (k+1) (by omega) (by omega) (by omega)
      have h3' : a < j - 1 → ∀ k, j - 1 < k → k ≤ i →
          (getE (swapE l j (j-1)) k).t ≤ (getE (swapE l j (j-1)) (j-1-1)).t := by
        intro haj1 k hk1 hk2
        rw [getE_swapE_other l j (j-1) (j-1-1) (by omega) (by omega)]
        by_cases hkj : k = j
        · rw [hkj, getE_swapE l j (j-1) j hjlen hj1len, if_neg (by omega), if_pos rfl]
          exact h1 (j-1-1) (j-1) (by omega) (by omega) (by omega)
        · rw [getE_swapE_other l j (j-1) k hkj (by omega)]
          exact le_trans (h3 haj k (by omega) hk2)
            (h1 (j-1-1) (j-1) (by omega) (by omega) (by omega))
      obtain ⟨hsw, hsort⟩ := ih (j-1) i (swapE l j (j-1)) (by omega) (by omega) (by omega)
        (by rw [length_swapE]; exact hleni) h1' h2' h3'
      exact ⟨SwapsOn.step j (j-1) l _ ⟨hja, by omega⟩ ⟨by omega, by omega⟩ hsw, hsort⟩
    · rw [if_neg hc]
      refine ⟨SwapsOn.refl l, ?_⟩
      intro p q hp hpq hq
      by_cases hq' : q < j
      · exact h1 p q hp hpq hq'
      · by_cases hp' : j ≤ p
        · exact h2 p q hp' hpq hq
        · have haj : a < j := by omega
          have hnl : ¬ lessIdx l j (j-1) := fun hl => hc ⟨haj, hl⟩
          have hjj : (getE l j).t ≤ (getE l (j-1)).t := not_lt.mp hnl
          exact le_trans (h2 j q (le_refl j) (by omega) hq)
            (le_trans hjj (h1 p (j-1) hp (by omega) (by omega)))

/-- Helper: the outer loop of insertion sort. -/
theorem insOuter_spec (a b : Nat) :
    ∀ (fuel i : Nat) (l : List PR),
      a + 1 ≤ i → b ≤ l.length → b - i ≤ fuel → SortedRange l a i →
      SwapsOn (InRange a b) l (insOuter a b fuel i l) ∧
        SortedRange (insOuter a b fuel i l) a b := by
  intro fuel
  induction fuel with
  | zero =>
    intro i l hi _ hfuel hs
    exact ⟨SwapsOn.refl l, hs.shrink (le_refl a) (by omega)⟩
  | succ fuel ih =>
    intro i l hi hb hfuel hs
    rw [insOuter]
    by_cases hib : i < b
    · rw [if_pos hib]
      obtain ⟨hsw, hsort⟩ := insInner_spec a i i i l (by omega) (le_refl i) (by omega)
        (by omega) hs (sortedRange_small l i (i+1) (le_refl _))
        (fun _ k hk1 hk2 => absurd hk1 (by omega))
      obtain ⟨hsw2, hsort2⟩ := ih (i+1) (insInner a i i l) (by omega)
        (by rw [hsw.length_eq]; exact hb) (by omega) hsort
      exact ⟨(hsw.mono (fun k hk => ⟨hk.1, lt_of_lt_of_le hk.2 (by omega)⟩)).trans hsw2,
        hsort2⟩
    · rw [if_neg hib]
      exact ⟨SwapsOn.refl l, hs.shrink (le_refl a) (by omega)⟩

/-- Helper: `insertionSortLessFunc(data, a, b)` permutes the range `[a, b)`
and leaves it sorted. -/
theorem insertionSort_spec (l : List PR) (a b : Nat) (hb : b ≤ l.length) :
    SwapsOn (InRange a b) l (insertionSort l a b) ∧
      SortedRange (insertionSort l a b) a b :=
  insOuter_spec a b (b - a) (a+1) l (le_refl _) hb (by omega)
    (sortedRange_small l a (a+1) (le_refl _))

/-- Helper: insertion sort does not move anything in an already sorted range. -/
theorem insOuter_id (a b : Nat) :
    ∀ (fuel i : Nat) (l : List PR), a + 1 ≤ i → SortedRange l a b →
      insOuter a b fuel i l = l := by
  intro fuel
  induction fuel with
  | zero => intro i l _ _; rfl
  | succ fuel ih =>
    intro i l hi hs
    rw [insOuter]
    by_cases hib : i < b
    · rw [if_pos hib]
      have hinner : insInner a i i l = l := by
        rcases i with _ | i'
        · omega
        · rw [insInner, if_neg]
          intro hc
          exact absurd (hs (i'+1-1) (i'+1) (by omega) (by omega) (by omega))
            (not_le.mpr hc.2)
      rw [hinner]
      exact ih (i+1) l (by omega) hs
    · rw [if_neg hib]

/-- Helper: `insertionSort` is the identity on a sorted range. -/
theorem insertionSort_id (l : List PR) (a b : Nat) (hs : SortedRange l a b) :
    insertionSort l a b = l :=
  insOuter_id a b (b - a) (a+1) l (le_refl _) hs

/-! `partitionLessFunc` splits its range around the pivot value. -/

/-- Helper: the upward scan of `partitionLessFunc`. -/
theorem partScanI_spec (l : List PR) (a j : Nat) :
    ∀ (fuel i : Nat), j + 1 - i ≤ fuel →
      i ≤ partScanI l a j fuel i ∧
      (partScanI l a j fuel i ≤ j + 1 ∨ partScanI l a j fuel i = i) ∧
      (∀ k, i ≤ k → k < partScanI l a j fuel i → lessIdx l k a) ∧
      (partScanI l a j fuel i ≤ j → ¬ lessIdx l (partScanI l a j fuel i) a) := by
  intro fuel
  induction fuel with
  | zero =>
    intro i hfuel
    rw [partScanI]
    exact ⟨le_refl i, Or.inr rfl, fun k hk1 hk2 => absurd hk1 (by omega),
      fun hij => absurd hij (by omega)⟩
  | succ fuel ih =>
    intro i hfuel
    rw [partScanI]
    by_cases hc : i ≤ j ∧ lessIdx l i a
    · rw [if_pos hc]
      obtain ⟨h1, h2, h3, h4⟩ := ih (i+1) (by omega)
      refine ⟨by omega, ?_, ?_, h4⟩
      · rcases h2 with h2 | h2
        · exact Or.inl h2
        · exact Or.inl (by omega)
      · intro k hk1 hk2
        rcases Nat.eq_or_lt_of_le hk1 with rfl | hik
        · exact hc.2
        · exact h3 k (by omega) hk2
    · rw [if_neg hc]
      refine ⟨le_refl i, Or.inr rfl, fun k hk1 hk2 => absurd hk1 (by omega), fun hij => ?_⟩
      intro hl
      exact hc ⟨hij, hl⟩

/-- Helper: the downward scan of `partitionLessFunc`. -/
theorem partScanJ_spec (l : List PR) (a i : Nat) (hi : 1 ≤ i) :
    ∀ (fuel j : Nat), j - (i - 1) ≤ fuel →
      (i - 1 ≤ partScanJ l a i fuel j ∨ partScanJ l a i fuel j = j) ∧
      partScanJ l a i fuel j ≤ j ∧
      (∀ k, partScanJ l a i fuel j < k → k ≤ j → ¬ lessIdx l k a) ∧
      (i ≤ partScanJ l a i fuel j → lessIdx l (partScanJ l a i fuel j) a) := by
  intro fuel
  induction fuel with
  | zero =>
    intro j hfuel
    rw [partScanJ]
    exact ⟨Or.inr rfl, le_refl j, fun k hk1 hk2 => absurd hk1 (by omega),
      fun hij => absurd hij (by omega)⟩
  | succ fuel ih =>
    intro j hfuel
    rw [partScanJ]
    by_cases hc : i ≤ j ∧ ¬ lessIdx l j a
    · rw [if_pos hc]
      obtain ⟨h1, h2, h3, h4⟩ := ih (j-1) (by omega)
      refine ⟨?_, by omega, ?_, h4⟩
      · rcases h1 with h1 | h1
        · exact Or.inl h1
        · exact Or.inl (by omega)
      · intro k hk1 hk2
        rcases Nat.eq_or_lt_of_le hk2 with rfl | hkj
        · exact hc.2
        · exact h3 k hk1 (by omega)
    · rw [if_neg hc]
      refine ⟨Or.inr rfl, le_refl j, fun k hk1 hk2 => absurd hk1 (by omega), fun hij => ?_⟩
      by_cases hl : lessIdx l j a
      · exact hl
      · exact absurd ⟨hij, hl⟩ hc

/-- Helper: the main loop of `partitionLessFunc`.  The invariant: everything
left of `i` in the range is `Less` than the pivot value sitting at `a`, and
everything right of `j` is not. -/
theorem partLoop_spec (a b : Nat) :
    ∀ (fuel i j : Nat) (l : List PR),
      a + 1 ≤ i → i ≤ j + 2 → a ≤ j → j + 1 ≤ b → b ≤ l.length → j + 2 - i ≤ fuel →
      (∀ k, a + 1 ≤ k → k < i → lessIdx l k a) →
      (∀ k, j < k → k < b → ¬ lessIdx l k a) →
      ∀ jf lf, partLoop a b fuel i j l = (jf, lf) →
        SwapsOn (InRange (a+1) b) l lf ∧ a ≤ jf ∧ jf + 1 ≤ b ∧
        (∀ k, a + 1 ≤ k → k ≤ jf → lessIdx lf k a) ∧
        (∀ k, jf < k → k < b → ¬ lessIdx lf k a) := by
  intro fuel
  induction fuel with
  | zero =>
    intro i j l hai hij hja hjb hlen hfuel hL hR jf lf h
    rw [partLoop] at h
    injection h with h1 h2
    subst h1; subst h2
    exact ⟨SwapsOn.refl l, hja, hjb, fun k hk1 hk2 => hL k hk1 (by omega), hR⟩
  | succ fuel ih =>
    intro i j l hai hij hja hjb hlen hfuel hL hR jf lf h
    simp only [partLoop] at h
    obtain ⟨hi1, hi2, hi3, hi4⟩ := partScanI_spec l a j b i (by omega)
    have hpi1 : 1 ≤ partScanI l a j b i := by omega
    obtain ⟨hj1, hj2, hj3, hj4⟩ :=
      partScanJ_spec l a (partScanI l a j b i) hpi1 b j (by omega)
    have hpib : partScanI l a j b i ≤ j + 2 := by
      rcases hi2 with h2 | h2 <;> omega
    by_cases hcmp : partScanI l a j b i > partScanJ l a (partScanI l a j b i) b j
    · rw [if_pos hcmp] at h
      injection h with h1 h2
      subst h1; subst h2
      have hjfa : a ≤ partScanJ l a (partScanI l a j b i) b j := by
        rcases hj1 with h1 | h1 <;> omega
      refine ⟨SwapsOn.refl l, hjfa, by omega, ?_, ?_⟩
      · intro k hk1 hk2
        by_cases hki : k < i
        · exact hL k hk1 hki
        · exact hi3 k (by omega) (by omega)
      · intro k hk1 hk2
        by_cases hkj : k ≤ j
        · exact hj3 k hk1 hkj
        · exact hR k (by omega) hk2
    · rw [if_neg hcmp] at h
      have hle : partScanI l a j b i ≤ partScanJ l a (partScanI l a j b i) b j := by omega
      have hii : i ≤ partScanI l a j b i := hi1
      have hjj : partScanJ l a (partScanI l a j b i) b j ≤ j := hj2
      have hib : partScanI l a j b i < l.length := by omega
      have hjbl : partScanJ l a (partScanI l a j b i) b j < l.length := by omega
      have hgea : getE (swapE l (partScanI l a j b i)
          (partScanJ l a (partScanI l a j b i) b j)) a = getE l a :=
        getE_swapE_other _ _ _ _ (by omega) (by omega)
      have hL' : ∀ k, a + 1 ≤ k → k < partScanI l a j b i + 1 →
          lessIdx (swapE l (partScanI l a j b i)
            (partScanJ l a (partScanI l a j b i) b j)) k a := by
        intro k hk1 hk2
        show (getE _ a).t < (getE _ k).t
        rw [hgea]
        by_cases hki : k = partScanI l a j b i
        · rw [hki, getE_swapE l _ _ _ hib hjbl]
          by_cases hieq : partScanI l a j b i = partScanJ l a (partScanI l a j b i) b j
          · rw [if_pos hieq]
            have hlj := hj4 hle
            rw [← hieq] at hlj
            exact hlj
          · rw [if_neg hieq, if_pos rfl]
            exact hj4 hle
        · rw [getE_swapE_other l _ _ k hki (by omega)]
          by_cases hki' : k < i
          · exact hL k hk1 hki'
          · exact hi3 k (by omega) (by omega)
      have hR' : ∀ k, partScanJ l a (partScanI l a j b i) b j - 1 < k → k < b →
          ¬ lessIdx (swapE l (partScanI l a j b i)
            (partScanJ l a (partScanI l a j b i) b j)) k a := by
        intro k hk1 hk2
        show ¬ (getE _ a).t < (getE _ k).t
        rw [hgea]
        by_cases hkj : k = partScanJ l a (partScanI l a j b i) b j
        · rw [hkj, getE_swapE l _ _ _ hib hjbl, if_pos rfl]
          exact hi4 (by omega)
        · rw [getE_swapE_other l _ _ k (by omega) hkj]
          by_cases hkj' : k ≤ j
          · exact hj3 k (by omega) hkj'
          · exact hR k (by omega) hk2
      obtain ⟨hsw, hjfa, hjfb, hLf, hRf⟩ := ih (partScanI l a j b i + 1)
        (partScanJ l a (partScanI l a j b i) b j - 1) _
        (by omega) (by omega) (by omega) (by omega)
        (by rw [length_swapE]; exact hlen) (by omega) hL' hR' jf lf h
      exact ⟨SwapsOn.step _ _ _ _ ⟨by omega, by omega⟩ ⟨by omega, by omega⟩ hsw,
        hjfa, hjfb, hLf, hRf⟩

/-- Helper: `partitionLessFunc(data, a, b, pivot)` permutes the range,
places the pivot value at the returned position `mid`, with everything left
of `mid` strictly greater (timestamp-wise) and everything right of `mid` at
most the pivot value. -/
theorem partitionGo_spec (l : List PR) (a b pivot : Nat)
    (hab : a < b) (hb : b ≤ l.length) (hp1 : a ≤ pivot) (hp2 : pivot < b) :
    ∀ mid already lf, partitionGo l a b pivot = (mid, already, lf) →
      SwapsOn (InRange a b) l lf ∧ a ≤ mid ∧ mid < b ∧
      getE lf mid = getE l pivot ∧
      (∀ k, a ≤ k → k < mid → (getE l pivot).t < (getE lf k).t) ∧
      (∀ k, mid < k → k < b → (getE lf k).t ≤ (getE l pivot).t) := by
  intro mid already lf h
  simp only [partitionGo] at h
  have hal : a < l.length := by omega
  have hpl : pivot < l.length := by omega
  set l0 := swapE l a pivot with hl0_def
  have hl0len : l0.length = l.length := length_swapE l a pivot
  have hva : getE l0 a = getE l pivot := by
    rw [hl0_def, getE_swapE l a pivot a hal hpl]
    by_cases hap : a = pivot
    · rw [if_pos hap, hap]
    · rw [if_neg hap, if_pos rfl]
  set pi := partScanI l0 a (b-1) b (a+1) with hpi_def
  obtain ⟨hi1, hi2, hi3, hi4⟩ := partScanI_spec l0 a (b-1) b (a+1) (by omega)
  rw [← hpi_def] at hi1 hi2 hi3 hi4
  have hpi1 : 1 ≤ pi := by omega
  set pj := partScanJ l0 a pi b (b-1) with hpj_def
  obtain ⟨hj1, hj2, hj3, hj4⟩ := partScanJ_spec l0 a pi hpi1 b (b-1) (by omega)
  rw [← hpj_def] at hj1 hj2 hj3 hj4
  have hpib : pi ≤ b := by rcases hi2 with h2 | h2 <;> omega
  have hpja : a ≤ pj := by rcases hj1 with h1 | h1 <;> omega
  by_cases hcmp : pj < pi
  · rw [if_pos hcmp] at h
    injection h with h1 h'
    injection h' with h2 h3
    subst h1; subst h3
    have hpjl : pj < l0.length := by omega
    have hall : a < l0.length := by omega
    refine ⟨?_, hpja, by omega, ?_, ?_, ?_⟩
    · exact SwapsOn.step a pivot l _ ⟨le_refl a, hab⟩ ⟨hp1, hp2⟩
        (SwapsOn.single l0 pj a ⟨hpja, by omega⟩ ⟨le_refl a, hab⟩)
    · rw [getE_swapE l0 pj a pj hpjl hall]
      by_cases hpj0 : pj = a
      · rw [if_pos hpj0, hpj0]
        exact hva
      · rw [if_neg hpj0, if_pos rfl]
        exact hva
    · intro k hk1 hk2
      by_cases hka : k = a
      · rw [hka, getE_swapE l0 pj a a hpjl hall, if_pos rfl]
        have := hi3 pj (by omega) (by omega)
        rw [show lessIdx l0 pj a ↔ (getE l0 a).t < (getE l0 pj).t from Iff.rfl, hva] at this
        exact this
      · rw [getE_swapE_other l0 pj a k (by omega) hka]
        have := hi3 k (by omega) (by omega)
        rw [show lessIdx l0 k a ↔ (getE l0 a).t < (getE l0 k).t from Iff.rfl, hva] at this
        exact this
    · intro k hk1 hk2
      rw [getE_swapE_other l0 pj a k (by omega) (by omega)]
      have := hj3 k hk1 (by omega)
      rw [show lessIdx l0 k a ↔ (getE l0 a).t < (getE l0 k).t from Iff.rfl, hva] at this
      exact not_lt.mp this
  · rw [if_neg hcmp] at h
    have hpipj : pi ≤ pj := by omega
    have hpil : pi < l0.length := by omega
    have hpjl : pj < l0.length := by omega
    set l1 := swapE l0 pi pj with hl1_def
    have hl1len : l1.length = l.length := by rw [hl1_def, length_swapE, hl0len]
    have hga1 : getE l1 a = getE l0 a := by
      rw [hl1_def]
      exact getE_swapE_other l0 pi pj a (by omega) (by omega)
    set pl := partLoop a b b (pi+1) (pj-1) l1 with hpl_def
    injection h with h1 h'
    injection h' with h2 h3
    subst h1; subst h3
    have hL1 : ∀ k, a + 1 ≤ k → k < pi + 1 → lessIdx l1 k a := by
      intro k hk1 hk2
      show (getE l1 a).t < (getE l1 k).t
      rw [hga1]
      by_cases hkpi : k = pi
      · rw [hkpi, hl1_def, getE_swapE l0 pi pj pi hpil hpjl]
        by_cases hpieq : pi = pj
        · rw [if_pos hpieq]
          have := hj4 hpipj
          rw [← hpieq] at this
          exact this
        · rw [if_neg hpieq, if_pos rfl]
          exact hj4 hpipj
      · rw [hl1_def, getE_swapE_other l0 pi pj k hkpi (by omega)]
        exact hi3 k hk1 (by omega)
    have hR1 : ∀ k, pj - 1 < k → k < b → ¬ lessIdx l1 k a := by
      intro k hk1 hk2
      show ¬ (getE l1 a).t < (getE l1 k).t
      rw [hga1]
      by_cases hkpj : k = pj
      · rw [hkpj, hl1_def, getE_swapE l0 pi pj pj hpil hpjl, if_pos rfl]
        exact hi4 (by omega)
      · rw [hl1_def, getE_swapE_other l0 pi pj k (by omega) hkpj]
        by_cases hkj : k ≤ b - 1 - 1 + 1
        · exact hj3 k (by omega) (by omega)
        · exact absurd hk2 (by omega)
    obtain ⟨hsw, hjfa, hjfb, hLf, hRf⟩ := partLoop_spec a b b (pi+1) (pj-1) l1
      (by omega) (by omega) (by omega) (by omega) (by rw [hl1len]; exact hb) (by omega)
      hL1 hR1 pl.1 pl.2 (by rw [hpl_def])
    have hga2 : getE pl.2 a = getE l pivot := by
      rw [hsw.outside a (fun hP => absurd hP.1 (by omega)), hga1, hva]
    have hpl1l : pl.1 < pl.2.length := by
      rw [hsw.length_eq, hl1len]; omega
    have hapl : a < pl.2.length := by rw [hsw.length_eq, hl1len]; omega
    refine ⟨?_, hjfa, by omega, ?_, ?_, ?_⟩
    · refine SwapsOn.step a pivot l _ ⟨le_refl a, hab⟩ ⟨hp1, hp2⟩ ?_
      rw [← hl0_def]
      refine SwapsOn.step pi pj l0 _ ⟨by omega, by omega⟩ ⟨by omega, by omega⟩ ?_
      rw [← hl1_def]
      exact (hsw.mono (fun k hk => ⟨by have := hk.1; omega, hk.2⟩)).trans
        (SwapsOn.single pl.2 pl.1 a ⟨hjfa, by omega⟩ ⟨le_refl a, hab⟩)
    · rw [getE_swapE pl.2 pl.1 a pl.1 hpl1l hapl]
      by_cases hpl0 : pl.1 = a
      · rw [if_pos hpl0, hpl0]
        exact hga2
      · rw [if_neg hpl0, if_pos rfl]
        exact hga2
    · intro k hk1 hk2
      by_cases hka : k = a
      · rw [hka, getE_swapE pl.2 pl.1 a a hpl1l hapl, if_pos rfl]
        have := hLf pl.1 (by omega) (le_refl _)
        rw [show lessIdx pl.2 pl.1 a ↔ (getE pl.2 a).t < (getE pl.2 pl.1).t from Iff.rfl,
          hga2] at this
        exact this
      · rw [getE_swapE_other pl.2 pl.1 a k (by omega) hka]
        have := hLf k (by omega) (by omega)
        rw [show lessIdx pl.2 k a ↔ (getE pl.2 a).t < (getE pl.2 k).t from Iff.rfl,
          hga2] at this
        exact this
    · intro k hk1 hk2
      rw [getE_swapE_other pl.2 pl.1 a k (by omega) (by omega)]
      have := hRf k hk1 hk2
      rw [show lessIdx pl.2 k a ↔ (getE pl.2 a).t < (getE pl.2 k).t from Iff.rfl,
        hga2] at this
      exact not_lt.mp this

/-! `partitionEqualLessFunc` splits off a front block equal to the pivot. -/

/-- Helper: the upward scan of `partitionEqualLessFunc`. -/
theorem peScanI_spec (l : List PR) (a j : Nat) :
    ∀ (fuel i : Nat), j + 1 - i ≤ fuel →
      i ≤ peScanI l a j fuel i ∧
      (peScanI l a j fuel i ≤ j + 1 ∨ peScanI l a j fuel i = i) ∧
      (∀ k, i ≤ k → k < peScanI l a j fuel i → ¬ lessIdx l a k) ∧
      (peScanI l a j fuel i ≤ j → lessIdx l a (peScanI l a j fuel i)) := by
  intro fuel
  induction fuel with
  | zero =>
    intro i hfuel
    rw [peScanI]
    exact ⟨le_refl i, Or.inr rfl, fun k hk1 hk2 => absurd hk1 (by omega),
      fun hij => absurd hij (by omega)⟩
  | succ fuel ih =>
    intro i hfuel
    rw [peScanI]
    by_cases hc : i ≤ j ∧ ¬ lessIdx l a i
    · rw [if_pos hc]
      obtain ⟨h1, h2, h3, h4⟩ := ih (i+1) (by omega)
      refine ⟨by omega, ?_, ?_, h4⟩
      · rcases h2 with h2 | h2
        · exact Or.inl h2
        · exact Or.inl (by omega)
      · intro k hk1 hk2
        rcases Nat.eq_or_lt_of_le hk1 with rfl | hik
        · exact hc.2
        · exact h3 k (by omega) hk2
    · rw [if_neg hc]
      refine ⟨le_refl i, Or.inr rfl, fun k hk1 hk2 => absurd hk1 (by omega), fun hij => ?_⟩
      by_cases hl : lessIdx l a i
      · exact hl
      · exact absurd ⟨hij, hl⟩ hc

/-- Helper: the downward scan of `partitionEqualLessFunc`. -/
theorem peScanJ_spec (l : List PR) (a i : Nat) (hi : 1 ≤ i) :
    ∀ (fuel j : Nat), j - (i - 1) ≤ fuel →
      (i - 1 ≤ peScanJ l a i fuel j ∨ peScanJ l a i fuel j = j) ∧
      peScanJ l a i fuel j ≤ j ∧
      (∀ k, peScanJ l a i fuel j < k → k ≤ j → lessIdx l a k) ∧
      (i ≤ peScanJ l a i fuel j → ¬ lessIdx l a (peScanJ l a i fuel j)) := by
  intro fuel
  induction fuel with
  | zero =>
    intro j hfuel
    rw [peScanJ]
    exact ⟨Or.inr rfl, le_refl j, fun k hk1 hk2 => absurd hk1 (by omega),
      fun hij => absurd hij (by omega)⟩
  | succ fuel ih =>
    intro j hfuel
    rw [peScanJ]
    by_cases hc : i ≤ j ∧ lessIdx l a j
    · rw [if_pos hc]
      obtain ⟨h1, h2, h3, h4⟩ := ih (j-1) (by omega)
      refine ⟨?_, by omega, ?_, h4⟩
      · rcases h1 with h1 | h1
        · exact Or.inl h1
        · exact Or.inl (by omega)
      · intro k hk1 hk2
        rcases Nat.eq_or_lt_of_le hk2 with rfl | hkj
        · exact hc.2
        · exact h3 k hk1 (by omega)
    · rw [if_neg hc]
      refine ⟨Or.inr rfl, le_refl j, fun k hk1 hk2 => absurd hk1 (by omega), fun hij hl => ?_⟩
      exact hc ⟨hij, hl⟩

/-- Helper: the main loop of `partitionEqualLessFunc`: everything left of `i`
is not `Less`-below the pivot value at `a`, everything right of `j` is. -/
theorem peLoop_spec (a b : Nat) :
    ∀ (fuel i j : Nat) (l : List PR),
      a + 1 ≤ i → i ≤ j + 2 → i ≤ b → a ≤ j → j + 1 ≤ b → b ≤ l.length →
      j + 2 - i ≤ fuel →
      (∀ k, a + 1 ≤ k → k < i → ¬ lessIdx l a k) →
      (∀ k, j < k → k < b → lessIdx l a k) →
      ∀ mf lf, peLoop a b fuel i j l = (mf, lf) →
        SwapsOn (InRange (a+1) b) l lf ∧ a + 1 ≤ mf ∧ mf ≤ b ∧
        (∀ k, a + 1 ≤ k → k < mf → ¬ lessIdx lf a k) ∧
        (∀ k, mf ≤ k → k < b → lessIdx lf a k) := by
  intro fuel
  induction fuel with
  | zero =>
    intro i j l hai hij hib hja hjb hlen hfuel hL hR mf lf h
    rw [peLoop] at h
    injection h with h1 h2
    subst h1; subst h2
    exact ⟨SwapsOn.refl l, hai, hib, hL, fun k hk1 hk2 => hR k (by omega) hk2⟩
  | succ fuel ih =>
    intro i j l hai hij hib hja hjb hlen hfuel hL hR mf lf h
    simp only [peLoop] at h
    obtain ⟨hi1, hi2, hi3, hi4⟩ := peScanI_spec l a j b i (by omega)
    have hpi1 : 1 ≤ peScanI l a j b i := by omega
    obtain ⟨hj1, hj2, hj3, hj4⟩ :=
      peScanJ_spec l a (peScanI l a j b i) hpi1 b j (by omega)
    have hpib : peScanI l a j b i ≤ b := by
      rcases hi2 with h2 | h2 <;> omega
    by_cases hcmp : peScanJ l a (peScanI l a j b i) b j < peScanI l a j b i
    · rw [if_pos hcmp] at h
      injection h with h1 h2
      subst h1; subst h2
      refine ⟨SwapsOn.refl l, by omega, hpib, ?_, ?_⟩
      · intro k hk1 hk2
        by_cases hki : k < i
        · exact hL k hk1 hki
        · exact hi3 k (by omega) (by omega)
      · intro k hk1 hk2
        by_cases hkj : k ≤ j
        · exact hj3 k (by omega) hkj
        · exact hR k (by omega) hk2
    · rw [if_neg hcmp] at h
      have hle : peScanI l a j b i ≤ peScanJ l a (peScanI l a j b i) b j := by omega
      have hjj : peScanJ l a (peScanI l a j b i) b j ≤ j := hj2
      have hib' : peScanI l a j b i < l.length := by omega
      have hjbl : peScanJ l a (peScanI l a j b i) b j < l.length := by omega
      have hgea : getE (swapE l (peScanI l a j b i)
          (peScanJ l a (peScanI l a j b i) b j)) a = getE l a :=
        getE_swapE_other _ _ _ _ (by omega) (by omega)
      have hL' : ∀ k, a + 1 ≤ k → k < peScanI l a j b i + 1 →
          ¬ lessIdx (swapE l (peScanI l a j b i)
            (peScanJ l a (peScanI l a j b i) b j)) a k := by
        intro k hk1 hk2
        show ¬ (getE _ k).t < (getE _ a).t
        rw [hgea]
        by_cases hki : k = peScanI l a j b i
        · rw [hki, getE_swapE l _ _ _ hib' hjbl]
          by_cases hieq : peScanI l a j b i = peScanJ l a (peScanI l a j b i) b j
          · rw [if_pos hieq]
            have hlj := hj4 hle
            rw [← hieq] at hlj
            exact hlj
          · rw [if_neg hieq, if_pos rfl]
            exact hj4 hle
        · rw [getE_swapE_other l _ _ k hki (by omega)]
          by_cases hki' : k < i
          · exact hL k hk1 hki'
          · exact hi3 k (by omega) (by omega)
      have hR' : ∀ k, peScanJ l a (peScanI l a j b i) b j - 1 < k → k < b →
          lessIdx (swapE l (peScanI l a j b i)
            (peScanJ l a (peScanI l a j b i) b j)) a k := by
        intro k hk1 hk2
        show (getE _ k).t < (getE _ a).t
        rw [hgea]
        by_cases hkj : k = peScanJ l a (peScanI l a j b i) b j
        · rw [hkj, getE_swapE l _ _ _ hib' hjbl, if_pos rfl]
          exact hi4 (by omega)
        · rw [getE_swapE_other l _ _ k (by omega) hkj]
          by_cases hkj' : k ≤ j
          · exact hj3 k (by omega) hkj'
          · exact hR k (by omega) hk2
      obtain ⟨hsw, hmfa, hmfb, hLf, hRf⟩ := ih (peScanI l a j b i + 1)
        (peScanJ l a (peScanI l a j b i) b j - 1) _
        (by omega) (by omega) (by omega) (by omega) (by omega)
        (by rw [length_swapE]; exact hlen) (by omega) hL' hR' mf lf h
      exact ⟨SwapsOn.step _ _ _ _ ⟨by omega, by omega⟩ ⟨by omega, by omega⟩ hsw,
        hmfa, hmfb, hLf, hRf⟩

/-- Helper: `partitionEqualLessFunc(data, a, b, pivot)` permutes the range:
the front block `[a, mid)` holds exactly the values not `Less`-below the pivot
value, the rest holds the strictly smaller timestamps. -/
theorem partitionEqualGo_spec (l : List PR) (a b pivot : Nat)
    (hab : a < b) (hb : b ≤ l.length) (hp1 : a ≤ pivot) (hp2 : pivot < b) :
    ∀ mf lf, partitionEqualGo l a b pivot = (mf, lf) →
      SwapsOn (InRange a b) l lf ∧ a + 1 ≤ mf ∧ mf ≤ b ∧
      (∀ k, a ≤ k → k < mf → (getE l pivot).t ≤ (getE lf k).t) ∧
      (∀ k, mf ≤ k → k < b → (getE lf k).t < (getE l pivot).t) := by
  intro mf lf h
  rw [partitionEqualGo] at h
  have hal : a < l.length := by omega
  have hpl : pivot < l.length := by omega
  set l0 := swapE l a pivot with hl0_def
  have hl0len : l0.length = l.length := length_swapE l a pivot
  have hva : getE l0 a = getE l pivot := by
    rw [hl0_def, getE_swapE l a pivot a hal hpl]
    by_cases hap : a = pivot
    · rw [if_pos hap, hap]
    · rw [if_neg hap, if_pos rfl]
  obtain ⟨hsw, hmfa, hmfb, hLf, hRf⟩ := peLoop_spec a b b (a+1) (b-1) l0
    (le_refl _) (by omega) (by omega) (by omega) (by omega)
    (by rw [hl0len]; exact hb) (by omega)
    (fun k hk1 hk2 => absurd hk1 (by omega))
    (fun k hk1 hk2 => absurd hk2 (by omega)) mf lf h
  have hga : getE lf a = getE l pivot := by
    rw [hsw.outside a (fun hP => absurd hP.1 (by omega)), hva]
  refine ⟨?_, hmfa, hmfb, ?_, ?_⟩
  · exact SwapsOn.step a pivot l _ ⟨le_refl a, hab⟩ ⟨hp1, hp2⟩
      (hsw.mono (fun k hk => ⟨by have := hk.1; omega, hk.2⟩))
  · intro k hk1 hk2
    rcases Nat.eq_or_lt_of_le hk1 with rfl | hka
    · rw [hga]
    · have := hLf k (by omega) hk2
      rw [show lessIdx lf a k ↔ (getE lf k).t < (getE lf a).t from Iff.rfl, hga] at this
      exact not_lt.mp this
  · intro k hk1 hk2
    have := hRf k hk1 hk2
    rw [show lessIdx lf a k ↔ (getE lf k).t < (getE lf a).t from Iff.rfl, hga] at this
    exact this

/-! `partialInsertionSortLessFunc`: when it reports `true` the range is sorted. -/

/-- Helper: the sentinel invariant survives swaps inside the range. -/
theorem sentinel_preserved {l l' : List PR} {a b : Nat}
    (hs : Sentinel l a b) (hsw : SwapsOn (InRange a b) l l') (hb : b ≤ l.length) :
    Sentinel l' a b := by
  intro ha k hk1 hk2
  have hout : getE l' (a-1) = getE l (a-1) :=
    hsw.outside (a-1) (fun hP => absurd hP.1 (by omega))
  rw [hout]
  exact @SwapsOn.pointwise (InRange a b) (fun x => x.t ≤ (getE l (a-1)).t) l l' hsw
    (fun p hp => by have := hp.2; omega)
    (fun p hp => hs ha p hp.1 hp.2) k ⟨hk1, hk2⟩

/-- Helper: extending a sorted prefix by one position. -/
theorem sortedRange_extend (l : List PR) (a i : Nat) (hi : a + 1 ≤ i)
    (hs : SortedRange l a i) (hx : (getE l i).t ≤ (getE l (i-1)).t) :
    SortedRange l a (i+1) := by
  intro p q hp hpq hq
  by_cases hqi : q < i
  · exact hs p q hp hpq hqi
  · have hq' : q = i := by omega
    by_cases hpi : p = i
    · rw [hq', hpi]
    · calc (getE l q).t = (getE l i).t := by rw [hq']
        _ ≤ (getE l (i-1)).t := hx
        _ ≤ (getE l p).t := hs p (i-1) hp (by omega) (by omega)

/-- Helper: the forward scan of `partialInsertionSortLessFunc`. -/
theorem scanUp_spec (a b : Nat) :
    ∀ (fuel i : Nat) (l : List PR), a + 1 ≤ i → i ≤ b → b - i ≤ fuel →
      SortedRange l a i →
      i ≤ scanUp b fuel i l ∧ scanUp b fuel i l ≤ b ∧
      SortedRange l a (scanUp b fuel i l) ∧
      (scanUp b fuel i l < b → lessIdx l (scanUp b fuel i l) (scanUp b fuel i l - 1)) := by
  intro fuel
  induction fuel with
  | zero =>
    intro i l hai hib hfuel hs
    rw [scanUp]
    exact ⟨le_refl i, hib, hs, fun hlt => absurd hlt (by omega)⟩
  | succ fuel ih =>
    intro i l hai hib hfuel hs
    rw [scanUp]
    by_cases hc : i < b ∧ ¬ lessIdx l i (i-1)
    · rw [if_pos hc]
      obtain ⟨h1, h2, h3, h4⟩ := ih (i+1) l (by omega) (by omega) (by omega)
        (sortedRange_extend l a i hai hs (not_lt.mp hc.2))
      exact ⟨by omega, h2, h3, h4⟩
    · rw [if_neg hc]
      refine ⟨le_refl i, hib, hs, fun hlt => ?_⟩
      by_cases hl : lessIdx l i (i-1)
      · exact hl
      · exact absurd ⟨hlt, hl⟩ hc

/-- Helper: the left shift of `partialInsertionSortLessFunc` is an insertion
into the sorted prefix; the sentinel bound on the moving element keeps it from
crossing below `a` even though the loop guard only stops at position `1`. -/
theorem shiftLeft_spec (a : Nat) :
    ∀ (fuel j i : Nat) (l : List PR),
      a ≤ j → j ≤ i → j - a ≤ fuel → i < l.length →
      SortedRange l a j → SortedRange l j (i+1) →
      (a < j → ∀ k, j < k → k ≤ i → (getE l k).t ≤ (getE l (j-1)).t) →
      (0 < a → (getE l j).t ≤ (getE l (a-1)).t) →
      SwapsOn (InRange a (i+1)) l (shiftLeft fuel j l) ∧
        SortedRange (shiftLeft fuel j l) a (i+1) := by
  intro fuel
  induction fuel with
  | zero =>
    intro j i l hja hji hfuel _ h1 h2 h3 _
    have hj : j = a := by omega
    subst hj
    exact ⟨SwapsOn.refl l, h2⟩
  | succ fuel ih =>
    intro j i l hja hji hfuel hleni h1 h2 h3 hsent
    rw [shiftLeft]
    by_cases hc : 1 ≤ j ∧ lessIdx l j (j-1)
    · rw [if_pos hc]
      have haj : a < j := by
        rcases Nat.lt_or_ge a j with h | h
        · exact h
        · have hj : j = a := by omega
          subst hj
          have h0 : 0 < j := hc.1
          exact absurd (hsent h0) (not_le.mpr hc.2)
      have hless : lessIdx l j (j-1) := hc.2
      have hlt : (getE l (j-1)).t < (getE l j).t := hless
      have hjlen : j < l.length := lt_of_le_of_lt hji hleni
      have hj1len : j - 1 < l.length := by omega
      have h1' : SortedRange (swapE l j (j-1)) a (j-1) := by
        intro p q hp hpq hq
        rw [getE_swapE_other l j (j-1) p (by omega) (by omega),
          getE_swapE_other l j (j-1) q (by omega) (by omega)]
        exact h1 p q hp hpq (by omega)
      have h2' : SortedRange (swapE l j (j-1)) (j-1) (i+1) := by
        apply sortedRange_of_adjacent
        intro k hk1 hk2
        rw [getE_swapE l j (j-1) (k+1) hjlen hj1len, getE_swapE l j (j-1) k hjlen hj1len]
        by_cases hkj1 : k = j - 1
        · rw [if_neg (by omega), if_pos (by omega), if_pos hkj1]
          exact le_of_lt hlt
        · by_cases hkj : k = j
          · rw [if_neg (by omega), if_neg (by omega), if_neg (by omega), if_pos hkj]
            exact h3 haj (k+1) (by omega) (by omega)
          · rw [if_neg (by omega), if_neg (by omega), if_neg hkj1, if_neg hkj]
            exact h2 k (k+1) (by omega) (by omega) (by omega)
      have h3' : a < j - 1 → ∀ k, j - 1 < k → k ≤ i →
          (getE (swapE l j (j-1)) k).t ≤ (getE (swapE l j (j-1)) (j-1-1)).t := by
        intro haj1 k hk1 hk2
        rw [getE_swapE_other l j (j-1) (j-1-1) (by omega) (by omega)]
        by_cases hkj : k = j
        · rw [hkj, getE_swapE l j (j-1) j hjlen hj1len, if_neg (by omega), if_pos rfl]
          exact h1 (j-1-1) (j-1) (by omega) (by omega) (by omega)
        · rw [getE_swapE_other l j (j-1) k hkj (by omega)]
          exact le_trans (h3 haj k (by omega) hk2)
            (h1 (j-1-1) (j-1) (by omega) (by omega) (by omega))
      have hsent' : 0 < a → (getE (swapE l j (j-1)) (j-1)).t
          ≤ (getE (swapE l j (j-1)) (a-1)).t := by
        intro ha
        rw [getE_swapE l j (j-1) (j-1) hjlen hj1len, if_pos rfl,
          getE_swapE_other l j (j-1) (a-1) (by omega) (by omega)]
        exact hsent ha
      obtain ⟨hsw, hsort⟩ := ih (j-1) i (swapE l j (j-1)) (by omega) (by omega) (by omega)
        (by rw [length_swapE]; exact hleni) h1' h2' h3' hsent'
      exact ⟨SwapsOn.step j (j-1) l _ ⟨hja, by omega⟩ ⟨by omega, by omega⟩ hsw, hsort⟩
    · rw [if_neg hc]
      refine ⟨SwapsOn.refl l, ?_⟩
      intro p q hp hpq hq
      by_cases hq' : q < j
      · exact h1 p q hp hpq hq'
      · by_cases hp' : j ≤ p
        · exact h2 p q hp' hpq hq
        · have haj : a < j := by omega
          have hnl : ¬ lessIdx l j (j-1) := fun hl => hc ⟨by omega, hl⟩
          have hjj : (getE l j).t ≤ (getE l (j-1)).t := not_lt.mp hnl
          exact le_trans (h2 j q (le_refl j) (by omega) hq)
            (le_trans hjj (h1 p (j-1) hp (by omega) (by omega)))

/-- Helper: the right shift of `partialInsertionSortLessFunc` only swaps at
positions from one below its start up to `b`. -/
theorem shiftRight_spec (b : Nat) :
    ∀ (fuel j : Nat) (l : List PR), 1 ≤ j →
      SwapsOn (fun k => j - 1 ≤ k ∧ k < b) l (shiftRight b fuel j l) := by
  intro fuel
  induction fuel with
  | zero => intro j l _; rw [shiftRight]; exact SwapsOn.refl l
  | succ fuel ih =>
    intro j l hj
    rw [shiftRight]
    by_cases hc : j < b ∧ lessIdx l j (j-1)
    · rw [if_pos hc]
      refine SwapsOn.step j (j-1) l _ ⟨by omega, hc.1⟩ ⟨le_refl _, by omega⟩ ?_
      exact (ih (j+1) _ (by omega)).mono (fun k hk => ⟨by have := hk.1; omega, hk.2⟩)
    · rw [if_neg hc]
      exact SwapsOn.refl l

/-- Helper: the attempt loop of `partialInsertionSortLessFunc`.  Across each
repair, the prefix `[a, i)` stays sorted; `true` is returned only when the
scan reaches `b`, so the whole range is sorted. -/
theorem piLoop_spec (a b : Nat) :
    ∀ (steps i : Nat) (l : List PR),
      a + 1 ≤ i → i ≤ b → b ≤ l.length → SortedRange l a i → Sentinel l a b →
      ∀ r lf, piLoop a b steps i l = (r, lf) →
        SwapsOn (InRange a b) l lf ∧ (r = true → SortedRange lf a b) := by
  intro steps
  induction steps with
  | zero =>
    intro i l hai hib hlen hs hsent r lf h
    rw [piLoop] at h
    injection h with h1 h2
    subst h1; subst h2
    exact ⟨SwapsOn.refl l, fun hr => absurd hr (by simp)⟩
  | succ steps ih =>
    intro i l hai hib hlen hs hsent r lf h
    simp only [piLoop] at h
    obtain ⟨hs1, hs2, hs3, hs4⟩ := scanUp_spec a b b i l hai hib (by omega) hs
    by_cases hib' : scanUp b b i l = b
    · rw [if_pos hib'] at h
      injection h with h1 h2
      subst h1; subst h2
      refine ⟨SwapsOn.refl l, fun _ => ?_⟩
      rw [← hib']
      exact hs3
    · rw [if_neg hib'] at h
      by_cases hsmall : b - a < 50
      · rw [if_pos hsmall] at h
        injection h with h1 h2
        subst h1; subst h2
        exact ⟨SwapsOn.refl l, fun hr => absurd hr (by simp)⟩
      · rw [if_neg hsmall] at h
        have hi'b : scanUp b b i l < b := by omega
        have hi'a : a + 1 ≤ scanUp b b i l := by omega
        have hless := hs4 hi'b
        have hi'len : scanUp b b i l < l.length := by omega
        have hi'1len : scanUp b b i l - 1 < l.length := by omega
        set i' := scanUp b b i l with hi'_def
        set l1 := swapE l i' (i'-1) with hl1_def
        have hl1len : l1.length = l.length := by rw [hl1_def, length_swapE]
        have hsw1 : SwapsOn (InRange a b) l l1 :=
          SwapsOn.single l i' (i'-1) ⟨by omega, hi'b⟩ ⟨by omega, by omega⟩
        have h1s : SortedRange l1 a (i'-1) := by
          intro p q hp hpq hq
          rw [hl1_def, getE_swapE_other l i' (i'-1) p (by omega) (by omega),
            getE_swapE_other l i' (i'-1) q (by omega) (by omega)]
          exact hs3 p q hp hpq (by omega)
        have hsent1 : Sentinel l1 a b := sentinel_preserved hsent hsw1 hlen
        have hstep2 : SwapsOn (InRange a b)
            l1 (if i' - a ≥ 2 then shiftLeft (i'-1) (i'-1) l1 else l1) ∧
            SortedRange (if i' - a ≥ 2 then shiftLeft (i'-1) (i'-1) l1 else l1) a i' := by
          by_cases h2a : i' - a ≥ 2
          · rw [if_pos h2a]
            obtain ⟨hswl, hsortl⟩ := shiftLeft_spec a (i'-1) (i'-1) (i'-1) l1
              (by omega) (le_refl _) (by omega) (by rw [hl1len]; omega)
              h1s (sortedRange_small l1 (i'-1) (i'-1+1) (le_refl _))
              (fun _ k hk1 hk2 => absurd hk1 (by omega))
              (by
                intro ha
                rw [hl1_def, getE_swapE l i' (i'-1) (i'-1) hi'len hi'1len, if_pos rfl,
                  getE_swapE_other l i' (i'-1) (a-1) (by omega) (by omega)]
                exact hsent ha i' (by omega) hi'b)
            have hi'e : i' - 1 + 1 = i' := by omega
            rw [hi'e] at hswl hsortl
            exact ⟨hswl.mono (fun k hk => ⟨hk.1, by have := hk.2; omega⟩), hsortl⟩
          · rw [if_neg h2a]
            exact ⟨SwapsOn.refl l1, sortedRange_small l1 a i' (by omega)⟩
        obtain ⟨hsw2, hsort2⟩ := hstep2
        set l2 := if i' - a ≥ 2 then shiftLeft (i'-1) (i'-1) l1 else l1 with hl2_def
        have hstep3 : SwapsOn (InRange a b)
            l2 (if b - i' ≥ 2 then shiftRight b (b - (i'+1)) (i'+1) l2 else l2) ∧
            (∀ k, k < i' → getE (if b - i' ≥ 2 then shiftRight b (b - (i'+1)) (i'+1) l2
              else l2) k = getE l2 k) := by
          by_cases h2b : b - i' ≥ 2
          · rw [if_pos h2b]
            have hswr := shiftRight_spec b (b - (i'+1)) (i'+1) l2 (by omega)
            refine ⟨hswr.mono (fun k hk => ⟨by have := hk.1; omega, hk.2⟩), ?_⟩
            intro k hk
            exact hswr.outside k (fun hP => absurd hP.1 (by omega))
          · rw [if_neg h2b]
            exact ⟨SwapsOn.refl l2, fun k _ => rfl⟩
        obtain ⟨hsw3, hout3⟩ := hstep3
        set l3 := if b - i' ≥ 2 then shiftRight b (b - (i'+1)) (i'+1) l2 else l2 with hl3_def
        have hsort3 : SortedRange l3 a i' := by
          intro p q hp hpq hq
          rw [hout3 p (by omega), hout3 q (by omega)]
          exact hsort2 p q hp hpq hq
        have hsw123 : SwapsOn (InRange a b) l l3 := (hsw1.trans hsw2).trans hsw3
        have hlen3 : b ≤ l3.length := by rw [hsw123.length_eq]; exact hlen
        obtain ⟨hswf, hsortf⟩ := ih i' l3 hi'a (by omega) hlen3 hsort3
          (sentinel_preserved hsent hsw123 hlen) r lf h
        exact ⟨hsw123.trans hswf, hsortf⟩

/-- Helper: `partialInsertionSortLessFunc(data, a, b)` permutes the range and,
when it reports success, leaves it sorted. -/
theorem partialInsertionSort_spec (l : List PR) (a b : Nat)
    (hab : a < b) (hb : b ≤ l.length) (hsent : Sentinel l a b) :
    ∀ r lf, partialInsertionSort l a b = (r, lf) →
      SwapsOn (InRange a b) l lf ∧ (r = true → SortedRange lf a b) := by
  intro r lf h
  exact piLoop_spec a b 5 (a+1) l (le_refl _) hab hb
    (sortedRange_small l a (a+1) (le_refl _)) hsent r lf h

/-- Helper: the forward scan runs to `b` on a sorted range. -/
theorem scanUp_sorted (b : Nat) :
    ∀ (fuel i : Nat) (l : List PR), i ≤ b → b - i ≤ fuel →
      (∀ k, i ≤ k → k < b → ¬ lessIdx l k (k-1)) →
      scanUp b fuel i l = b := by
  intro fuel
  induction fuel with
  | zero =>
    intro i l hib hfuel _
    rw [scanUp]
    omega
  | succ fuel ih =>
    intro i l hib hfuel hadj
    rw [scanUp]
    by_cases hib' : i < b
    · rw [if_pos ⟨hib', hadj i (le_refl i) hib'⟩]
      exact ih (i+1) l (by omega) (by omega) (fun k hk1 hk2 => hadj k (by omega) hk2)
    · rw [if_neg (fun hc => absurd hc.1 hib')]
      omega

/-- Helper: `partialInsertionSort` immediately reports success on a sorted
range, leaving the data unchanged. -/
theorem partialInsertionSort_id (l : List PR) (a b : Nat)
    (hab : a < b) (hs : SortedRange l a b) :
    partialInsertionSort l a b = (true, l) := by
  show piLoop a b 5 (a+1) l = (true, l)
  rw [show (5 : Nat) = 4 + 1 from rfl, piLoop]
  have hscan : scanUp b b (a+1) l = b := by
    apply scanUp_sorted b b (a+1) l (by omega) (by omega)
    intro k hk1 hk2
    exact not_lt.mpr (hs (k-1) k (by omega) (by omega) hk2)
  rw [hscan, if_pos rfl]

/-! `reverseRange`, `breakPatterns` and `choosePivot`. -/

/-- Helper: the reversal loop swaps inside `[a, b)`. -/
theorem revLoop_swapsOn (a b : Nat) :
    ∀ (fuel i j : Nat) (l : List PR), a ≤ i → j < b →
      SwapsOn (InRange a b) l (revLoop fuel i j l) := by
  intro fuel
  induction fuel with
  | zero => intro i j l _ _; rw [revLoop]; exact SwapsOn.refl l
  | succ fuel ih =>
    intro i j l hi hj
    rw [revLoop]
    by_cases hc : i < j
    · rw [if_pos hc]
      exact SwapsOn.step i j l _ ⟨hi, by omega⟩ ⟨by omega, hj⟩
        (ih (i+1) (j-1) _ (by omega) (by omega))
    · rw [if_neg hc]
      exact SwapsOn.refl l

/-- Helper: `reverseRangeLessFunc(data, a, b)` swaps inside `[a, b)`. -/
theorem reverseRange_swapsOn (l : List PR) (a b : Nat) (hab : a < b) :
    SwapsOn (InRange a b) l (reverseRange l a b) :=
  revLoop_swapsOn a b (b - a) a (b-1) l (le_refl a) (by omega)

/-- Helper: the bit length bounds the value: `2 ^ bits.Len(n) ≤ 2 * n` for
positive `n`. -/
theorem bitsLenAux_le : ∀ (fuel n : Nat), 0 < n → n ≤ fuel →
    2 ^ (bitsLenAux fuel n) ≤ 2 * n := by
  intro fuel
  induction fuel with
  | zero => intro n hn hf; omega
  | succ fuel ih =>
    intro n hn hf
    rw [bitsLenAux, if_neg (by omega)]
    by_cases h1 : n = 1
    · have hz : bitsLenAux fuel (n / 2) = 0 := by
        rw [h1]
        rcases fuel with _ | fuel
        · rw [bitsLenAux]
        · rw [bitsLenAux, if_pos rfl]
      rw [hz, h1]
      omega
    · have hrec := ih (n / 2) (by omega) (by omega)
      rw [pow_succ]
      omega

/-- Helper: the random offsets of `breakPatternsLessFunc` stay below the
range length. -/
theorem breakPatterns_offset (n r : Nat) (hn : 8 ≤ n) :
    (if r % 2 ^ (bitsLen n) ≥ n then r % 2 ^ (bitsLen n) - n else r % 2 ^ (bitsLen n))
      < n := by
  have hmod : r % 2 ^ (bitsLen n) < 2 ^ (bitsLen n) :=
    Nat.mod_lt r (Nat.pos_pow_of_pos _ (by omega))
  have hpow : 2 ^ (bitsLen n) ≤ 2 * n := bitsLenAux_le n n (by omega) (le_refl n)
  by_cases hge : r % 2 ^ (bitsLen n) ≥ n
  · rw [if_pos hge]; omega
  · rw [if_neg hge]; omega

/-- Helper: three chained swaps are in the closure. -/
theorem swapsOn_three (P : Nat → Prop) (l : List PR) (i1 j1 i2 j2 i3 j3 : Nat)
    (h1 : P i1) (h2 : P j1) (h3 : P i2) (h4 : P j2) (h5 : P i3) (h6 : P j3) :
    SwapsOn P l (swapE (swapE (swapE l i1 j1) i2 j2) i3 j3) :=
  SwapsOn.step i1 j1 l _ h1 h2
    (SwapsOn.step i2 j2 _ _ h3 h4 (SwapsOn.single _ i3 j3 h5 h6))

/-- Helper: `breakPatternsLessFunc(data, a, b)` swaps inside `[a, b)`. -/
theorem breakPatterns_swapsOn (l : List PR) (a b : Nat) (h8 : 8 ≤ b - a) :
    SwapsOn (InRange a b) l (breakPatterns l a b) := by
  simp only [breakPatterns]
  rw [if_pos h8]
  have ho1 := breakPatterns_offset (b-a) (xorshiftStep (b-a)) h8
  have ho2 := breakPatterns_offset (b-a) (xorshiftStep (xorshiftStep (b-a))) h8
  have ho3 := breakPatterns_offset (b-a)
    (xorshiftStep (xorshiftStep (xorshiftStep (b-a)))) h8
  have hq : 2 ≤ (b-a)/4 := by omega
  exact swapsOn_three _ l _ _ _ _ _ _ ⟨by omega, by omega⟩ ⟨by omega, by omega⟩
    ⟨by omega, by omega⟩ ⟨by omega, by omega⟩ ⟨by omega, by omega⟩ ⟨by omega, by omega⟩

/-- Helper: `order2LessFunc` returns its two arguments in some order. -/
theorem order2_cases (l : List PR) (x y s : Nat) :
    order2 l x y s = (x, y, s) ∨ order2 l x y s = (y, x, s+1) := by
  rw [order2]
  by_cases h : lessIdx l y x
  · rw [if_pos h]; exact Or.inr rfl
  · rw [if_neg h]; exact Or.inl rfl

/-- Helper: bounds for `order2LessFunc`. -/
theorem order2_bounds (l : List PR) (x y s lo hi : Nat)
    (hx1 : lo ≤ x) (hx2 : x < hi) (hy1 : lo ≤ y) (hy2 : y < hi) :
    lo ≤ (order2 l x y s).1 ∧ (order2 l x y s).1 < hi ∧
      lo ≤ (order2 l x y s).2.1 ∧ (order2 l x y s).2.1 < hi := by
  rcases order2_cases l x y s with h | h <;> rw [h]
  · exact ⟨hx1, hx2, hy1, hy2⟩
  · exact ⟨hy1, hy2, hx1, hx2⟩

/-- Helper: bounds for `medianLessFunc`. -/
theorem median_bounds (l : List PR) (x y z s lo hi : Nat)
    (hx1 : lo ≤ x) (hx2 : x < hi) (hy1 : lo ≤ y) (hy2 : y < hi)
    (hz1 : lo ≤ z) (hz2 : z < hi) :
    lo ≤ (median l x y z s).1 ∧ (median l x y z s).1 < hi := by
  simp only [median]
  obtain ⟨a1, a2, a3, a4⟩ := order2_bounds l x y s lo hi hx1 hx2 hy1 hy2
  obtain ⟨b1, b2, b3, b4⟩ := order2_bounds l (order2 l x y s).2.1 z
    (order2 l x y s).2.2 lo hi a3 a4 hz1 hz2
  obtain ⟨c1, c2, c3, c4⟩ := order2_bounds l (order2 l x y s).1
    (order2 l (order2 l x y s).2.1 z (order2 l x y s).2.2).1
    (order2 l (order2 l x y s).2.1 z (order2 l x y s).2.2).2.2 lo hi a1 a2 b1 b2
  exact ⟨c3, c4⟩

/-- Helper: bounds for `medianAdjacentLessFunc`. -/
theorem medianAdjacent_bounds (l : List PR) (x s lo hi : Nat)
    (h1 : lo ≤ x - 1) (h2 : x + 1 < hi) :
    lo ≤ (medianAdjacent l x s).1 ∧ (medianAdjacent l x s).1 < hi := by
  rw [medianAdjacent]
  exact median_bounds l (x-1) x (x+1) s lo hi h1 (by omega) (by omega) (by omega)
    (by omega) h2

/-- Helper: the hint selection keeps the pivot component. -/
theorem hintSel_fst (js : Nat × Nat) :
    (if js.2 = 0 then (js.1, Hint.increasing)
      else if js.2 = 12 then (js.1, Hint.decreasing) else (js.1, Hint.unknown)).1
      = js.1 := by
  by_cases h0 : js.2 = 0
  · rw [if_pos h0]
  · rw [if_neg h0]
    by_cases h12 : js.2 = 12
    · rw [if_pos h12]
    · rw [if_neg h12]

/-- Helper: the chosen pivot lies in the range. -/
theorem choosePivot_bounds (l : List PR) (a b : Nat) (h8 : 8 ≤ b - a) :
    a ≤ (choosePivot l a b).1 ∧ (choosePivot l a b).1 < b := by
  simp only [choosePivot]
  rw [hintSel_fst]
  rw [if_pos (show (8:Nat) ≤ b - a from h8)]
  have hq : 2 ≤ (b-a)/4 := by omega
  by_cases h50 : 50 ≤ b - a
  · rw [if_pos h50]
    have hq12 : 12 ≤ (b-a)/4 := by omega
    obtain ⟨p1, p2⟩ := medianAdjacent_bounds l (a + (b-a)/4 * 1) 0 a b
      (by omega) (by omega)
    obtain ⟨q1, q2⟩ := medianAdjacent_bounds l (a + (b-a)/4 * 2)
      (medianAdjacent l (a + (b-a)/4 * 1) 0).2 a b (by omega) (by omega)
    obtain ⟨r1, r2⟩ := medianAdjacent_bounds l (a + (b-a)/4 * 3)
      (medianAdjacent l (a + (b-a)/4 * 2)
        (medianAdjacent l (a + (b-a)/4 * 1) 0).2).2 a b (by omega) (by omega)
    exact median_bounds l _ _ _ _ a b p1 p2 q1 q2 r1 r2
  · rw [if_neg h50]
    exact median_bounds l _ _ _ _ a b (by omega) (by omega) (by omega) (by omega)
      (by omega) (by omega)

/-- Helper: on a sorted range, an ordered pair produces no swap count. -/
theorem order2_id (l : List PR) (p q s : Nat) (h : ¬ lessIdx l q p) :
    order2 l p q s = (p, q, s) := by
  rw [order2, if_neg h]

/-- Helper: on a sorted range the median of an ordered triple is the middle. -/
theorem median_id (l : List PR) (x y z s : Nat)
    (h1 : ¬ lessIdx l y x) (h2 : ¬ lessIdx l z y) :
    median l x y z s = (y, s) := by
  simp only [median]
  rw [order2_id l x y s h1]
  simp only []
  rw [order2_id l y z s h2]
  simp only []
  rw [order2_id l x y s h1]

/-- Helper: `medianAdjacent` of a locally sorted position is the position. -/
theorem medianAdjacent_id (l : List PR) (x s : Nat)
    (h1 : ¬ lessIdx l x (x-1)) (h2 : ¬ lessIdx l (x+1) x) :
    medianAdjacent l x s = (x, s) := by
  rw [medianAdjacent]
  exact median_id l (x-1) x (x+1) s h1 h2

/-- Helper: sortedness gives the no-`Less` facts for ordered index pairs. -/
theorem sorted_noless (l : List PR) (a b : Nat) (hs : SortedRange l a b)
    (p q : Nat) (h1 : a ≤ p) (h2 : p ≤ q) (h3 : q < b) : ¬ lessIdx l q p :=
  not_lt.mpr (hs p q h1 h2 h3)

/-- Helper: on a sorted range `choosePivot` reports the increasing hint. -/
theorem choosePivot_sorted (l : List PR) (a b : Nat) (hs : SortedRange l a b) :
    (choosePivot l a b).2 = Hint.increasing := by
  simp only [choosePivot]
  have hsel : ∀ js : Nat × Nat, js.2 = 0 →
      (if js.2 = 0 then (js.1, Hint.increasing)
        else if js.2 = 12 then (js.1, Hint.decreasing) else (js.1, Hint.unknown)).2
        = Hint.increasing := by
    intro js h0
    rw [if_pos h0]
  apply hsel
  by_cases h8 : 8 ≤ b - a
  · rw [if_pos h8]
    have hq : 2 ≤ (b-a)/4 := by omega
    by_cases h50 : 50 ≤ b - a
    · rw [if_pos h50]
      have hq12 : 12 ≤ (b-a)/4 := by omega
      rw [medianAdjacent_id l (a + (b-a)/4 * 1) 0
        (sorted_noless l a b hs _ _ (by omega) (by omega) (by omega))
        (sorted_noless l a b hs _ _ (by omega) (by omega) (by omega))]
      simp only []
      rw [medianAdjacent_id l (a + (b-a)/4 * 2) 0
        (sorted_noless l a b hs _ _ (by omega) (by omega) (by omega))
        (sorted_noless l a b hs _ _ (by omega) (by omega) (by omega))]
      simp only []
      rw [medianAdjacent_id l (a + (b-a)/4 * 3) 0
        (sorted_noless l a b hs _ _ (by omega) (by omega) (by omega))
        (sorted_noless l a b hs _ _ (by omega) (by omega) (by omega))]
      simp only []
      rw [median_id l _ _ _ 0
        (sorted_noless l a b hs _ _ (by omega) (by omega) (by omega))
        (sorted_noless l a b hs _ _ (by omega) (by omega) (by omega))]
    · rw [if_neg h50]
      rw [median_id l _ _ _ 0
        (sorted_noless l a b hs _ _ (by omega) (by omega) (by omega))
        (sorted_noless l a b hs _ _ (by omega) (by omega) (by omega))]
  · rw [if_neg h8]

/-! `heapSortLessFunc` sorts its range. -/

/-- Helper: a subtree member is at least the root position. -/
theorem InSub.le {x s : Nat} (h : InSub x s) : x ≤ s := by
  induction h with
  | base => exact le_refl x
  | left c _ ih => omega
  | right c _ ih => omega

/-- Helper: a subtree member is the root or at least the left child. -/
theorem InSub.eq_or_ge {x s : Nat} (h : InSub x s) : s = x ∨ 2*x + 1 ≤ s := by
  induction h with
  | base => exact Or.inl rfl
  | left c h ih => right; have := h.le; omega
  | right c h ih => right; have := h.le; omega

/-- Helper: subtree membership is transitive. -/
theorem InSub.chain {x y s : Nat} (hxy : InSub x y) (hys : InSub y s) : InSub x s := by
  induction hys with
  | base => exact hxy
  | left c _ ih => exact InSub.left c ih
  | right c _ ih => exact InSub.right c ih

/-- Helper: a subtree member other than the root has its parent in the
subtree. -/
theorem InSub.parent {x s : Nat} (h : InSub x s) : s = x ∨ InSub x ((s-1)/2) := by
  induction h with
  | base => exact Or.inl rfl
  | left c hc _ =>
    right
    have he : (2*c+1-1)/2 = c := by omega
    rw [he]
    exact hc
  | right c hc _ =>
    right
    have he : (2*c+2-1)/2 = c := by omega
    rw [he]
    exact hc

/-- Helper: everything is in the subtree of the root position `0`. -/
theorem InSub.zero (n : Nat) : InSub 0 n := by
  have main : ∀ fuel m, m ≤ fuel → InSub 0 m := by
    intro fuel
    induction fuel with
    | zero =>
      intro m hm
      have h0 : m = 0 := by omega
      rw [h0]
      exact InSub.base
    | succ fuel ih =>
      intro m hm
      by_cases hm0 : m = 0
      · rw [hm0]; exact InSub.base
      · have hpar : m = 2*((m-1)/2)+1 ∨ m = 2*((m-1)/2)+2 := by omega
        have hp := ih ((m-1)/2) (by omega)
        rcases hpar with he | he
        · rw [he]; exact InSub.left _ hp
        · rw [he]; exact InSub.right _ hp
  exact main n n (le_refl n)

/-- Helper: the subtrees of two siblings are disjoint. -/
theorem InSub.sib_disjoint (r : Nat) :
    ∀ s, InSub (2*r+1) s → InSub (2*r+2) s → False := by
  have main : ∀ fuel s, s ≤ fuel → InSub (2*r+1) s → InSub (2*r+2) s → False := by
    intro fuel
    induction fuel with
    | zero =>
      intro s hs h1 h2
      have := h1.le
      omega
    | succ fuel ih =>
      intro s hs h1 h2
      rcases h1.parent with he1 | hp1
      · rcases h2.parent with he2 | hp2
        · omega
        · rw [he1] at hp2
          have hpe : (2*r+1-1)/2 = r := by omega
          rw [hpe] at hp2
          have := hp2.le
          omega
      · rcases h2.parent with he2 | hp2
        · rw [he2] at hp1
          have hpe : (2*r+2-1)/2 = r := by omega
          rw [hpe] at hp1
          have := hp1.le
          omega
        · have hs1 : 1 ≤ s := by have := h1.le; omega
          exact ih ((s-1)/2) (by omega) hp1 hp2
  exact fun s => main s s (le_refl s)

/-- Helper: a subtree member is the root or lies in one of the two child
subtrees. -/
theorem InSub.inv_root {root r : Nat} (h : InSub root r) :
    r = root ∨ InSub (2*root+1) r ∨ InSub (2*root+2) r := by
  induction h with
  | base => exact Or.inl rfl
  | left c _ ih =>
    rcases ih with he | hl | hr
    · rw [he]; exact Or.inr (Or.inl InSub.base)
    · exact Or.inr (Or.inl (InSub.left c hl))
    · exact Or.inr (Or.inr (InSub.left c hr))
  | right c _ ih =>
    rcases ih with he | hl | hr
    · rw [he]; exact Or.inr (Or.inr InSub.base)
    · exact Or.inr (Or.inl (InSub.right c hl))
    · exact Or.inr (Or.inr (InSub.right c hr))

/-- Helper: within a heap-shaped subtree, the subtree root is minimal. -/
theorem subtree_min (l : List PR) (first hi x : Nat)
    (hpairs : ∀ r c, c < hi → (c = 2*r+1 ∨ c = 2*r+2) → InSub x r →
      (getE l (first+r)).t ≤ (getE l (first+c)).t) :
    ∀ s, InSub x s → s < hi → (getE l (first+x)).t ≤ (getE l (first+s)).t := by
  intro s hs
  induction hs with
  | base => intro _; exact le_refl _
  | left c hc ih =>
    intro hlt
    exact le_trans (ih (by omega)) (hpairs c (2*c+1) hlt (Or.inl rfl) hc)
  | right c hc ih =>
    intro hlt
    exact le_trans (ih (by omega)) (hpairs c (2*c+2) hlt (Or.inr rfl) hc)

/-- Helper: the root of a heap is minimal. -/
theorem heap_root_min (l : List PR) (first hi : Nat) (hH : HeapOn l first hi) :
    ∀ k, k < hi → (getE l first).t ≤ (getE l (first+k)).t := by
  have hz : (getE l (first+0)).t ≤ (getE l (first+0)).t := le_refl _
  have main := subtree_min l first hi 0
    (fun r c hc hrel _ => hH r c hc hrel)
  intro k hk
  have h0 : first + 0 = first := by omega
  have := main k (InSub.zero k) hk
  rw [h0] at this
  exact this

/-- Helper: `siftDownLessFunc(data, root, hi, first)` restores the heap shape
of the subtree rooted at `root`, touching only that subtree. -/
theorem siftDown_spec (first hi : Nat) :
    ∀ (fuel root : Nat) (l : List PR),
      hi - root ≤ fuel → first + hi ≤ l.length →
      (∀ r c, c < hi → (c = 2*r+1 ∨ c = 2*r+2) → InSub root r → r ≠ root →
        (getE l (first+r)).t ≤ (getE l (first+c)).t) →
      SwapsOn (fun k => ∃ s, InSub root s ∧ s < hi ∧ k = first + s) l
        (siftDown first hi fuel root l) ∧
      (∀ r c, c < hi → (c = 2*r+1 ∨ c = 2*r+2) → InSub root r →
        (getE (siftDown first hi fuel root l) (first+r)).t
          ≤ (getE (siftDown first hi fuel root l) (first+c)).t) := by
  intro fuel
  induction fuel with
  | zero =>
    intro root l hfuel hlen hpairs
    rw [siftDown]
    refine ⟨SwapsOn.refl l, ?_⟩
    intro r c hc hrel hr
    have hrr := hr.le
    exact absurd hc (by rcases hrel with he | he <;> omega)
  | succ fuel ih =>
    intro root l hfuel hlen hpairs
    simp only [siftDown]
    by_cases hc0 : 2*root+1 ≥ hi
    · rw [if_pos hc0]
      refine ⟨SwapsOn.refl l, ?_⟩
      intro r c hc hrel hr
      by_cases hre : r = root
      · subst hre
        exact absurd hc (by rcases hrel with he | he <;> omega)
      · exact hpairs r c hc hrel hr hre
    · rw [if_neg hc0]
      generalize hch : (if 2 * root + 1 + 1 < hi ∧
          lessIdx l (first + (2 * root + 1)) (first + (2 * root + 1) + 1) then
          2 * root + 1 + 1 else 2 * root + 1) = ch
      have hfacts : (ch = 2*root+1 ∨ ch = 2*root+2) ∧ ch < hi ∧
          (∀ sib, (sib = 2*root+1 ∨ sib = 2*root+2) → sib < hi →
            (getE l (first+ch)).t ≤ (getE l (first+sib)).t) := by
        by_cases hsel : 2 * root + 1 + 1 < hi ∧
            lessIdx l (first + (2 * root + 1)) (first + (2 * root + 1) + 1)
        · rw [if_pos hsel] at hch
          have hpos : first + (2 * root + 1) + 1 = first + (2 * root + 1 + 1) := by omega
          have hlt : (getE l (first + (2 * root + 1 + 1))).t
              < (getE l (first + (2 * root + 1))).t := by
            have := hsel.2
            rw [show lessIdx l (first + (2 * root + 1)) (first + (2 * root + 1) + 1) ↔
              (getE l (first + (2 * root + 1) + 1)).t
                < (getE l (first + (2 * root + 1))).t from Iff.rfl, hpos] at this
            exact this
          refine ⟨Or.inr (by omega), by omega, ?_⟩
          intro sib hs hshi
          rw [← hch]
          rcases hs with he | he
          · rw [he]
            exact le_of_lt hlt
          · rw [he, show first + (2*root+2) = first + (2 * root + 1 + 1) from by omega]
        · rw [if_neg hsel] at hch
          refine ⟨Or.inl (by omega), by omega, ?_⟩
          intro sib hs hshi
          rw [← hch]
          rcases hs with he | he
          · rw [he]
          · rw [he]
            have h21 : 2 * root + 1 + 1 < hi := by omega
            have hnl : ¬ lessIdx l (first + (2 * root + 1)) (first + (2 * root + 1) + 1) :=
              fun hl => hsel ⟨h21, hl⟩
            have := not_lt.mp hnl
            rw [show first + (2 * root + 1) + 1 = first + (2*root+2) from by omega] at this
            exact this
      obtain ⟨hch_cases, hchhi, hsib⟩ := hfacts
      have hrootch : root < ch := by rcases hch_cases with he | he <;> omega
      have hInSubCh : InSub root ch := by
        rcases hch_cases with he | he
        · rw [he]; exact InSub.left root InSub.base
        · rw [he]; exact InSub.right root InSub.base
      have hrootl : first + root < l.length := by omega
      have hchl : first + ch < l.length := by omega
      by_cases hless : lessIdx l (first + root) (first + ch)
      · rw [if_pos hless]
        have hlt : (getE l (first+ch)).t < (getE l (first+root)).t := hless
        have hne : first + root ≠ first + ch := by omega
        have hg_root : getE (swapE l (first+root) (first+ch)) (first+root)
            = getE l (first+ch) := by
          rw [getE_swapE l _ _ _ hrootl hchl, if_neg hne, if_pos rfl]
        have hg_ch : getE (swapE l (first+root) (first+ch)) (first+ch)
            = getE l (first+root) := by
          rw [getE_swapE l _ _ _ hrootl hchl, if_pos rfl]
        have hg_other : ∀ X, X ≠ first + root → X ≠ first + ch →
            getE (swapE l (first+root) (first+ch)) X = getE l X :=
          fun X h1 h2 => getE_swapE_other l _ _ X h1 h2
        have hpairs' : ∀ r c, c < hi → (c = 2*r+1 ∨ c = 2*r+2) → InSub ch r → r ≠ ch →
            (getE (swapE l (first+root) (first+ch)) (first+r)).t
              ≤ (getE (swapE l (first+root) (first+ch)) (first+c)).t := by
          intro r c hc hrel hr hrch
          have hr2 : 2*ch + 1 ≤ r := by
            rcases hr.eq_or_ge with he | he
            · exact absurd he hrch
            · exact he
          have hcr : r < c := by rcases hrel with he | he <;> omega
          rw [hg_other (first+r) (by omega) (by omega),
            hg_other (first+c) (by omega) (by omega)]
          exact hpairs r c hc hrel (hInSubCh.chain hr) (by omega)
        obtain ⟨hswrec, hpairsrec⟩ := ih ch (swapE l (first+root) (first+ch))
          (by omega) (by rw [length_swapE]; exact hlen) hpairs'
        have hmin : ∀ s, InSub ch s → s < hi →
            (getE l (first+ch)).t ≤ (getE l (first+s)).t :=
          subtree_min l first hi ch
            (fun r' c' h1 h2 h3 => hpairs r' c' h1 h2 (hInSubCh.chain h3)
              (by have := h3.le; omega))
        have hout : ∀ X, (¬ ∃ s, InSub ch s ∧ s < hi ∧ X = first + s) →
            getE (siftDown first hi fuel ch (swapE l (first+root) (first+ch))) X
              = getE (swapE l (first+root) (first+ch)) X :=
          fun X hX => hswrec.outside X hX
        have hnotsub_root : ¬ ∃ s, InSub ch s ∧ s < hi ∧ first + root = first + s := by
          rintro ⟨s, hs, _, he⟩
          have hse : s = root := by omega
          rw [hse] at hs
          have := hs.le
          omega
        have hptw : (getE l (first+ch)).t
            ≤ (getE (siftDown first hi fuel ch (swapE l (first+root) (first+ch)))
                (first+ch)).t := by
          have := @SwapsOn.pointwise
            (fun k => ∃ s, InSub ch s ∧ s < hi ∧ k = first + s)
            (fun x => (getE l (first+ch)).t ≤ x.t) _ _ hswrec
            (by
              rintro k ⟨s, _, hshi, he⟩
              rw [length_swapE, he]
              omega)
            (by
              rintro k ⟨s, hs, hshi, he⟩
              by_cases hsch : s = ch
              · rw [he, hsch, hg_ch]
                exact le_of_lt hlt
              · have hs2 : 2*ch+1 ≤ s := by
                  rcases hs.eq_or_ge with h1 | h1
                  · exact absurd h1 hsch
                  · exact h1
                rw [he, hg_other (first+s) (by omega) (by omega)]
                exact hmin s hs hshi)
            (first+ch) ⟨ch, InSub.base, hchhi, rfl⟩
          exact this
        refine ⟨?_, ?_⟩
        · refine SwapsOn.step (first+root) (first+ch) l _
            ⟨root, InSub.base, by omega, rfl⟩ ⟨ch, hInSubCh, hchhi, rfl⟩ ?_
          exact hswrec.mono (by
            rintro k ⟨s, hs, hshi, he⟩
            exact ⟨s, hInSubCh.chain hs, hshi, he⟩)
        · intro r c hc hrel hr
          have hsplit : r = root ∨ InSub ch r ∨
              (∃ sib, (sib = 2*root+1 ∨ sib = 2*root+2) ∧ sib ≠ ch ∧ InSub sib r) := by
            rcases hr.inv_root with h1 | h1 | h1
            · exact Or.inl h1
            · rcases hch_cases with he | he
              · exact Or.inr (Or.inl (by rw [he]; exact h1))
              · exact Or.inr (Or.inr ⟨2*root+1, Or.inl rfl, by omega, h1⟩)
            · rcases hch_cases with he | he
              · exact Or.inr (Or.inr ⟨2*root+2, Or.inr rfl, by omega, h1⟩)
              · exact Or.inr (Or.inl (by rw [he]; exact h1))
          rcases hsplit with hre | hsub | ⟨sib, hsibmem, hsibne, hsubr⟩
          · rw [hre]
            rw [hre] at hrel
            have hgroot : getE (siftDown first hi fuel ch
                (swapE l (first+root) (first+ch))) (first+root) = getE l (first+ch) := by
              rw [hout (first+root) hnotsub_root, hg_root]
            rw [hgroot]
            by_cases hcch : c = ch
            · rw [hcch]
              exact hptw
            · have hnotsub_c : ¬ ∃ s, InSub ch s ∧ s < hi ∧ first + c = first + s := by
                rintro ⟨s, hs, _, he⟩
                have hse : s = c := by omega
                rw [hse] at hs
                rcases hs.eq_or_ge with h1 | h1
                · exact hcch h1
                · rcases hch_cases with he2 | he2 <;> rcases hrel with he3 | he3 <;> omega
              rw [hout (first+c) hnotsub_c,
                hg_other (first+c) (by rcases hrel with he | he <;> omega)
                  (fun hxe => hcch (by omega))]
              exact hsib c hrel hc
          · exact hpairsrec r c hc hrel hsub
          · have hrne : r ≠ root := by
              have h1 := hsubr.le
              rcases hsibmem with he | he <;> omega
            have hInSibC : InSub sib c := by
              rcases hrel with he | he
              · rw [he]; exact InSub.left r hsubr
              · rw [he]; exact InSub.right r hsubr
            have hdisj : ∀ s, InSub sib s → ¬ InSub ch s := by
              intro s hsibs hchs
              rcases hch_cases with he | he <;> rcases hsibmem with he2 | he2
              · exact hsibne (by omega)
              · exact InSub.sib_disjoint root s (by rw [← he]; exact hchs)
                  (by rw [← he2]; exact hsibs)
              · exact InSub.sib_disjoint root s (by rw [← he2]; exact hsibs)
                  (by rw [← he]; exact hchs)
              · exact hsibne (by omega)
            have hnotsub_r : ¬ ∃ s, InSub ch s ∧ s < hi ∧ first + r = first + s := by
              rintro ⟨s, hs, _, he⟩
              have hse : s = r := by omega
              rw [hse] at hs
              exact hdisj r hsubr hs
            have hnotsub_c : ¬ ∃ s, InSub ch s ∧ s < hi ∧ first + c = first + s := by
              rintro ⟨s, hs, _, he⟩
              have hse : s = c := by omega
              rw [hse] at hs
              exact hdisj c hInSibC hs
            have hrch : r ≠ ch := fun he => hdisj r hsubr (he ▸ InSub.base)
            have hcchx : c ≠ ch := fun he => hdisj c hInSibC (he ▸ InSub.base)
            rw [hout (first+r) hnotsub_r, hout (first+c) hnotsub_c,
              hg_other (first+r) (by omega) (fun hxe => hrch (by omega)),
              hg_other (first+c) (by
                have := hInSibC.le
                rcases hsibmem with he | he <;> omega)
                (fun hxe => hcchx (by omega))]
            exact hpairs r c hc hrel hr hrne
      · rw [if_neg hless]
        refine ⟨SwapsOn.refl l, ?_⟩
        intro r c hc hrel hr
        by_cases hre : r = root
        · subst hre
          have hrc : (getE l (first+r)).t ≤ (getE l (first+ch)).t := not_lt.mp hless
          by_cases hcch : c = ch
          · rw [hcch]
            exact hrc
          · exact le_trans hrc (hsib c hrel hc)
        · exact hpairs r c hc hrel hr hre

/-- Helper: the first loop of `heapSortLessFunc` builds the heap bottom-up. -/
theorem heapBuild_spec (first hi : Nat) :
    ∀ (cnt : Nat) (l : List PR), first + hi ≤ l.length →
      (∀ r c, c < hi → (c = 2*r+1 ∨ c = 2*r+2) → cnt ≤ r →
        (getE l (first+r)).t ≤ (getE l (first+c)).t) →
      SwapsOn (InRange first (first+hi)) l (heapBuild first hi cnt l) ∧
        HeapOn (heapBuild first hi cnt l) first hi := by
  intro cnt
  induction cnt with
  | zero =>
    intro l hlen hinv
    rw [heapBuild]
    exact ⟨SwapsOn.refl l, fun r c hc hrel => hinv r c hc hrel (Nat.zero_le r)⟩
  | succ cnt ih =>
    intro l hlen hinv
    rw [heapBuild]
    have hpairs : ∀ r c, c < hi → (c = 2*r+1 ∨ c = 2*r+2) → InSub cnt r → r ≠ cnt →
        (getE l (first+r)).t ≤ (getE l (first+c)).t := by
      intro r c hc hrel hr hrne
      refine hinv r c hc hrel ?_
      rcases hr.eq_or_ge with he | he
      · exact absurd he hrne
      · omega
    obtain ⟨hsw, hconc⟩ := siftDown_spec first hi hi cnt l (by omega) hlen hpairs
    have hout : ∀ X, (¬ ∃ s, InSub cnt s ∧ s < hi ∧ X = first + s) →
        getE (siftDown first hi hi cnt l) X = getE l X := fun X hX => hsw.outside X hX
    have hinv' : ∀ r c, c < hi → (c = 2*r+1 ∨ c = 2*r+2) → cnt ≤ r →
        (getE (siftDown first hi hi cnt l) (first+r)).t
          ≤ (getE (siftDown first hi hi cnt l) (first+c)).t := by
      intro r c hc hrel hr
      by_cases hins : InSub cnt r
      · exact hconc r c hc hrel hins
      · have hrne : r ≠ cnt := fun he => hins (he ▸ InSub.base)
        have hnot_r : ¬ ∃ s, InSub cnt s ∧ s < hi ∧ first + r = first + s := by
          rintro ⟨s, hs, _, he⟩
          have hse : s = r := by omega
          rw [hse] at hs
          exact hins hs
        have hnot_c : ¬ ∃ s, InSub cnt s ∧ s < hi ∧ first + c = first + s := by
          rintro ⟨s, hs, _, he⟩
          have hsc : s = c := by omega
          rw [hsc] at hs
          rcases hs.parent with he2 | hp
          · rcases hrel with he3 | he3 <;> omega
          · have hpe : (c-1)/2 = r := by rcases hrel with he3 | he3 <;> omega
            rw [hpe] at hp
            exact hins hp
        rw [hout (first+r) hnot_r, hout (first+c) hnot_c]
        exact hinv r c hc hrel (by omega)
    obtain ⟨hsw2, hheap⟩ := ih (siftDown first hi hi cnt l)
      (by rw [hsw.length_eq]; exact hlen) hinv'
    refine ⟨?_, hheap⟩
    exact (hsw.mono (by rintro k ⟨s, _, hshi, he⟩; exact ⟨by omega, by omega⟩)).trans hsw2

/-- Helper: the pop loop of `heapSortLessFunc`: the heap shrinks as the
minima accumulate, sorted, at the tail. -/
theorem heapPop_spec (first N : Nat) :
    ∀ (cnt : Nat) (l : List PR), cnt ≤ N → first + N ≤ l.length →
      HeapOn l first cnt →
      SortedRange l (first+cnt) (first+N) →
      (∀ k m, k < cnt → cnt ≤ m → m < N →
        (getE l (first+m)).t ≤ (getE l (first+k)).t) →
      SwapsOn (InRange first (first+cnt)) l (heapPop first cnt l) ∧
        SortedRange (heapPop first cnt l) first (first+N) := by
  intro cnt
  induction cnt with
  | zero =>
    intro l hcN hlen hH hT hB
    rw [heapPop]
    refine ⟨SwapsOn.refl l, ?_⟩
    have h0 : first + 0 = first := by omega
    rw [h0] at hT
    exact hT
  | succ cnt ih =>
    intro l hcN hlen hH hT hB
    rw [heapPop]
    have hfl : first < l.length := by omega
    have hfcl : first + cnt < l.length := by omega
    have hrootmin := heap_root_min l first (cnt+1) hH
    set l1 := swapE l first (first+cnt) with hl1_def
    have hg_tailhead : getE l1 (first+cnt) = getE l first := by
      rw [hl1_def, getE_swapE l _ _ _ hfl hfcl, if_pos rfl]
    have hg_root1 : getE l1 first = getE l (first+cnt) := by
      rw [hl1_def, getE_swapE l _ _ _ hfl hfcl]
      by_cases he : first = first + cnt
      · rw [if_pos he, ← he]
      · rw [if_neg he, if_pos rfl]
    have hg_other1 : ∀ X, X ≠ first → X ≠ first + cnt → getE l1 X = getE l X := by
      intro X h1 h2
      rw [hl1_def]
      exact getE_swapE_other l _ _ X h1 h2
    have hpairs1 : ∀ r c, c < cnt → (c = 2*r+1 ∨ c = 2*r+2) → InSub 0 r → r ≠ 0 →
        (getE l1 (first+r)).t ≤ (getE l1 (first+c)).t := by
      intro r c hc hrel hr hrne
      have hrlt : r < cnt := by rcases hrel with he | he <;> omega
      rw [hg_other1 (first+r) (by omega) (by omega),
        hg_other1 (first+c) (by rcases hrel with he | he <;> omega) (by omega)]
      exact hH r c (by omega) hrel
    obtain ⟨hsw2, hconc2⟩ := siftDown_spec first cnt cnt 0 l1
      (by omega) (by rw [hl1_def, length_swapE]; omega) hpairs1
    set l2 := siftDown first cnt cnt 0 l1 with hl2_def
    have hsw2' : SwapsOn (InRange first (first+cnt)) l1 l2 :=
      hsw2.mono (by rintro k ⟨s, _, hshi, he⟩; exact ⟨by omega, by omega⟩)
    have hH2 : HeapOn l2 first cnt := fun r c hc hrel => hconc2 r c hc hrel (InSub.zero r)
    have hout2 : ∀ X, first + cnt ≤ X → getE l2 X = getE l1 X := by
      intro X hX
      exact hsw2'.outside X (fun hP => by have := hP.2; omega)
    have hl2len : l2.length = l.length := by
      rw [hsw2'.length_eq, hl1_def, length_swapE]
    have hT2 : SortedRange l2 (first+cnt) (first+N) := by
      intro p q hp hpq hq
      rw [hout2 p hp, hout2 q (by omega)]
      by_cases hpe : p = first + cnt
      · rw [hpe, hg_tailhead]
        by_cases hqe : q = first + cnt
        · rw [hqe, hg_tailhead]
        · rw [hg_other1 q (by omega) hqe]
          have hqm := hB 0 (q - first) (by omega) (by omega) (by omega)
          rw [show first + (q - first) = q from by omega,
            show first + 0 = first from by omega] at hqm
          exact hqm
      · rw [hg_other1 p (by omega) hpe, hg_other1 q (by omega) (by omega)]
        exact hT p q (by omega) hpq hq
    have hB2 : ∀ k m, k < cnt → cnt ≤ m → m < N →
        (getE l2 (first+m)).t ≤ (getE l2 (first+k)).t := by
      intro k m hk hm hmN
      by_cases hmc : m = cnt
      · have hv : getE l2 (first+m) = getE l first := by
          rw [hmc, hout2 (first+cnt) (le_refl _), hg_tailhead]
        rw [hv]
        exact @SwapsOn.pointwise (InRange first (first+cnt))
          (fun x => (getE l first).t ≤ x.t) _ _ hsw2'
          (fun p hp => by rw [hl1_def, length_swapE]; have := hp.2; omega)
          (by
            intro p hp
            by_cases hpe : p = first
            · rw [hpe, hg_root1]
              exact hrootmin cnt (by omega)
            · rw [hg_other1 p hpe (by have := hp.2; omega)]
              have hx := hrootmin (p - first) (by have := hp.2; omega)
              rw [show first + (p - first) = p from by have := hp.1; omega] at hx
              exact hx)
          (first+k) ⟨by omega, by omega⟩
      · have hv : getE l2 (first+m) = getE l (first+m) := by
          rw [hout2 (first+m) (by omega), hg_other1 (first+m) (by omega) (by omega)]
        rw [hv]
        exact @SwapsOn.pointwise (InRange first (first+cnt))
          (fun x => (getE l (first+m)).t ≤ x.t) _ _ hsw2'
          (fun p hp => by rw [hl1_def, length_swapE]; have := hp.2; omega)
          (by
            intro p hp
            by_cases hpe : p = first
            · rw [hpe, hg_root1]
              exact hB cnt m (by omega) (by omega) hmN
            · rw [hg_other1 p hpe (by have := hp.2; omega)]
              have hx := hB (p - first) m (by have := hp.2; omega) (by omega) hmN
              rw [show first + (p - first) = p from by have := hp.1; omega] at hx
              exact hx)
          (first+k) ⟨by omega, by omega⟩
    obtain ⟨hswr, hsortr⟩ := ih l2 (by omega) (by rw [hl2len]; exact hlen) hH2 hT2 hB2
    refine ⟨?_, hsortr⟩
    refine SwapsOn.step first (first+cnt) l _ ⟨le_refl _, by omega⟩ ⟨by omega, by omega⟩ ?_
    rw [← hl1_def]
    exact (hsw2'.mono (fun k hk => ⟨hk.1, by have := hk.2; omega⟩)).trans
      (hswr.mono (fun k hk => ⟨hk.1, by have := hk.2; omega⟩))

/-- Helper: `heapSortLessFunc(data, a, b)` permutes the range `[a, b)` and
leaves it sorted. -/
theorem heapSort_spec (l : List PR) (a b : Nat) (hab : a ≤ b) (hb : b ≤ l.length) :
    SwapsOn (InRange a b) l (heapSort l a b) ∧ SortedRange (heapSort l a b) a b := by
  rw [heapSort]
  have hinv0 : ∀ r c, c < b - a → (c = 2*r+1 ∨ c = 2*r+2) → (b-a-1)/2 + 1 ≤ r →
      (getE l (a+r)).t ≤ (getE l (a+c)).t := by
    intro r c hc hrel hr
    exact absurd hc (by rcases hrel with he | he <;> omega)
  obtain ⟨hswb, hheap⟩ := heapBuild_spec a (b-a) ((b-a-1)/2+1) l (by omega) hinv0
  obtain ⟨hswp, hsort⟩ := heapPop_spec a (b-a) (b-a)
    (heapBuild a (b-a) ((b-a-1)/2+1) l) (le_refl _)
    (by rw [hswb.length_eq]; omega) hheap
    (fun i j h1 h2 h3 => absurd h3 (by omega))
    (fun k m hk hm hmN => absurd hmN (by omega))
  have he : a + (b - a) = b := by omega
  rw [he] at hswb hswp hsort
  exact ⟨hswb.trans hswp, hsort⟩

/-! The main pdqsort recursion. -/

/-- Helper: the partitioning step of `pdqsortLessFunc`, after the cheap exits
have been dispatched: the equal-block shortcut or the partition with its two
recursive calls.  The induction hypothesis on the fuel is taken as an explicit
assumption. -/
theorem pdqsort_split_spec (fuel a b limit2 : Nat) (wb wp : Bool)
    (l2 : List PR) (pivot : Nat)
    (IH : ∀ (a' b' limit' : Nat) (wb' wp' : Bool) (l' : List PR),
      b' ≤ l'.length → b' - a' ≤ fuel → Sentinel l' a' b' →
      SwapsOn (InRange a' b') l' (pdqsort fuel a' b' limit' wb' wp' l') ∧
        SortedRange (pdqsort fuel a' b' limit' wb' wp' l') a' b')
    (hb : b ≤ l2.length) (h12 : 12 < b - a) (hfuel : b - a ≤ fuel + 1)
    (hsent : Sentinel l2 a b) (hpiv1 : a ≤ pivot) (hpiv2 : pivot < b) :
    ∀ out,
      (if 0 < a ∧ ¬ lessIdx l2 (a-1) pivot then
        pdqsort fuel (partitionEqualGo l2 a b pivot).1 b limit2 wb wp
          (partitionEqualGo l2 a b pivot).2
      else if (partitionGo l2 a b pivot).1 - a < b - (partitionGo l2 a b pivot).1 then
        pdqsort fuel ((partitionGo l2 a b pivot).1 + 1) b limit2
          (decide (min ((partitionGo l2 a b pivot).1 - a)
            (b - (partitionGo l2 a b pivot).1) ≥ (b - a) / 8))
          (partitionGo l2 a b pivot).2.1
          (pdqsort fuel a (partitionGo l2 a b pivot).1 limit2 true true
            (partitionGo l2 a b pivot).2.2)
      else
        pdqsort fuel a (partitionGo l2 a b pivot).1 limit2
          (decide (min ((partitionGo l2 a b pivot).1 - a)
            (b - (partitionGo l2 a b pivot).1) ≥ (b - a) / 8))
          (partitionGo l2 a b pivot).2.1
          (pdqsort fuel ((partitionGo l2 a b pivot).1 + 1) b limit2 true true
            (partitionGo l2 a b pivot).2.2)) = out →
      SwapsOn (InRange a b) l2 out ∧ SortedRange out a b := by
  intro out hout
  have hab : a < b := by omega
  by_cases hpe : 0 < a ∧ ¬ lessIdx l2 (a-1) pivot
  · rw [if_pos hpe] at hout
    rcases hml : partitionEqualGo l2 a b pivot with ⟨mf, lf⟩
    rw [hml] at hout
    simp only [] at hout
    obtain ⟨hswE, hmfa, hmfb, hFront, hBack⟩ :=
      partitionEqualGo_spec l2 a b pivot hab hb hpiv1 hpiv2 mf lf hml
    have hvt : (getE l2 pivot).t = (getE l2 (a-1)).t :=
      le_antisymm (hsent hpe.1 pivot hpiv1 hpiv2) (not_lt.mp hpe.2)
    have hsent' : Sentinel lf mf b := by
      intro _ k hk1 hk2
      have h1 := hBack k hk1 hk2
      have h2 := hFront (mf-1) (by omega) (by omega)
      omega
    have hlf : b ≤ lf.length := by rw [hswE.length_eq]; exact hb
    obtain ⟨hswR, hsortR⟩ := IH mf b limit2 wb wp lf hlf (by omega) hsent'
    rw [← hout]
    have hofront : ∀ k, a ≤ k → k < mf →
        getE (pdqsort fuel mf b limit2 wb wp lf) k = getE lf k := by
      intro k h1 h2
      exact hswR.outside k (fun hP => by have := hP.1; omega)
    have hsentlf := sentinel_preserved hsent hswE hb
    have hfa1 : getE lf (a-1) = getE l2 (a-1) :=
      hswE.outside (a-1) (fun hP => by have := hP.1; omega)
    have hfront_eq : ∀ k, a ≤ k → k < mf →
        (getE (pdqsort fuel mf b limit2 wb wp lf) k).t = (getE l2 pivot).t := by
      intro k h1 h2
      rw [hofront k h1 h2]
      refine le_antisymm ?_ (hFront k h1 h2)
      have h3 := hsentlf hpe.1 k h1 (by omega)
      rw [hfa1] at h3
      rw [hvt]
      exact h3
    have hback_lt : ∀ k, mf ≤ k → k < b →
        (getE (pdqsort fuel mf b limit2 wb wp lf) k).t < (getE l2 pivot).t := by
      intro k h1 h2
      exact @SwapsOn.pointwise (InRange mf b) (fun x => x.t < (getE l2 pivot).t)
        _ _ hswR (fun p hp => by have := hp.2; omega)
        (fun p hp => hBack p hp.1 hp.2) k ⟨h1, h2⟩
    constructor
    · exact hswE.trans (hswR.mono (fun k hk => ⟨by have := hk.1; omega, hk.2⟩))
    · intro p q hp hpq hq
      by_cases hqm : q < mf
      · rw [hfront_eq q (by omega) hqm, hfront_eq p hp (by omega)]
      · by_cases hpm : p < mf
        · rw [hfront_eq p hp hpm]
          exact le_of_lt (hback_lt q (by omega) hq)
        · exact hsortR p q (by omega) hpq hq
  · rw [if_neg hpe] at hout
    rcases hmal : partitionGo l2 a b pivot with ⟨mid, alr, l3⟩
    rw [hmal] at hout
    simp only [] at hout
    obtain ⟨hswP, hmida, hmidb, hmidv, hLeft, hRight⟩ :=
      partitionGo_spec l2 a b pivot hab hb hpiv1 hpiv2 mid alr l3 hmal
    have hl3 : b ≤ l3.length := by rw [hswP.length_eq]; exact hb
    have hsentL : Sentinel l3 a mid := by
      intro ha0 k hk1 hk2
      have hx := @SwapsOn.pointwise (InRange a b)
        (fun x => x.t ≤ (getE l2 (a-1)).t) _ _ hswP
        (fun p hp => by have := hp.2; omega)
        (fun p hp => hsent ha0 p hp.1 hp.2) k ⟨hk1, by omega⟩
      have h4 : getE l3 (a-1) = getE l2 (a-1) :=
        hswP.outside (a-1) (fun hP => by have := hP.1; omega)
      rw [h4]
      exact hx
    by_cases hside : mid - a < b - mid
    · rw [if_pos hside] at hout
      obtain ⟨hswL, hsortL⟩ := IH a mid limit2 true true l3 (by omega) (by omega) hsentL
      have hli_len : b ≤ (pdqsort fuel a mid limit2 true true l3).length := by
        rw [hswL.length_eq]; exact hl3
      have houtL : ∀ X, mid ≤ X →
          getE (pdqsort fuel a mid limit2 true true l3) X = getE l3 X :=
        fun X hX => hswL.outside X (fun hP => by have := hP.2; omega)
      have hsentR : Sentinel (pdqsort fuel a mid limit2 true true l3) (mid+1) b := by
        intro _ k hk1 hk2
        rw [houtL k (by omega), show mid + 1 - 1 = mid from rfl, houtL mid (le_refl _),
          hmidv]
        exact hRight k (by omega) hk2
      obtain ⟨hswR, hsortR⟩ := IH (mid+1) b limit2
        (decide (min (mid - a) (b - mid) ≥ (b - a) / 8)) alr
        (pdqsort fuel a mid limit2 true true l3) hli_len (by omega) hsentR
      rw [← hout]
      have hout_left : ∀ X, a ≤ X → X < mid →
          getE (pdqsort fuel (mid+1) b limit2
            (decide (min (mid - a) (b - mid) ≥ (b - a) / 8)) alr
            (pdqsort fuel a mid limit2 true true l3)) X
          = getE (pdqsort fuel a mid limit2 true true l3) X :=
        fun X h1 h2 => hswR.outside X (fun hP => by have := hP.1; omega)
      have hout_mid :
          getE (pdqsort fuel (mid+1) b limit2
            (decide (min (mid - a) (b - mid) ≥ (b - a) / 8)) alr
            (pdqsort fuel a mid limit2 true true l3)) mid = getE l2 pivot := by
        rw [hswR.outside mid (fun hP => by have := hP.1; omega), houtL mid (le_refl _),
          hmidv]
      have hfront_gt : ∀ k, a ≤ k → k < mid →
          (getE l2 pivot).t
            < (getE (pdqsort fuel a mid limit2 true true l3) k).t := by
        intro k h1 h2
        exact @SwapsOn.pointwise (InRange a mid)
          (fun x => (getE l2 pivot).t < x.t) _ _ hswL
          (fun p hp => by have := hp.2; omega)
          (fun p hp => hLeft p hp.1 hp.2) k ⟨h1, h2⟩
      have hback_le : ∀ k, mid + 1 ≤ k → k < b →
          (getE (pdqsort fuel (mid+1) b limit2
            (decide (min (mid - a) (b - mid) ≥ (b - a) / 8)) alr
            (pdqsort fuel a mid limit2 true true l3)) k).t ≤ (getE l2 pivot).t := by
        intro k h1 h2
        refine @SwapsOn.pointwise (InRange (mid+1) b)
          (fun x => x.t ≤ (getE l2 pivot).t) _ _ hswR
          (fun p hp => by rw [hswL.length_eq]; have := hp.2; omega)
          ?_ k ⟨h1, h2⟩
        intro p hp
        rw [houtL p (by have := hp.1; omega)]
        exact hRight p (by have := hp.1; omega) hp.2
      constructor
      · refine hswP.trans ?_
        refine (hswL.mono (fun k hk => ⟨hk.1, by have := hk.2; omega⟩)).trans ?_
        exact hswR.mono (fun k hk => ⟨by have := hk.1; omega, hk.2⟩)
      · intro p q hp hpq hq
        by_cases hqm : q < mid
        · rw [hout_left q (by omega) hqm, hout_left p hp (by omega)]
          exact hsortL p q hp hpq hqm
        · by_cases hqe : q = mid
          · rw [hqe, hout_mid]
            by_cases hpe2 : p = mid
            · rw [hpe2, hout_mid]
            · rw [hout_left p hp (by omega)]
              exact le_of_lt (hfront_gt p hp (by omega))
          · have hq1 : mid + 1 ≤ q := by omega
            by_cases hpm : mid + 1 ≤ p
            · exact hsortR p q hpm hpq hq
            · by_cases hpe2 : p = mid
              · rw [hpe2, hout_mid]
                exact hback_le q hq1 hq
              · rw [hout_left p hp (by omega)]
                exact le_trans (hback_le q hq1 hq)
                  (le_of_lt (hfront_gt p hp (by omega)))
    · rw [if_neg hside] at hout
      have hsentR3 : Sentinel l3 (mid+1) b := by
        intro _ k hk1 hk2
        rw [show mid + 1 - 1 = mid from rfl, hmidv]
        exact hRight k (by omega) hk2
      obtain ⟨hswR, hsortR⟩ := IH (mid+1) b limit2 true true l3 hl3 (by omega) hsentR3
      have hli_len : mid ≤ (pdqsort fuel (mid+1) b limit2 true true l3).length := by
        rw [hswR.length_eq]; omega
      have houtR : ∀ X, X ≤ mid →
          getE (pdqsort fuel (mid+1) b limit2 true true l3) X = getE l3 X :=
        fun X hX => hswR.outside X (fun hP => by have := hP.1; omega)
      have hsentL2 : Sentinel (pdqsort fuel (mid+1) b limit2 true true l3) a mid := by
        intro ha0 k hk1 hk2
        rw [houtR k (by omega), houtR (a-1) (by omega)]
        exact hsentL ha0 k hk1 hk2
      obtain ⟨hswL, hsortL⟩ := IH a mid limit2
        (decide (min (mid - a) (b - mid) ≥ (b - a) / 8)) alr
        (pdqsort fuel (mid+1) b limit2 true true l3) hli_len (by omega) hsentL2
      rw [← hout]
      have hout_right : ∀ X, mid ≤ X →
          getE (pdqsort fuel a mid limit2
            (decide (min (mid - a) (b - mid) ≥ (b - a) / 8)) alr
            (pdqsort fuel (mid+1) b limit2 true true l3)) X
          = getE (pdqsort fuel (mid+1) b limit2 true true l3) X :=
        fun X hX => hswL.outside X (fun hP => by have := hP.2; omega)
      have hout_mid :
          getE (pdqsort fuel a mid limit2
            (decide (min (mid - a) (b - mid) ≥ (b - a) / 8)) alr
            (pdqsort fuel (mid+1) b limit2 true true l3)) mid = getE l2 pivot := by
        rw [hout_right mid (le_refl _), houtR mid (le_refl _), hmidv]
      have hback_le : ∀ k, mid + 1 ≤ k → k < b →
          (getE (pdqsort fuel (mid+1) b limit2 true true l3) k).t
            ≤ (getE l2 pivot).t := by
        intro k h1 h2
        exact @SwapsOn.pointwise (InRange (mid+1) b)
          (fun x => x.t ≤ (getE l2 pivot).t) _ _ hswR
          (fun p hp => by have := hp.2; omega)
          (fun p hp => hRight p (by have := hp.1; omega) hp.2) k ⟨h1, h2⟩
      have hfront_gt : ∀ k, a ≤ k → k < mid →
          (getE l2 pivot).t
            < (getE (pdqsort fuel a mid limit2
                (decide (min (mid - a) (b - mid) ≥ (b - a) / 8)) alr
                (pdqsort fuel (mid+1) b limit2 true true l3)) k).t := by
        intro k h1 h2
        refine @SwapsOn.pointwise (InRange a mid)
          (fun x => (getE l2 pivot).t < x.t) _ _ hswL
          (fun p hp => by rw [hswR.length_eq]; have := hp.2; omega)
          ?_ k ⟨h1, h2⟩
        intro p hp
        rw [houtR p (by have := hp.2; omega)]
        exact hLeft p hp.1 hp.2
      constructor
      · refine hswP.trans ?_
        refine (hswR.mono (fun k hk => ⟨by have := hk.1; omega, hk.2⟩)).trans ?_
        exact hswL.mono (fun k hk => ⟨hk.1, by have := hk.2; omega⟩)
      · intro p q hp hpq hq
        by_cases hqm : q < mid
        · exact hsortL p q hp hpq hqm
        · by_cases hqe : q = mid
          · rw [hqe, hout_mid]
            by_cases hpe2 : p = mid
            · rw [hpe2, hout_mid]
            · exact le_of_lt (hfront_gt p hp (by omega))
          · have hq1 : mid + 1 ≤ q := by omega
            have hbq : (getE (pdqsort fuel a mid limit2
                (decide (min (mid - a) (b - mid) ≥ (b - a) / 8)) alr
                (pdqsort fuel (mid+1) b limit2 true true l3)) q).t
                ≤ (getE l2 pivot).t := by
              rw [hout_right q (by omega)]
              exact hback_le q hq1 hq
            by_cases hpm : mid + 1 ≤ p
            · rw [hout_right p (by omega), hout_right q (by omega)]
              exact hsortR p q hpm hpq hq
            · by_cases hpe2 : p = mid
              · rw [hpe2, hout_mid]
                exact hbq
              · exact le_trans hbq (le_of_lt (hfront_gt p hp (by omega)))

/-- Helper: the body of one `pdqsortLessFunc` iteration after the small-range
and exhausted-limit exits: pivot selection, the optional reversal, the
partial-insertion attempt, then the partitioning step. -/
theorem pdqsort_body_spec (fuel a b limit2 : Nat) (wb wp : Bool) (l0 : List PR)
    (IH : ∀ (a' b' limit' : Nat) (wb' wp' : Bool) (l' : List PR),
      b' ≤ l'.length → b' - a' ≤ fuel → Sentinel l' a' b' →
      SwapsOn (InRange a' b') l' (pdqsort fuel a' b' limit' wb' wp' l') ∧
        SortedRange (pdqsort fuel a' b' limit' wb' wp' l') a' b')
    (hb : b ≤ l0.length) (h12 : 12 < b - a) (hfuel : b - a ≤ fuel + 1)
    (hsent : Sentinel l0 a b) :
    ∀ out,
      (let ph := choosePivot l0 a b
       let rph :=
         if ph.2 = Hint.decreasing then
           (reverseRange l0 a b, (b-1) - (ph.1 - a), Hint.increasing)
         else (l0, ph.1, ph.2)
       let l1 := rph.1
       let pivot := rph.2.1
       let hint := rph.2.2
       let sl :=
         if wb ∧ wp ∧ hint = Hint.increasing then partialInsertionSort l1 a b
         else (false, l1)
       if sl.1 then sl.2
       else
         let l2 := sl.2
         if 0 < a ∧ ¬ lessIdx l2 (a-1) pivot then
           let ml := partitionEqualGo l2 a b pivot
           pdqsort fuel ml.1 b limit2 wb wp ml.2
         else
           let mal := partitionGo l2 a b pivot
           let mid := mal.1
           let wp' := mal.2.1
           let l3 := mal.2.2
           let wb' := decide (min (mid - a) (b - mid) ≥ (b - a) / 8)
           if mid - a < b - mid then
             pdqsort fuel (mid+1) b limit2 wb' wp'
               (pdqsort fuel a mid limit2 true true l3)
           else
             pdqsort fuel a mid limit2 wb' wp'
               (pdqsort fuel (mid+1) b limit2 true true l3)) = out →
      SwapsOn (InRange a b) l0 out ∧ SortedRange out a b := by
  intro out hout
  simp only [] at hout
  have h8 : 8 ≤ b - a := by omega
  obtain ⟨hcp1, hcp2⟩ := choosePivot_bounds l0 a b h8
  by_cases hdec : (choosePivot l0 a b).2 = Hint.decreasing
  · rw [if_pos hdec] at hout
    simp only [] at hout
    have hswRev : SwapsOn (InRange a b) l0 (reverseRange l0 a b) :=
      reverseRange_swapsOn l0 a b (by omega)
    have hbrev : b ≤ (reverseRange l0 a b).length := by
      rw [hswRev.length_eq]; exact hb
    have hsentrev : Sentinel (reverseRange l0 a b) a b :=
      sentinel_preserved hsent hswRev hb
    by_cases htry : wb = true ∧ wp = true ∧ True
    · rw [if_pos htry] at hout
      rcases hpis : partialInsertionSort (reverseRange l0 a b) a b with ⟨r, lf⟩
      rw [hpis] at hout
      simp only [] at hout
      obtain ⟨hswPis, hsortPis⟩ := partialInsertionSort_spec (reverseRange l0 a b) a b
        (by omega) hbrev hsentrev r lf hpis
      by_cases hr : r = true
      · rw [if_pos hr] at hout
        rw [← hout]
        exact ⟨hswRev.trans hswPis, hsortPis hr⟩
      · rw [if_neg hr] at hout
        obtain ⟨hsw', hsort'⟩ := pdqsort_split_spec fuel a b limit2 wb wp lf
          ((b-1) - ((choosePivot l0 a b).1 - a)) IH
          (by rw [hswPis.length_eq]; exact hbrev) h12 hfuel
          (sentinel_preserved hsentrev hswPis hbrev) (by omega) (by omega) out hout
        exact ⟨(hswRev.trans hswPis).trans hsw', hsort'⟩
    · rw [if_neg htry] at hout
      simp only [] at hout
      rw [if_neg Bool.false_ne_true] at hout
      obtain ⟨hsw', hsort'⟩ := pdqsort_split_spec fuel a b limit2 wb wp
        (reverseRange l0 a b) ((b-1) - ((choosePivot l0 a b).1 - a)) IH
        hbrev h12 hfuel hsentrev (by omega) (by omega) out hout
      exact ⟨hswRev.trans hsw', hsort'⟩
  · rw [if_neg hdec] at hout
    simp only [] at hout
    by_cases htry : wb = true ∧ wp = true ∧ (choosePivot l0 a b).2 = Hint.increasing
    · rw [if_pos htry] at hout
      rcases hpis : partialInsertionSort l0 a b with ⟨r, lf⟩
      rw [hpis] at hout
      simp only [] at hout
      obtain ⟨hswPis, hsortPis⟩ := partialInsertionSort_spec l0 a b
        (by omega) hb hsent r lf hpis
      by_cases hr : r = true
      · rw [if_pos hr] at hout
        rw [← hout]
        exact ⟨hswPis, hsortPis hr⟩
      · rw [if_neg hr] at hout
        obtain ⟨hsw', hsort'⟩ := pdqsort_split_spec fuel a b limit2 wb wp lf
          ((choosePivot l0 a b).1) IH (by rw [hswPis.length_eq]; exact hb) h12 hfuel
          (sentinel_preserved hsent hswPis hb) hcp1 hcp2 out hout
        exact ⟨hswPis.trans hsw', hsort'⟩
    · rw [if_neg htry] at hout
      simp only [] at hout
      rw [if_neg Bool.false_ne_true] at hout
      exact pdqsort_split_spec fuel a b limit2 wb wp l0
        ((choosePivot l0 a b).1) IH hb h12 hfuel hsent hcp1 hcp2 out hout

/-- Helper: `pdqsortLessFunc(data, a, b, limit)` permutes the range `[a, b)`
and leaves it sorted, for any fuel covering the range length and any state of
the `wasBalanced`/`wasPartitioned` flags, under the left-sentinel invariant. -/
theorem pdqsort_spec :
    ∀ (fuel a b limit : Nat) (wb wp : Bool) (l : List PR),
      b ≤ l.length → b - a ≤ fuel → Sentinel l a b →
      SwapsOn (InRange a b) l (pdqsort fuel a b limit wb wp l) ∧
        SortedRange (pdqsort fuel a b limit wb wp l) a b := by
  intro fuel
  induction fuel with
  | zero =>
    intro a b limit wb wp l hb hfuel hsent
    rw [pdqsort]
    exact ⟨SwapsOn.refl l, sortedRange_small l a b (by omega)⟩
  | succ fuel ih =>
    intro a b limit wb wp l hb hfuel hsent
    suffices h : ∀ out, pdqsort (fuel+1) a b limit wb wp l = out →
        SwapsOn (InRange a b) l out ∧ SortedRange out a b from h _ rfl
    intro out hout
    simp only [pdqsort] at hout
    by_cases h12 : b - a ≤ 12
    · rw [if_pos h12] at hout
      rw [← hout]
      exact insertionSort_spec l a b hb
    · rw [if_neg h12] at hout
      by_cases hlim : limit = 0
      · rw [if_pos hlim] at hout
        rw [← hout]
        exact heapSort_spec l a b (by omega) hb
      · rw [if_neg hlim] at hout
        by_cases hwb : wb = true
        · have hbl : (if ¬ wb = true then (breakPatterns l a b, limit - 1)
              else (l, limit)) = (l, limit) := if_neg (fun hC => hC hwb)
          rw [hbl] at hout
          simp only [] at hout
          exact pdqsort_body_spec fuel a b limit wb wp l ih hb (by omega) hfuel
            hsent out hout
        · rw [if_pos hwb] at hout
          simp only [] at hout
          have hsw0 := breakPatterns_swapsOn l a b (by omega)
          obtain ⟨hsw', hsort'⟩ := pdqsort_body_spec fuel a b (limit - 1) wb wp
            (breakPatterns l a b) ih (by rw [hsw0.length_eq]; exact hb) (by omega)
            hfuel (sentinel_preserved hsent hsw0 hb) out hout
          exact ⟨hsw0.trans hsw', hsort'⟩

/-- Helper: `sort.Slice` permutes the list and sorts it by `UpdatedAt`
descending. -/
theorem sortSlice_spec (l : List PR) :
    (sortSlice l).Perm l ∧ SortedRange (sortSlice l) 0 l.length := by
  have hsent : Sentinel l 0 l.length := fun h0 => absurd h0 (lt_irrefl 0)
  obtain ⟨hsw, hsort⟩ := pdqsort_spec (l.length + 1) 0 l.length (bitsLen l.length)
    true true l (le_refl _) (by omega) hsent
  exact ⟨hsw.perm (fun k hk => hk.2), hsort⟩

/-- Helper: with a positive depth budget, `pdqsortLessFunc` run with both
flags set leaves an already sorted range untouched: the partial insertion
sort exit fires before any partitioning. -/
theorem pdqsort_id (fuel a b limit : Nat) (l : List PR) (hlim : ¬ limit = 0)
    (hs : SortedRange l a b) : pdqsort fuel a b limit true true l = l := by
  rcases fuel with _ | fuel
  · rw [pdqsort]
  · simp only [pdqsort]
    by_cases h12 : b - a ≤ 12
    · rw [if_pos h12]
      exact insertionSort_id l a b hs
    · rw [if_neg h12, if_neg hlim]
      have hbl : (if ¬ True then (breakPatterns l a b, limit - 1)
          else (l, limit)) = (l, limit) := if_neg (fun hC => hC trivial)
      rw [hbl]
      simp only []
      have hinc := choosePivot_sorted l a b hs
      have hdec : ¬ (choosePivot l a b).2 = Hint.decreasing := by
        rw [hinc]
        intro hC
        exact Hint.noConfusion hC
      rw [if_neg hdec]
      simp only []
      have htry : True ∧ True ∧ (choosePivot l a b).2 = Hint.increasing :=
        ⟨trivial, trivial, hinc⟩
      rw [if_pos htry, partialInsertionSort_id l a b (by omega) hs]
      simp

/-- Helper: `sort.Slice` is the identity on an already sorted list. -/
theorem sortSlice_id (l : List PR) (hs : SortedRange l 0 l.length) :
    sortSlice l = l := by
  by_cases h0 : l.length = 0
  · have hnil : l = [] := List.eq_nil_of_length_eq_zero h0
    rw [hnil]
    rfl
  · apply pdqsort_id
    · intro hc
      rw [bitsLen] at hc
      rcases hL : l.length with _ | m
      · exact h0 hL
      · rw [hL, bitsLenAux, if_neg (Nat.succ_ne_zero m)] at hc
        exact Nat.succ_ne_zero _ hc
    · exact hs

/-- Helper: the dedup pass keeps exactly the first record of each identity
not already in `seen`. -/
theorem dedupGo_mem : ∀ (l : List PR) (seen : List Int) (x : PR),
    x ∈ dedupGo l seen ↔
      x.id ∉ seen ∧ l.find? (fun y => decide (y.id = x.id)) = some x := by
  intro l
  induction l with
  | nil =>
    intro seen x
    rw [dedupGo]
    simp [List.find?]
  | cons a xs ih =>
    intro seen x
    rw [dedupGo]
    by_cases hax : a.id = x.id
    · rw [List.find?_cons_of_pos _ (by simp [hax])]
      by_cases ha : a.id ∈ seen
      · rw [if_pos ha]
        constructor
        · intro hL
          exact absurd (hax ▸ ha) ((ih seen x).mp hL).1
        · rintro ⟨h1, _⟩
          exact absurd (hax ▸ ha) h1
      · rw [if_neg ha]
        constructor
        · intro hL
          rcases List.mem_cons.mp hL with he | hm
          · exact ⟨fun hc => ha (hax ▸ he ▸ hc), by rw [he]⟩
          · exact absurd (hax ▸ List.mem_cons_self a.id seen)
              ((ih (a.id :: seen) x).mp hm).1
        · rintro ⟨h1, h2⟩
          have hxa : a = x := Option.some.inj h2
          rw [← hxa]
          exact List.mem_cons_self a _
    · rw [List.find?_cons_of_neg _ (by simp [hax])]
      by_cases ha : a.id ∈ seen
      · rw [if_pos ha]
        exact ih seen x
      · rw [if_neg ha]
        constructor
        · intro hL
          rcases List.mem_cons.mp hL with he | hm
          · exact absurd (congrArg PR.id he).symm hax
          · obtain ⟨hs1, hs2⟩ := (ih (a.id :: seen) x).mp hm
            exact ⟨fun hc => hs1 (List.mem_cons_of_mem _ hc), hs2⟩
        · rintro ⟨h1, h2⟩
          refine List.mem_cons.mpr (Or.inr ((ih (a.id :: seen) x).mpr ⟨?_, h2⟩))
          intro hc
          rcases List.mem_cons.mp hc with he | hm
          · exact hax he.symm
          · exact h1 hm

/-- Helper: the dedup pass produces pairwise distinct identities, none of
them already in `seen`. -/
theorem dedupGo_nodup : ∀ (l : List PR) (seen : List Int),
    ((dedupGo l seen).map PR.id).Nodup ∧ ∀ x ∈ dedupGo l seen, x.id ∉ seen := by
  intro l
  induction l with
  | nil =>
    intro seen
    rw [dedupGo]
    exact ⟨List.nodup_nil, fun x hx => absurd hx (List.not_mem_nil x)⟩
  | cons a xs ih =>
    intro seen
    rw [dedupGo]
    by_cases ha : a.id ∈ seen
    · rw [if_pos ha]
      exact ih seen
    · rw [if_neg ha]
      obtain ⟨hnd, hni⟩ := ih (a.id :: seen)
      constructor
      · rw [List.map_cons]
        refine List.nodup_cons.mpr ⟨?_, hnd⟩
        intro hc
        rcases List.mem_map.mp hc with ⟨y, hy1, hy2⟩
        exact hni y hy1 (hy2 ▸ List.mem_cons_self a.id seen)
      · intro x hx
        rcases List.mem_cons.mp hx with he | hm
        · rw [he]
          exact ha
        · exact fun hc => hni x hm (List.mem_cons_of_mem _ hc)

/-- Helper: the dedup pass leaves a list with pairwise distinct identities
untouched (when none of them is in `seen`). -/
theorem dedupGo_id : ∀ (l : List PR) (seen : List Int),
    (l.map PR.id).Nodup → (∀ x ∈ l, x.id ∉ seen) → dedupGo l seen = l := by
  intro l
  induction l with
  | nil => intro seen _ _; rw [dedupGo]
  | cons a xs ih =>
    intro seen hnd hseen
    rw [dedupGo, if_neg (hseen a (List.mem_cons_self a xs))]
    rw [List.map_cons, List.nodup_cons] at hnd
    rw [ih (a.id :: seen) hnd.2 ?_]
    intro x hx hc
    rcases List.mem_cons.mp hc with he | hm
    · exact hnd.1 (he ▸ List.mem_map_of_mem PR.id hx)
    · exact hseen x (List.mem_cons_of_mem _ hx) hm

/-- Helper: the output of `deduplicateAndSort` has pairwise distinct
identities, is sorted by `UpdatedAt` descending over its whole length, and
contains exactly the first input record of each identity. -/
theorem deduplicateAndSort_out (l : List PR) :
    ((deduplicateAndSort l).map PR.id).Nodup ∧
    SortedRange (deduplicateAndSort l) 0 (deduplicateAndSort l).length ∧
    ∀ x : PR, x ∈ deduplicateAndSort l ↔
      l.find? (fun y => decide (y.id = x.id)) = some x := by
  obtain ⟨hperm, hsort⟩ := sortSlice_spec (dedupGo l [])
  have hd : deduplicateAndSort l = sortSlice (dedupGo l []) := rfl
  refine ⟨?_, ?_, ?_⟩
  · rw [hd]
    exact ((hperm.map PR.id).nodup_iff).mpr (dedupGo_nodup l []).1
  · rw [hd]
    have hlen : (sortSlice (dedupGo l [])).length = (dedupGo l []).length :=
      hperm.length_eq
    rw [hlen]
    exact hsort
  · intro x
    rw [hd, hperm.mem_iff, dedupGo_mem]
    simp

/-- Helper: the IDs `1,2,2,3` / timestamps `t1 < t3 < t2` scenario: the
duplicate of identity 2 is dropped and the insertion sort (length 3 is below
the small-range cutoff) puts the records in the order `2, 3, 1`. -/
theorem dedup_scenario (t1 t2 t3 : Int) (h13 : t1 < t3) (h32 : t3 < t2) :
    (deduplicateAndSort [⟨1, t1⟩, ⟨2, t2⟩, ⟨2, t2⟩, ⟨3, t3⟩]).map PR.id
      = [2, 3, 1] := by
  have hd : deduplicateAndSort [(⟨1, t1⟩ : PR), ⟨2, t2⟩, ⟨2, t2⟩, ⟨3, t3⟩]
      = insOuter 0 3 (0+1+1+1) (0+1) [⟨1, t1⟩, ⟨2, t2⟩, ⟨3, t3⟩] := rfl
  rw [hd]
  rw [insOuter, if_pos (show (0:Nat)+1 < 3 by omega)]
  have hc1 : (0:Nat) < 0+1 ∧
      lessIdx [(⟨1, t1⟩ : PR), ⟨2, t2⟩, ⟨3, t3⟩] (0+1) (0+1-1) :=
    ⟨by omega, show t1 < t2 from lt_trans h13 h32⟩
  have hi1 : insInner 0 (0+1) (0+1) [(⟨1, t1⟩ : PR), ⟨2, t2⟩, ⟨3, t3⟩]
      = [⟨2, t2⟩, ⟨1, t1⟩, ⟨3, t3⟩] := by
    rw [insInner, if_pos hc1, insInner]
    rfl
  rw [hi1]
  rw [insOuter, if_pos (show (0:Nat)+1+1 < 3 by omega)]
  have hc2 : (0:Nat) < 0+1+1 ∧
      lessIdx [(⟨2, t2⟩ : PR), ⟨1, t1⟩, ⟨3, t3⟩] (0+1+1) (0+1+1-1) :=
    ⟨by omega, show t1 < t3 from h13⟩
  have hsw2 : swapE [(⟨2, t2⟩ : PR), ⟨1, t1⟩, ⟨3, t3⟩] (0+1+1) (0+1+1-1)
      = [⟨2, t2⟩, ⟨3, t3⟩, ⟨1, t1⟩] := rfl
  have hc3 : ¬ ((0:Nat) < 0+1+1-1 ∧
      lessIdx [(⟨2, t2⟩ : PR), ⟨3, t3⟩, ⟨1, t1⟩] (0+1+1-1) (0+1+1-1-1)) := by
    intro hc
    exact absurd hc.2 (not_lt.mpr (le_of_lt h32))
  have hi2 : insInner 0 (0+1+1) (0+1+1) [(⟨2, t2⟩ : PR), ⟨1, t1⟩, ⟨3, t3⟩]
      = [⟨2, t2⟩, ⟨3, t3⟩, ⟨1, t1⟩] := by
    rw [insInner, if_pos hc2, hsw2, insInner, if_neg hc3]
  rw [hi2]
  rw [insOuter, if_neg (show ¬ ((0:Nat)+1+1+1 < 3) by omega)]
  rfl

/-- C2: `deduplicateAndSort` keeps exactly one record per identity - the
first record of that identity found in input order, as characterized by
`List.find?` - and orders the output by `UpdatedAt` descending; the
IDs `1,2,2,3` / timestamps `t1 < t3 < t2` scenario returns the identity
order `[2, 3, 1]` (length 3). -/
theorem claim_C2_dedup_first_wins_sorted (l : List PR) :
    ((deduplicateAndSort l).map PR.id).Nodup ∧
    (∀ x : PR, x ∈ deduplicateAndSort l ↔
      l.find? (fun y => decide (y.id = x.id)) = some x) ∧
    (∀ i j, i ≤ j → j < (deduplicateAndSort l).length →
      (getE (deduplicateAndSort l) j).t ≤ (getE (deduplicateAndSort l) i).t) ∧
    ∀ t1 t2 t3 : Int, t1 < t3 → t3 < t2 →
      (deduplicateAndSort [⟨1, t1⟩, ⟨2, t2⟩, ⟨2, t2⟩, ⟨3, t3⟩]).map PR.id
        = [2, 3, 1] := by
  obtain ⟨h1, h2, h3⟩ := deduplicateAndSort_out l
  exact ⟨h1, h3, fun i j hij hj => h2 i j (Nat.zero_le i) hij hj, dedup_scenario⟩

/-- C2 witness: the scenario at `t1 = 1 < t3 = 2 < t2 = 3`. -/
theorem claim_C2_witness :
    (deduplicateAndSort [(⟨1, 1⟩ : PR), ⟨2, 3⟩, ⟨2, 3⟩, ⟨3, 2⟩]).map PR.id
      = [2, 3, 1] :=
  (claim_C2_dedup_first_wins_sorted []).2.2.2 1 3 2 (by decide) (by decide)

/-- C9: `deduplicateAndSort` is idempotent: its output has pairwise distinct
identities (so the second dedup pass keeps everything) and is already sorted
(so the second `sort.Slice` exits through the sortedness check unchanged). -/
theorem claim_C9_dedup_idempotent (l : List PR) :
    deduplicateAndSort (deduplicateAndSort l) = deduplicateAndSort l := by
  obtain ⟨hnd, hsort, _⟩ := deduplicateAndSort_out l
  have hd : deduplicateAndSort (deduplicateAndSort l)
      = sortSlice (dedupGo (deduplicateAndSort l) []) := rfl
  rw [hd, dedupGo_id (deduplicateAndSort l) [] hnd
    (fun x _ hc => List.not_mem_nil x.id hc)]
  exact sortSlice_id _ hsort

/-- C9 witness: idempotence at a concrete three-record input with a
duplicated identity. -/
theorem claim_C9_witness :
    deduplicateAndSort (deduplicateAndSort [(⟨1, 5⟩ : PR), ⟨1, 3⟩, ⟨2, 4⟩])
      = deduplicateAndSort [(⟨1, 5⟩ : PR), ⟨1, 3⟩, ⟨2, 4⟩] :=
  claim_C9_dedup_idempotent [⟨1, 5⟩, ⟨1, 3⟩, ⟨2, 4⟩]

/-- C5: refuted - `deduplicateAndSort`'s sort is `sort.Slice`, which is an
unstable pattern-defeating quicksort: on this 13-record input (all identities
distinct, so deduplication keeps every record) the records with identities 2
and 9 share the timestamp 3, appear in that order in the input, yet come out
in the opposite order. -/
theorem claim_C5_sort_not_stable :
    ∃ (l : List PR) (i j : Nat), i < j ∧ j < l.length ∧
      (getE l i).t = (getE l j).t ∧
      List.indexOf (getE l j) (deduplicateAndSort l) <
        List.indexOf (getE l i) (deduplicateAndSort l) := by
  refine ⟨[⟨1,1⟩, ⟨2,3⟩, ⟨3,1⟩, ⟨4,2⟩, ⟨5,1⟩, ⟨6,2⟩, ⟨7,2⟩, ⟨8,2⟩, ⟨9,3⟩,
    ⟨10,2⟩, ⟨11,1⟩, ⟨12,1⟩, ⟨13,2⟩], 1, 8, by decide, by decide, by decide, ?_⟩
  have hout : deduplicateAndSort [⟨1,1⟩, ⟨2,3⟩, ⟨3,1⟩, ⟨4,2⟩, ⟨5,1⟩, ⟨6,2⟩,
      ⟨7,2⟩, ⟨8,2⟩, ⟨9,3⟩, ⟨10,2⟩, ⟨11,1⟩, ⟨12,1⟩, ⟨13,2⟩]
      = [⟨9,3⟩, ⟨2,3⟩, ⟨7,2⟩, ⟨4,2⟩, ⟨6,2⟩, ⟨8,2⟩, ⟨10,2⟩, ⟨13,2⟩, ⟨5,1⟩,
        ⟨1,1⟩, ⟨3,1⟩, ⟨11,1⟩, ⟨12,1⟩] := by decide
  rw [hout]
  decide

end S2P
